import Mathlib

/-!
Verification development for the Ukkonen suffix-tree construction in
the source file ukkonens.py.

The Python program is embedded shallowly as an arena-based state machine:
Node, Edge and End objects live in growable lists and are addressed by
index (mirroring reference semantics), and one iteration of the inner
while-loop of extend_suffix_tree, as well as the per-phase bookkeeping of
build_suffix_tree, become a deterministic small-step function on states.
Python failure modes (IndexError on a list or string, use of a None
reference) make the step function return none, so a crashing execution has
no successor state.  Python list indexing, including resolution of
negative indices from the end of the list, is modelled by pyGet and pySet.
-/

-- defining constants, from the top of ukkonens.py
def ALPHABET_START : Int := 36

def ALPHABET_END : Int := 126

def ALPHABET_LENGTH : Int := ALPHABET_END - ALPHABET_START + 1

-- code point of the terminator character appended by Ukkonen.__init__
def DOLLAR : Nat := 36

/-- Total lookup into a list by position, none when out of range.  Used for
all arena accesses so that every lemma about it is proved in this file. -/
def lookupL {α : Type} : List α → Nat → Option α
  | [], _ => none
  | a :: _, 0 => some a
  | _ :: l, n + 1 => lookupL l n

/-- Positional update of a list; out-of-range updates leave it unchanged
(callers guard the range via asetL). -/
def setL {α : Type} : List α → Nat → α → List α
  | [], _, _ => []
  | _ :: l, 0, b => b :: l
  | a :: l, n + 1, b => a :: setL l n b

/-- Arena write: fails (like the Python runtime would) when the index is
not a valid position. -/
def asetL {α : Type} (l : List α) (k : Nat) (v : α) : Option (List α) :=
  if k < l.length then some (setL l k v) else none

/-- Python indexing semantics on a list or string: a non-negative index is
looked up directly (IndexError past the end), a negative index is resolved
from the end of the list, and anything below -len is an IndexError. -/
def pyGet {α : Type} (l : List α) (i : Int) : Option α :=
  if 0 ≤ i then lookupL l i.toNat
  else if 0 ≤ i + l.length then lookupL l (i + l.length).toNat
  else none

/-- Python indexed assignment semantics, with the same index resolution as
pyGet; fails exactly when Python would raise IndexError. -/
def pySet {α : Type} (l : List α) (i : Int) (v : α) : Option (List α) :=
  if 0 ≤ i ∧ i < l.length then some (setL l i.toNat v)
  else if i < 0 ∧ 0 ≤ i + l.length then some (setL l (i + l.length).toNat v)
  else none

/-- class End: one mutable cell holding an optional int (End() starts as
None, End(value) starts set).  Cells live in an arena; index 0 is the
shared global_end of the builder. -/
structure End where
  value : Option Int
deriving DecidableEq

/-- class Edge: start offset, a reference (arena index) to an End cell,
an optional child node reference, and an optional suffix id. -/
structure Edge where
  start : Int
  endId : Nat
  next : Option Nat
  suffix_id : Option Int
deriving DecidableEq

/-- class Node: a table of edge slots of length ALPHABET_LENGTH (entries
are edge-arena indices) and an optional suffix link (a node-arena index). -/
structure Node where
  edges : List (Option Nat)
  link : Option Nat
deriving DecidableEq

/-- Position of the construction: about to start phase i, inside the inner
while-loop of extend_suffix_tree, or done with every phase. -/
inductive Mode where
  | phaseStart
  | inner
  | finished
deriving DecidableEq

/-- The whole mutable state of a Ukkonen object together with the position
of control inside build_suffix_tree.  idxLog records every edge-table index
the program computes as ord(character) - ALPHABET_START, newest first. -/
structure Ukkonen where
  text : List Nat
  nodes : List Node
  edgeArena : List Edge
  ends : List End
  active_node : Nat
  active_edge : Option Int
  active_length : Int
  remainder : Int
  previous_node : Option Nat
  phase : Nat
  mode : Mode
  idxLog : List Int
deriving DecidableEq

/-- The fresh edge table [None] * ALPHABET_LENGTH of Node.__init__. -/
def emptyTable : List (Option Nat) := List.replicate ALPHABET_LENGTH.toNat none

/-- Ukkonen.__init__ before build_suffix_tree runs: terminator appended,
root node 0 with link to itself, global_end cell 0 with value None. -/
def initState (text : List Nat) : Ukkonen :=
  { text := text ++ [DOLLAR]
  , nodes := [{ edges := emptyTable, link := some 0 }]
  , edgeArena := []
  , ends := [{ value := none }]
  , active_node := 0
  , active_edge := none
  , active_length := 0
  , remainder := 0
  , previous_node := none
  , phase := 0
  , mode := Mode.phaseStart
  , idxLog := [] }

/-- The index ord(c) - ALPHABET_START into an edge table, as the source
computes it at every table access. -/
def slotIdx (c : Nat) : Int := (c : Int) - ALPHABET_START

/-- Steps (g) of a phase iteration: after an actual insertion (rule 2 leaf
or split), decrement remainder and adjust the active point; root with a
positive active length decrements the length and recomputes the active
edge, any other node follows its suffix link, or falls back to the root
when the link is absent. -/
def afterInsert (s : Ukkonen) (i : Nat) : Option Ukkonen :=
  let rem := s.remainder - 1
  if s.active_node = 0 ∧ s.active_length > 0 then
    some { s with remainder := rem
                , active_length := s.active_length - 1
                , active_edge := some ((i : Int) - rem + 1) }
  else
    match lookupL s.nodes s.active_node with
    | none => none
    | some nd =>
      match nd.link with
      | some l => some { s with remainder := rem, active_node := l }
      | none => some { s with remainder := rem, active_node := 0 }

/-- Rule 2, leaf creation: no edge exists for the active character, so a
new open leaf edge is created (start i, the shared global end cell 0,
suffix id i - remainder + 1), attached to the active node, the suffix link
of the previous internal node is pointed at the active node when one is
pending, and the pending reference is cleared.  nd is the active node as
looked up by the caller, idx the table index it computed. -/
def rule2Leaf (s : Ukkonen) (i : Nat) (idx : Int) (nd : Node) : Option Ukkonen :=
  let eid := s.edgeArena.length
  let edges1 := s.edgeArena ++
    [{ start := (i : Int), endId := 0, next := none
     , suffix_id := some ((i : Int) - s.remainder + 1) }]
  match pySet nd.edges idx (some eid) with
  | none => none
  | some tbl =>
    match asetL s.nodes s.active_node { nd with edges := tbl } with
    | none => none
    | some nodes1 =>
      let s1 := { s with edgeArena := edges1, nodes := nodes1
                       , idxLog := idx :: s.idxLog }
      match s1.previous_node with
      | none => afterInsert { s1 with previous_node := none } i
      | some p =>
        match lookupL s1.nodes p with
        | none => none
        | some pn =>
          match asetL s1.nodes p { pn with link := some s1.active_node } with
          | none => none
          | some nodes2 =>
            afterInsert { s1 with nodes := nodes2, previous_node := none } i

/-- Rule 2, split: the looked-up edge ed (arena index eid) mismatches the
current character at offset active_length, so a new internal node is
created with a private closed end cell, the new leaf hangs below it, the
original edge is truncated (start moved forward) and re-keyed below the
internal node, and the suffix-link bookkeeping runs.  The mutation order
follows the source line by line. -/
def splitCase (s : Ukkonen) (i : Nat) (char : Nat) (idx : Int)
    (nd : Node) (eid : Nat) (ed : Edge) : Option Ukkonen :=
  let seId := s.ends.length
  let ends1 := s.ends ++ [{ value := some (ed.start + s.active_length - 1) }]
  let inId := s.nodes.length
  let nodes1 := s.nodes ++ [{ edges := emptyTable, link := none }]
  let leafId := s.edgeArena.length
  let edges1 := s.edgeArena ++
    [{ start := (i : Int), endId := 0, next := none
     , suffix_id := some ((i : Int) - s.remainder + 1) }]
  let idx2 := slotIdx char
  match pySet emptyTable idx2 (some leafId) with
  | none => none
  | some t1 =>
    let ieId := edges1.length
    let edges2 := edges1 ++ [{ start := ed.start, endId := seId
                             , next := some inId, suffix_id := none }]
    match pySet nd.edges idx (some ieId) with
    | none => none
    | some t0 =>
      match asetL nodes1 s.active_node { nd with edges := t0 } with
      | none => none
      | some nodes2 =>
        let newStart := ed.start + s.active_length
        match asetL edges2 eid { ed with start := newStart } with
        | none => none
        | some edges3 =>
          match pyGet s.text newStart with
          | none => none
          | some c2 =>
            let idx3 := slotIdx c2
            match pySet t1 idx3 (some eid) with
            | none => none
            | some t2 =>
              match asetL nodes2 inId { edges := t2, link := none } with
              | none => none
              | some nodes3 =>
                let s1 := { s with ends := ends1, nodes := nodes3
                                 , edgeArena := edges3
                                 , idxLog := idx3 :: idx :: idx2 :: s.idxLog }
                match s1.previous_node with
                | none => afterInsert { s1 with previous_node := some inId } i
                | some p =>
                  match lookupL s1.nodes p with
                  | none => none
                  | some pn =>
                    match asetL s1.nodes p { pn with link := some inId } with
                    | none => none
                    | some nodes4 =>
                      afterInsert { s1 with nodes := nodes4
                                          , previous_node := some inId } i

/-- One iteration of the while-loop of extend_suffix_tree (the caller has
checked remainder > 0).  It updates the active edge when no length is
matched, looks up the edge for the active character, and dispatches to
rule 2 (leaf), walk-down, the showstopper, or the split.  A result with
mode phaseStart means the phase ended via break (showstopper). -/
def extendIter (s : Ukkonen) : Option Ukkonen :=
  let i := s.phase
  match lookupL s.text i with
  | none => none
  | some char =>
    match (if s.active_length = 0 then some (i : Int) else s.active_edge) with
    | none => none
    | some ae =>
      match pyGet s.text ae with
      | none => none
      | some c0 =>
        let idx := slotIdx c0
        let s0 := { s with active_edge := some ae, idxLog := idx :: s.idxLog }
        match lookupL s0.nodes s0.active_node with
        | none => none
        | some nd =>
          match pyGet nd.edges idx with
          | none => none
          | some slot =>
            match slot with
            | none => rule2Leaf s0 i idx nd
            | some eid =>
              match lookupL s0.edgeArena eid with
              | none => none
              | some ed =>
                match lookupL s0.ends ed.endId with
                | none => none
                | some ec =>
                  match ec.value with
                  | none => none
                  | some ev =>
                    let lenE := ev - ed.start + 1
                    if s0.active_length ≥ lenE then
                      match ed.next with
                      | none => none
                      | some w =>
                        some { s0 with active_edge := some (ae + lenE)
                                     , active_length := s0.active_length - lenE
                                     , active_node := w }
                    else
                      match pyGet s0.text (ed.start + s0.active_length) with
                      | none => none
                      | some cc =>
                        if cc = char then
                          let s1 := { s0 with active_length := s0.active_length + 1 }
                          match s1.previous_node with
                          | none =>
                            some { s1 with phase := i + 1, mode := Mode.phaseStart }
                          | some p =>
                            match lookupL s1.nodes p with
                            | none => none
                            | some pn =>
                              match asetL s1.nodes p { pn with link := some s1.active_node } with
                              | none => none
                              | some ns =>
                                some { s1 with nodes := ns, phase := i + 1
                                             , mode := Mode.phaseStart }
                        else
                          splitCase s0 i char idx nd eid ed

/-- One small step of the whole construction: entering a phase advances
the shared global end, increments remainder and clears the previous-node
reference (build_suffix_tree), running past the last phase finishes, and
inside a phase either the while-condition fails (phase ends) or one
extendIter iteration runs. -/
def step (s : Ukkonen) : Option Ukkonen :=
  match s.mode with
  | Mode.finished => none
  | Mode.phaseStart =>
    if s.phase < s.text.length then
      match asetL s.ends 0 { value := some (s.phase : Int) } with
      | none => none
      | some ends1 =>
        some { s with ends := ends1, remainder := s.remainder + 1
                    , previous_node := none, mode := Mode.inner }
    else
      some { s with mode := Mode.finished }
  | Mode.inner =>
    if s.remainder > 0 then extendIter s
    else some { s with phase := s.phase + 1, mode := Mode.phaseStart }

/-- Iterate step with fuel, stopping once the construction has finished. -/
def runSteps : Nat → Ukkonen → Option Ukkonen
  | 0, s => if s.mode = Mode.finished then some s else none
  | fuel + 1, s =>
    if s.mode = Mode.finished then some s
    else
      match step s with
      | none => none
      | some s1 => runSteps fuel s1

/-- Generous fuel bound for a text of the given length. -/
def buildFuel (text : List Nat) : Nat :=
  (text.length + 2) * (text.length + 2) * 8 + 16

/-- Ukkonen(text): initialise and run build_suffix_tree to completion.
none models a Python exception escaping the constructor (or, utterly
conservatively, fuel exhaustion, which the termination tests rule out on
the concrete inputs used below). -/
def mkUkkonen (text : List Nat) : Option Ukkonen :=
  runSteps (buildFuel text) (initState text)

/-- Depth-first traversal of Ukkonen.traverse: walk the slots of a node in
order; a slot holding an edge with a child recurses into the child first,
a leaf slot appends its suffix id.  Fuel decreases on every call; the
caller passes enough for the whole finite tree. -/
def traverse (nodes : List Node) (edgeArena : List Edge) :
    Nat → List (Option Nat) → List (Option Int) → Option (List (Option Int))
  | 0, _, _ => none
  | _ + 1, [], acc => some acc
  | fuel + 1, none :: rest, acc => traverse nodes edgeArena fuel rest acc
  | fuel + 1, some eid :: rest, acc =>
    match lookupL edgeArena eid with
    | none => none
    | some e =>
      match e.next with
      | some w =>
        match lookupL nodes w with
        | none => none
        | some nd =>
          match traverse nodes edgeArena fuel nd.edges acc with
          | none => none
          | some acc2 => traverse nodes edgeArena fuel rest acc2
      | none => traverse nodes edgeArena fuel rest (acc ++ [e.suffix_id])

/-- Ukkonen.suffix_tree_to_suffix_array: collect leaf suffix ids by the
depth-first traversal from the root. -/
def suffix_tree_to_suffix_array (u : Ukkonen) : Option (List (Option Int)) :=
  match lookupL u.nodes 0 with
  | none => none
  | some root =>
    traverse u.nodes u.edgeArena
      ((u.nodes.length + u.edgeArena.length + 2) * 100) root.edges []

/-- Construct Ukkonen(text) and extract its suffix array. -/
def ukkonenSA (text : List Nat) : Option (List (Option Int)) :=
  match mkUkkonen text with
  | none => none
  | some u => suffix_tree_to_suffix_array u

/-- Strict lexicographic comparison of code-point lists, used to state the
order requirements on extracted suffix arrays. -/
def lexLtB : List Nat → List Nat → Bool
  | [], [] => false
  | [], _ :: _ => true
  | _ :: _, [] => false
  | a :: as, b :: bs => if a < b then true else if b < a then false else lexLtB as bs

/-- C4: constructing Ukkonen("banana") and extracting the suffix array
yields exactly [6, 5, 3, 1, 0, 4, 2] (as the __main__ block prints).
"banana" is the code-point list [98, 97, 110, 97, 110, 97]. -/
theorem banana_suffix_array :
    ukkonenSA [98, 97, 110, 97, 110, 97]
      = some [some 6, some 5, some 3, some 1, some 0, some 4, some 2] := by
  decide

/-- C2 (counterexample): for the input "$" (code point 36), which contains
the reserved terminator, construction does NOT fail fast: Ukkonen.__init__
performs no validation, runs to completion, and exposes a tree whose
suffix array is [0] (the naive suffix array of the doubled terminator text
would be [1, 0]).  This refutes the claim that such inputs fail before the
suffix tree is built. -/
theorem dollar_input_no_failfast :
    (mkUkkonen [DOLLAR]).isSome = true ∧ ukkonenSA [DOLLAR] = some [some 0] := by
  decide

/-- C2 (amended): Ukkonen.__init__ performs no alphabet validation at all.
An input containing the reserved terminator builds silently (input "$"
yields the one-entry suffix array [0]); an input character below
ALPHABET_START builds silently through negative-index wraparound into the
edge table (input with code point 35 yields [1, 0]); an input character
above ALPHABET_END makes construction die mid-build with an uncaught
IndexError (modelled as none), not a fail-fast rejection before
construction begins. -/
theorem no_alphabet_validation :
    ukkonenSA [DOLLAR] = some [some 0]
    ∧ (mkUkkonen [35]).isSome = true
    ∧ ukkonenSA [35] = some [some 1, some 0]
    ∧ mkUkkonen [200] = none := by
  decide

/-- C5: the empty text is not an error: construction succeeds, the tree is
the root with a single leaf edge for the terminator (one node, one edge,
that edge a leaf with suffix id 0, sitting in slot 0 of the root table),
and the suffix array is [0].  Moreover for every single-character text
over the content alphabet (code points 37..126, the terminator excluded)
the suffix array has the two suffixes in ascending lexicographic order,
namely [1, 0]. -/
theorem empty_and_single_char_texts :
    (mkUkkonen []).isSome = true
    ∧ ukkonenSA [] = some [some 0]
    ∧ ((mkUkkonen []).map fun u => u.nodes.length) = some 1
    ∧ ((mkUkkonen []).map fun u => u.edgeArena) =
        some [{ start := 0, endId := 0, next := none, suffix_id := some 0 }]
    ∧ ((mkUkkonen []).bind fun u => lookupL u.nodes 0) =
        some { edges := setL emptyTable 0 (some 0), link := some 0 }
    ∧ (∀ c : Nat, c < 127 → 37 ≤ c →
        ukkonenSA [c] = some [some 1, some 0]
        ∧ lexLtB (List.drop 1 ([c] ++ [DOLLAR])) (List.drop 0 ([c] ++ [DOLLAR])) = true) := by
  decide

/-- Witness for the bounded quantifier of empty_and_single_char_texts,
instantiated at the text "a" (code point 97). -/
theorem empty_and_single_char_texts_witness :
    ukkonenSA [97] = some [some 1, some 0]
    ∧ lexLtB (List.drop 1 ([97] ++ [DOLLAR])) (List.drop 0 ([97] ++ [DOLLAR])) = true :=
  empty_and_single_char_texts.2.2.2.2.2 97 (by decide) (by decide)


theorem lookupL_nil {α : Type} (k : Nat) : lookupL ([] : List α) k = none := by
  cases k <;> rfl

theorem lookupL_cons_zero {α : Type} (a : α) (l : List α) :
    lookupL (a :: l) 0 = some a := rfl

theorem lookupL_cons_succ {α : Type} (a : α) (l : List α) (n : Nat) :
    lookupL (a :: l) (n + 1) = lookupL l n := rfl

theorem lookupL_some_lt {α : Type} :
    ∀ {l : List α} {k : Nat} {a : α}, lookupL l k = some a → k < l.length := by
  intro l
  induction l with
  | nil => intro k a h; rw [lookupL_nil] at h; cases h
  | cons x xs ih =>
    intro k a h
    cases k with
    | zero => simp
    | succ n =>
      rw [lookupL_cons_succ] at h
      have := ih h
      simp only [List.length_cons]
      omega

theorem lookupL_mem {α : Type} :
    ∀ {l : List α} {k : Nat} {a : α}, lookupL l k = some a → a ∈ l := by
  intro l
  induction l with
  | nil => intro k a h; rw [lookupL_nil] at h; cases h
  | cons x xs ih =>
    intro k a h
    cases k with
    | zero => rw [lookupL_cons_zero] at h; cases h; exact List.mem_cons_self x xs
    | succ n =>
      rw [lookupL_cons_succ] at h
      exact List.mem_cons_of_mem x (ih h)

theorem lookupL_lt_some {α : Type} :
    ∀ {l : List α} {k : Nat}, k < l.length → ∃ a, lookupL l k = some a := by
  intro l
  induction l with
  | nil => intro k h; simp at h
  | cons x xs ih =>
    intro k h
    cases k with
    | zero => exact ⟨x, rfl⟩
    | succ n =>
      rw [lookupL_cons_succ]
      exact ih (by simp only [List.length_cons] at h; omega)

theorem lookupL_append_lt {α : Type} :
    ∀ {l : List α} (m : List α) {k : Nat}, k < l.length →
      lookupL (l ++ m) k = lookupL l k := by
  intro l
  induction l with
  | nil => intro m k h; simp at h
  | cons x xs ih =>
    intro m k h
    cases k with
    | zero => rfl
    | succ n =>
      rw [List.cons_append, lookupL_cons_succ, lookupL_cons_succ]
      exact ih m (by simp only [List.length_cons] at h; omega)

theorem setL_length {α : Type} :
    ∀ {l : List α} {k : Nat} {v : α}, (setL l k v).length = l.length := by
  intro l
  induction l with
  | nil => intro k v; rfl
  | cons x xs ih =>
    intro k v
    cases k with
    | zero => rfl
    | succ n => simp only [setL, List.length_cons, ih]

theorem lookupL_setL_self {α : Type} :
    ∀ {l : List α} {k : Nat} {v : α}, k < l.length →
      lookupL (setL l k v) k = some v := by
  intro l
  induction l with
  | nil => intro k v h; simp at h
  | cons x xs ih =>
    intro k v h
    cases k with
    | zero => rfl
    | succ n =>
      show lookupL (setL xs n v) n = some v
      exact ih (by simp only [List.length_cons] at h; omega)

theorem lookupL_setL_ne {α : Type} :
    ∀ {l : List α} {k j : Nat} {v : α}, j ≠ k →
      lookupL (setL l k v) j = lookupL l j := by
  intro l
  induction l with
  | nil => intro k j v _; rfl
  | cons x xs ih =>
    intro k j v hne
    cases k with
    | zero =>
      cases j with
      | zero => exact absurd rfl hne
      | succ m => rfl
    | succ n =>
      cases j with
      | zero => rfl
      | succ m =>
        show lookupL (setL xs n v) m = lookupL xs m
        exact ih (by omega)

theorem asetL_eq_some {α : Type} {l l2 : List α} {k : Nat} {v : α}
    (h : asetL l k v = some l2) : k < l.length ∧ l2 = setL l k v := by
  unfold asetL at h
  split at h
  · exact ⟨by assumption, by cases h; rfl⟩
  · cases h

theorem pyGet_mem {α : Type} {l : List α} {i : Int} {a : α}
    (h : pyGet l i = some a) : a ∈ l := by
  unfold pyGet at h
  split at h
  · exact lookupL_mem h
  · split at h
    · exact lookupL_mem h
    · cases h

/-- One construction step happened. -/
def StepR (s t : Ukkonen) : Prop := step s = some t

/-- t is reachable from s by zero or more construction steps; every state
of the running construction is reachable from the initial state. -/
def Reach (s t : Ukkonen) : Prop := Relation.ReflTransGen StepR s t

/-- Links present in s survive unchanged into t (a link, once set, is
never changed, even though the node record around it may change). -/
def linkPreserved (s t : Ukkonen) : Prop :=
  ∀ v nd w, lookupL s.nodes v = some nd → nd.link = some w →
    ∃ nd2, lookupL t.nodes v = some nd2 ∧ nd2.link = some w

/-- Every private (non-global) End cell of s is bit-for-bit unchanged in t. -/
def endsPreserved (s t : Ukkonen) : Prop :=
  ∀ j, j ≠ 0 → ∀ e, lookupL s.ends j = some e → lookupL t.ends j = some e

/-- Every edge record of s keeps its End reference, child reference and
suffix id in t (only the start offset of an edge is ever mutated). -/
def endRefPreserved (s t : Ukkonen) : Prop :=
  ∀ k ed, lookupL s.edgeArena k = some ed →
    ∃ ed2, lookupL t.edgeArena k = some ed2 ∧ ed2.endId = ed.endId ∧
      ed2.next = ed.next ∧ ed2.suffix_id = ed.suffix_id

/-- Any index in the log of t was in the log of s, or is the slot of an
actual character of the text. -/
def logGrowth (s t : Ukkonen) : Prop :=
  ∀ idx, idx ∈ t.idxLog → idx ∈ s.idxLog ∨ ∃ c, c ∈ s.text ∧ idx = slotIdx c

theorem linkPreserved_refl (s : Ukkonen) : linkPreserved s s :=
  fun _ nd _ h1 h2 => ⟨nd, h1, h2⟩

theorem linkPreserved_trans {a b c : Ukkonen}
    (h1 : linkPreserved a b) (h2 : linkPreserved b c) : linkPreserved a c := by
  intro v nd w hl hw
  obtain ⟨nd2, hl2, hw2⟩ := h1 v nd w hl hw
  exact h2 v nd2 w hl2 hw2

theorem endsPreserved_refl (s : Ukkonen) : endsPreserved s s :=
  fun _ _ _ h => h

theorem endsPreserved_trans {a b c : Ukkonen}
    (h1 : endsPreserved a b) (h2 : endsPreserved b c) : endsPreserved a c :=
  fun j hj e he => h2 j hj e (h1 j hj e he)

theorem endRefPreserved_refl (s : Ukkonen) : endRefPreserved s s :=
  fun _ ed h => ⟨ed, h, rfl, rfl, rfl⟩

theorem endRefPreserved_trans {a b c : Ukkonen}
    (h1 : endRefPreserved a b) (h2 : endRefPreserved b c) : endRefPreserved a c := by
  intro k ed h
  obtain ⟨ed2, h2a, h2b, h2c, h2d⟩ := h1 k ed h
  obtain ⟨ed3, h3a, h3b, h3c, h3d⟩ := h2 k ed2 h2a
  exact ⟨ed3, h3a, h3b.trans h2b, h3c.trans h2c, h3d.trans h2d⟩

/-- The inductive invariant of the construction, for original text T.
prevOK is the previous-internal-node protocol: while inside a phase the
pending node is a non-root node whose link has not been set yet.  geInv
says the shared global end holds the phase index while inside a phase.
logOK bounds every logged edge-table index, provided the text (terminator
included) stays inside the configured alphabet. -/
structure BuildInv (T : List Nat) (s : Ukkonen) : Prop where
  textEq : s.text = T ++ [DOLLAR]
  nodesPos : 0 < s.nodes.length
  endsPos : 0 < s.ends.length
  rootLink : ∀ nd, lookupL s.nodes 0 = some nd → nd.link = some 0
  geInv : s.mode = Mode.inner → lookupL s.ends 0 = some { value := some (s.phase : Int) }
  prevOK : ∀ p, s.mode = Mode.inner → s.previous_node = some p →
    p ≠ 0 ∧ ∃ nd, lookupL s.nodes p = some nd ∧ nd.link = none
  logOK : (∀ c, c ∈ T → ALPHABET_START ≤ (c : Int) ∧ (c : Int) ≤ ALPHABET_END) →
    ∀ idx, idx ∈ s.idxLog → 0 ≤ idx ∧ idx < ALPHABET_LENGTH

theorem inv_init (T : List Nat) : BuildInv T (initState T) := by
  refine ⟨rfl, by simp [initState], by simp [initState], ?_, ?_, ?_, ?_⟩
  · intro nd h
    cases h
    rfl
  · intro h
    cases h
  · intro p h
    cases h
  · intro _ idx h
    simp [initState] at h

/-- A character of the padded text is inside the alphabet range provided
the original characters are (the terminator itself is ALPHABET_START). -/
theorem text_char_in_range {T : List Nat} {c : Nat}
    (hT : ∀ c2, c2 ∈ T → ALPHABET_START ≤ (c2 : Int) ∧ (c2 : Int) ≤ ALPHABET_END)
    (hc : c ∈ T ++ [DOLLAR]) :
    0 ≤ slotIdx c ∧ slotIdx c < ALPHABET_LENGTH := by
  have : c ∈ T ∨ c ∈ [DOLLAR] := List.mem_append.mp hc
  unfold slotIdx ALPHABET_LENGTH ALPHABET_START ALPHABET_END
  rcases this with h | h
  · have := hT c h
    unfold ALPHABET_START ALPHABET_END at this
    omega
  · have : c = DOLLAR := List.mem_singleton.mp h
    subst this
    unfold DOLLAR
    norm_num

theorem afterInsert_frame {s t : Ukkonen} {i : Nat}
    (h : afterInsert s i = some t) :
    t.text = s.text ∧ t.nodes = s.nodes ∧ t.edgeArena = s.edgeArena ∧
    t.ends = s.ends ∧ t.previous_node = s.previous_node ∧
    t.phase = s.phase ∧ t.mode = s.mode ∧ t.idxLog = s.idxLog := by
  unfold afterInsert at h
  split at h
  · cases h
    exact ⟨rfl, rfl, rfl, rfl, rfl, rfl, rfl, rfl⟩
  · split at h
    · cases h
    · split at h
      · cases h
        exact ⟨rfl, rfl, rfl, rfl, rfl, rfl, rfl, rfl⟩
      · cases h
        exact ⟨rfl, rfl, rfl, rfl, rfl, rfl, rfl, rfl⟩

theorem rule2Leaf_spec {s t : Ukkonen} {i : Nat} {idx : Int} {nd : Node}
    (hnd : lookupL s.nodes s.active_node = some nd)
    (hprev : ∀ p, s.previous_node = some p →
      p ≠ 0 ∧ ∃ nd0, lookupL s.nodes p = some nd0 ∧ nd0.link = none)
    (h : rule2Leaf s i idx nd = some t) :
    t.text = s.text ∧ t.ends = s.ends ∧ t.mode = s.mode ∧ t.phase = s.phase ∧
    t.previous_node = none ∧ t.idxLog = idx :: s.idxLog ∧
    t.nodes.length = s.nodes.length ∧
    (∀ k ed, lookupL s.edgeArena k = some ed → lookupL t.edgeArena k = some ed) ∧
    linkPreserved s t := by
  unfold rule2Leaf at h
  dsimp only at h
  split at h
  · cases h
  · rename_i tbl htbl
    split at h
    · cases h
    · rename_i nodes1 hnodes1
      obtain ⟨haN, hn1⟩ := asetL_eq_some hnodes1
      split at h
      · rename_i hprevNone
        obtain ⟨ht, hn, he, hends, hpn, hph, hm, hlog⟩ := afterInsert_frame h
        simp only at ht hn he hends hpn hph hm hlog
        refine ⟨ht, hends, hm, hph, hpn, hlog, ?_, ?_, ?_⟩
        · rw [hn, hn1, setL_length]
        · intro k ed hk
          rw [he]
          exact (lookupL_append_lt _ (lookupL_some_lt hk)).trans hk
        · intro v ndv w hv hw
          rw [hn, hn1]
          by_cases hva : v = s.active_node
          · subst hva
            rw [hnd] at hv
            cases hv
            exact ⟨{ nd with edges := tbl }, lookupL_setL_self haN, hw⟩
          · exact ⟨ndv, by rw [lookupL_setL_ne hva]; exact hv, hw⟩
      · rename_i p hprevSome
        obtain ⟨hp0, nd0, hnd0, hlink0⟩ := hprev p hprevSome
        split at h
        · cases h
        · rename_i pn hpn
          split at h
          · cases h
          · rename_i nodes2 hnodes2
            obtain ⟨hpN, hn2⟩ := asetL_eq_some hnodes2
            obtain ⟨ht, hn, he, hends, hpv, hph, hm, hlog⟩ := afterInsert_frame h
            simp only at ht hn he hends hpv hph hm hlog
            refine ⟨ht, hends, hm, hph, hpv, hlog, ?_, ?_, ?_⟩
            · rw [hn, hn2, setL_length, hn1, setL_length]
            · intro k ed hk
              rw [he]
              exact (lookupL_append_lt _ (lookupL_some_lt hk)).trans hk
            · intro v ndv w hv hw
              rw [hn, hn2]
              by_cases hvp : v = p
              · subst hvp
                rw [hnd0] at hv
                cases hv
                rw [hlink0] at hw
                cases hw
              · rw [lookupL_setL_ne hvp, hn1]
                by_cases hva : v = s.active_node
                · subst hva
                  rw [hnd] at hv
                  cases hv
                  exact ⟨{ nd with edges := tbl }, lookupL_setL_self haN, hw⟩
                · exact ⟨ndv, by rw [lookupL_setL_ne hva]; exact hv, hw⟩

theorem splitCase_spec {s t : Ukkonen} {i : Nat} {char : Nat} {idx : Int}
    {nd : Node} {eid : Nat} {ed : Edge}
    (hnd : lookupL s.nodes s.active_node = some nd)
    (hed : lookupL s.edgeArena eid = some ed)
    (hprev : ∀ p, s.previous_node = some p →
      p ≠ 0 ∧ ∃ nd0, lookupL s.nodes p = some nd0 ∧ nd0.link = none)
    (hendsPos : 0 < s.ends.length)
    (h : splitCase s i char idx nd eid ed = some t) :
    t.text = s.text ∧ t.mode = s.mode ∧ t.phase = s.phase ∧
    t.previous_node = some s.nodes.length ∧
    t.nodes.length = s.nodes.length + 1 ∧
    t.ends.length = s.ends.length + 1 ∧
    (∃ tb, lookupL t.nodes s.nodes.length = some ({ edges := tb, link := none } : Node)) ∧
    linkPreserved s t ∧ endsPreserved s t ∧ endRefPreserved s t ∧
    lookupL t.ends 0 = lookupL s.ends 0 ∧
    (∃ c2, c2 ∈ s.text ∧ t.idxLog = slotIdx c2 :: idx :: slotIdx char :: s.idxLog) := by
  have haNlt : s.active_node < s.nodes.length := lookupL_some_lt hnd
  have heidlt : eid < s.edgeArena.length := lookupL_some_lt hed
  unfold splitCase at h
  dsimp only at h
  split at h
  · cases h
  · rename_i t1 ht1
    split at h
    · cases h
    · rename_i t0 ht0
      split at h
      · cases h
      · rename_i nodes2 hnodes2
        obtain ⟨haN1, hn2⟩ := asetL_eq_some hnodes2
        split at h
        · cases h
        · rename_i edges3 hedges3
          obtain ⟨heid2, he3⟩ := asetL_eq_some hedges3
          split at h
          · cases h
          · rename_i c2 hc2
            split at h
            · cases h
            · rename_i t2 ht2
              split at h
              · cases h
              · rename_i nodes3 hnodes3
                obtain ⟨hinN, hn3⟩ := asetL_eq_some hnodes3
                have hlen1 : (s.nodes ++ [({ edges := emptyTable, link := none } : Node)]).length = s.nodes.length + 1 := by simp
                have hlenN2 : nodes2.length = s.nodes.length + 1 := by
                  rw [hn2, setL_length, hlen1]
                have hlenN3 : nodes3.length = s.nodes.length + 1 := by
                  rw [hn3, setL_length, hlenN2]
                have hInLt : s.nodes.length < nodes2.length := by omega
                have hlookIn3 : lookupL nodes3 s.nodes.length = some ({ edges := t2, link := none } : Node) := by
                  rw [hn3]
                  exact lookupL_setL_self hInLt
                have hlookOld2 : ∀ v, v < s.nodes.length → v ≠ s.active_node →
                    lookupL nodes2 v = lookupL s.nodes v := by
                  intro v hv hvne
                  rw [hn2, lookupL_setL_ne hvne]
                  exact lookupL_append_lt _ hv
                have hlookA2 : lookupL nodes2 s.active_node = some ({ edges := t0, link := nd.link } : Node) := by
                  rw [hn2]
                  have hlt2 : s.active_node < (s.nodes ++ [({ edges := emptyTable, link := none } : Node)]).length := by
                    rw [hlen1]; omega
                  exact lookupL_setL_self hlt2
                have hlook3 : ∀ v, v < s.nodes.length →
                    lookupL nodes3 v = lookupL nodes2 v := by
                  intro v hv
                  rw [hn3, lookupL_setL_ne (by omega)]
                have hedges3spec : ∀ k edk, lookupL s.edgeArena k = some edk →
                    ∃ ed2, lookupL edges3 k = some ed2 ∧ ed2.endId = edk.endId ∧
                      ed2.next = edk.next ∧ ed2.suffix_id = edk.suffix_id := by
                  intro k edk hk
                  have hklt : k < s.edgeArena.length := lookupL_some_lt hk
                  have hkeep : lookupL ((s.edgeArena ++ [({ start := (i : Int), endId := 0, next := none, suffix_id := some ((i : Int) - s.remainder + 1) } : Edge)]) ++ [({ start := ed.start, endId := s.ends.length, next := some s.nodes.length, suffix_id := none } : Edge)]) k = some edk := by
                    rw [lookupL_append_lt _ (by simp; omega), lookupL_append_lt _ hklt]
                    exact hk
                  by_cases hke : k = eid
                  · subst hke
                    rw [hk] at hed
                    cases hed
                    refine ⟨{ ed with start := ed.start + s.active_length }, ?_, rfl, rfl, rfl⟩
                    rw [he3]
                    exact lookupL_setL_self heid2
                  · exact ⟨edk, by rw [he3, lookupL_setL_ne hke]; exact hkeep, rfl, rfl, rfl⟩
                have hendsKeep : ∀ j e, lookupL s.ends j = some e → lookupL (s.ends ++ [({ value := some (ed.start + s.active_length - 1) } : End)]) j = some e := by
                  intro j e hj
                  rw [lookupL_append_lt _ (lookupL_some_lt hj)]
                  exact hj
                have hends0 : lookupL (s.ends ++ [({ value := some (ed.start + s.active_length - 1) } : End)]) 0 = lookupL s.ends 0 := lookupL_append_lt _ hendsPos
                have hmemc2 : c2 ∈ s.text := pyGet_mem hc2
                split at h
                · -- previous_node = none
                  obtain ⟨ht, hn, he, hends, hpv, hph, hm, hlog⟩ := afterInsert_frame h
                  simp only at ht hn he hends hpv hph hm hlog
                  refine ⟨ht, hm, hph, by rw [hpv], by rw [hn, hlenN3],
                    by rw [hends]; simp, ⟨t2, by rw [hn]; exact hlookIn3⟩, ?_, ?_, ?_,
                    by rw [hends]; exact hends0, ⟨c2, hmemc2, by rw [hlog]⟩⟩
                  · intro v ndv w hv hw
                    have hvlt : v < s.nodes.length := lookupL_some_lt hv
                    rw [hn]
                    by_cases hva : v = s.active_node
                    · subst hva
                      rw [hnd] at hv
                      cases hv
                      refine ⟨{ edges := t0, link := nd.link }, ?_, hw⟩
                      rw [hlook3 _ hvlt]
                      exact hlookA2
                    · refine ⟨ndv, ?_, hw⟩
                      rw [hlook3 _ hvlt, hlookOld2 _ hvlt hva]
                      exact hv
                  · intro j _ e hj
                    rw [hends]
                    exact hendsKeep j e hj
                  · intro k edk hk
                    rw [he]
                    exact hedges3spec k edk hk
                · -- previous_node = some p
                  rename_i p hprevSome
                  obtain ⟨hp0, nd0, hnd0, hlink0⟩ := hprev p hprevSome
                  have hplt : p < s.nodes.length := lookupL_some_lt hnd0
                  split at h
                  · cases h
                  · rename_i pn hpn
                    split at h
                    · cases h
                    · rename_i nodes4 hnodes4
                      obtain ⟨hpN4, hn4⟩ := asetL_eq_some hnodes4
                      obtain ⟨ht, hn, he, hends, hpv, hph, hm, hlog⟩ := afterInsert_frame h
                      simp only at ht hn he hends hpv hph hm hlog
                      have hlenN4 : nodes4.length = s.nodes.length + 1 := by
                        rw [hn4, setL_length, hlenN3]
                      refine ⟨ht, hm, hph, by rw [hpv], by rw [hn, hlenN4],
                        by rw [hends]; simp, ⟨t2, ?_⟩, ?_, ?_, ?_,
                        by rw [hends]; exact hends0, ⟨c2, hmemc2, by rw [hlog]⟩⟩
                      · rw [hn, hn4, lookupL_setL_ne (by omega)]
                        exact hlookIn3
                      · intro v ndv w hv hw
                        have hvlt : v < s.nodes.length := lookupL_some_lt hv
                        rw [hn]
                        by_cases hvp : v = p
                        · subst hvp
                          rw [hnd0] at hv
                          cases hv
                          rw [hlink0] at hw
                          cases hw
                        · rw [hn4, lookupL_setL_ne hvp]
                          by_cases hva : v = s.active_node
                          · subst hva
                            rw [hnd] at hv
                            cases hv
                            refine ⟨{ edges := t0, link := nd.link }, ?_, hw⟩
                            rw [hlook3 _ hvlt]
                            exact hlookA2
                          · refine ⟨ndv, ?_, hw⟩
                            rw [hlook3 _ hvlt, hlookOld2 _ hvlt hva]
                            exact hv
                      · intro j _ e hj
                        rw [hends]
                        exact hendsKeep j e hj
                      · intro k edk hk
                        rw [he]
                        exact hedges3spec k edk hk

theorem linkPreserved_of_nodes_eq {s t : Ukkonen} (h : t.nodes = s.nodes) :
    linkPreserved s t := by
  intro v nd w h1 h2
  exact ⟨nd, by rw [h]; exact h1, h2⟩

theorem endsPreserved_of_ends_eq {s t : Ukkonen} (h : t.ends = s.ends) :
    endsPreserved s t := by
  intro j _ e he
  rw [h]
  exact he

theorem endRefPreserved_of_edges_eq {s t : Ukkonen} (h : t.edgeArena = s.edgeArena) :
    endRefPreserved s t := by
  intro k ed he
  exact ⟨ed, by rw [h]; exact he, rfl, rfl, rfl⟩

/-- What one successful inner-loop iteration guarantees: text unchanged,
arenas only grow, set links and private End cells survive untouched, edges
keep their End references, every new log entry is the slot of a text
character, the global end cell is untouched, and when the phase continues
the previous-node protocol is still in shape. -/
theorem extendIter_spec {s t : Ukkonen}
    (hnodesPos : 0 < s.nodes.length)
    (hendsPos : 0 < s.ends.length)
    (hprev : ∀ p, s.previous_node = some p →
      p ≠ 0 ∧ ∃ nd0, lookupL s.nodes p = some nd0 ∧ nd0.link = none)
    (h : extendIter s = some t) :
    t.text = s.text ∧
    s.nodes.length ≤ t.nodes.length ∧
    s.ends.length ≤ t.ends.length ∧
    linkPreserved s t ∧ endsPreserved s t ∧ endRefPreserved s t ∧
    lookupL t.ends 0 = lookupL s.ends 0 ∧
    logGrowth s t ∧
    (t.mode = Mode.inner → t.phase = s.phase ∧
      ∀ p, t.previous_node = some p →
        p ≠ 0 ∧ ∃ nd, lookupL t.nodes p = some nd ∧ nd.link = none) := by
  unfold extendIter at h
  dsimp only at h
  split at h
  · cases h
  · rename_i char hchar
    split at h
    · cases h
    · rename_i ae hae
      split at h
      · cases h
      · rename_i c0 hc0
        have hmemc0 : c0 ∈ s.text := pyGet_mem hc0
        split at h
        · cases h
        · rename_i nd hnd
          split at h
          · cases h
          · rename_i slot hslot
            split at h
            · -- rule 2: leaf creation
              obtain ⟨ht, hends, hm, hph, hpv, hlog, hlen, hedges, hlink⟩ :=
                rule2Leaf_spec (by exact hnd) (by exact hprev) h
              have hlen2 : t.nodes.length = s.nodes.length := hlen
              refine ⟨ht, hlen2.ge, by rw [hends], hlink, ?_, ?_,
                by rw [hends], ?_, ?_⟩
              · exact endsPreserved_of_ends_eq hends
              · intro k ed hk
                exact ⟨ed, hedges k ed hk, rfl, rfl, rfl⟩
              · intro j hj
                rw [hlog] at hj
                rcases List.mem_cons.mp hj with h1 | h1
                · exact Or.inr ⟨c0, hmemc0, h1⟩
                · rcases List.mem_cons.mp h1 with h2 | h2
                  · exact Or.inr ⟨c0, hmemc0, h2⟩
                  · exact Or.inl h2
              · intro _
                refine ⟨hph, ?_⟩
                intro p hp
                rw [hpv] at hp
                cases hp
            · -- an edge exists
              rename_i eid
              split at h
              · cases h
              · rename_i ed hed
                split at h
                · cases h
                · rename_i ec hec
                  split at h
                  · cases h
                  · rename_i ev hev
                    split at h
                    · -- walk-down
                      split at h
                      · cases h
                      · rename_i w hw
                        cases h
                        refine ⟨rfl, le_refl _, le_refl _,
                          linkPreserved_of_nodes_eq rfl,
                          endsPreserved_of_ends_eq rfl,
                          endRefPreserved_of_edges_eq rfl, rfl, ?_, ?_⟩
                        · intro j hj
                          rcases List.mem_cons.mp hj with h1 | h1
                          · exact Or.inr ⟨c0, hmemc0, h1⟩
                          · exact Or.inl h1
                        · intro _
                          exact ⟨rfl, hprev⟩
                    · split at h
                      · cases h
                      · rename_i cc hcc
                        split at h
                        · -- showstopper
                          split at h
                          · cases h
                            refine ⟨rfl, le_refl _, le_refl _,
                              linkPreserved_of_nodes_eq rfl,
                              endsPreserved_of_ends_eq rfl,
                              endRefPreserved_of_edges_eq rfl, rfl, ?_, ?_⟩
                            · intro j hj
                              rcases List.mem_cons.mp hj with h1 | h1
                              · exact Or.inr ⟨c0, hmemc0, h1⟩
                              · exact Or.inl h1
                            · intro hmode
                              cases hmode
                          · rename_i p hprevSome
                            obtain ⟨hp0, nd0, hnd0, hlink0⟩ := hprev p hprevSome
                            split at h
                            · cases h
                            · rename_i pn hpn
                              split at h
                              · cases h
                              · rename_i ns hns
                                obtain ⟨hpN, hnseq⟩ := asetL_eq_some hns
                                cases h
                                refine ⟨rfl, by rw [hnseq, setL_length], le_refl _,
                                  ?_, endsPreserved_of_ends_eq rfl,
                                  endRefPreserved_of_edges_eq rfl, rfl, ?_, ?_⟩
                                · intro v ndv w hv hw
                                  by_cases hvp : v = p
                                  · subst hvp
                                    rw [hnd0] at hv
                                    cases hv
                                    rw [hlink0] at hw
                                    cases hw
                                  · exact ⟨ndv, by
                                      show lookupL ns v = some ndv
                                      rw [hnseq, lookupL_setL_ne hvp]
                                      exact hv, hw⟩
                                · intro j hj
                                  rcases List.mem_cons.mp hj with h1 | h1
                                  · exact Or.inr ⟨c0, hmemc0, h1⟩
                                  · exact Or.inl h1
                                · intro hmode
                                  cases hmode
                        · -- split
                          have hcharmem : char ∈ s.text := lookupL_mem hchar
                          obtain ⟨ht, hm, hph, hpv, hlenN, hlenE, ⟨tb, htb⟩,
                            hlink, hendsP, hedgeP, hends0, c2, hmemc2, hlog⟩ :=
                            splitCase_spec (by exact hnd) (by exact hed)
                              (by exact hprev) (by exact hendsPos) h
                          have hlenN2 : t.nodes.length = s.nodes.length + 1 := hlenN
                          have hlenE2 : t.ends.length = s.ends.length + 1 := hlenE
                          have hmemc2b : c2 ∈ s.text := hmemc2
                          have hlog2 : t.idxLog =
                              slotIdx c2 :: slotIdx c0 :: slotIdx char ::
                                slotIdx c0 :: s.idxLog := hlog
                          have hpv2 : t.previous_node = some s.nodes.length := hpv
                          have htb2 : lookupL t.nodes s.nodes.length =
                              some ({ edges := tb, link := none } : Node) := htb
                          refine ⟨ht, by omega, by omega, hlink, hendsP, hedgeP,
                            hends0, ?_, ?_⟩
                          · intro j hj
                            rw [hlog2] at hj
                            rcases List.mem_cons.mp hj with h1 | h1
                            · exact Or.inr ⟨c2, hmemc2b, h1⟩
                            · rcases List.mem_cons.mp h1 with h2 | h2
                              · exact Or.inr ⟨c0, hmemc0, h2⟩
                              · rcases List.mem_cons.mp h2 with h3 | h3
                                · exact Or.inr ⟨char, hcharmem, h3⟩
                                · rcases List.mem_cons.mp h3 with h4 | h4
                                  · exact Or.inr ⟨c0, hmemc0, h4⟩
                                  · exact Or.inl h4
                          · intro _
                            refine ⟨hph, ?_⟩
                            intro p hp
                            rw [hpv2] at hp
                            cases hp
                            refine ⟨by omega, { edges := tb, link := none }, htb2, rfl⟩

/-- One construction step preserves the invariant, never rewrites a set
suffix link, never touches a private End cell, and never re-points an
edge at a different End cell. -/
theorem step_spec {T : List Nat} {s t : Ukkonen}
    (hinv : BuildInv T s) (h : step s = some t) :
    BuildInv T t ∧ linkPreserved s t ∧ endsPreserved s t ∧ endRefPreserved s t := by
  unfold step at h
  split at h
  · cases h
  · split at h
    · split at h
      · cases h
      · rename_i ends1 hends1
        obtain ⟨h0lt, hseq⟩ := asetL_eq_some hends1
        cases h
        refine ⟨⟨hinv.textEq, hinv.nodesPos, ?_, hinv.rootLink, ?_, ?_, ?_⟩,
          linkPreserved_of_nodes_eq rfl, ?_, endRefPreserved_of_edges_eq rfl⟩
        · show 0 < ends1.length
          rw [hseq, setL_length]
          exact hinv.endsPos
        · intro _
          show lookupL ends1 0 = some { value := some ((s.phase : Int)) }
          rw [hseq]
          exact lookupL_setL_self h0lt
        · intro p _ hp
          cases hp
        · intro hT idx hidx
          exact hinv.logOK hT idx hidx
        · intro j hj e he
          show lookupL ends1 j = some e
          rw [hseq, lookupL_setL_ne hj]
          exact he
    · cases h
      refine ⟨⟨hinv.textEq, hinv.nodesPos, hinv.endsPos, hinv.rootLink, ?_, ?_,
        hinv.logOK⟩, linkPreserved_of_nodes_eq rfl, endsPreserved_of_ends_eq rfl,
        endRefPreserved_of_edges_eq rfl⟩
      · intro hm
        cases hm
      · intro p hm
        cases hm
  · rename_i hmode
    split at h
    · obtain ⟨ht, hnl, hel, hlink, hends, hedge, hends0, hlog, hcont⟩ :=
        extendIter_spec hinv.nodesPos hinv.endsPos
          (fun p hp => hinv.prevOK p hmode hp) h
      refine ⟨⟨by rw [ht]; exact hinv.textEq,
        by have := hinv.nodesPos; omega,
        by have := hinv.endsPos; omega, ?_, ?_, ?_, ?_⟩, hlink, hends, hedge⟩
      · intro nd hnd0
        obtain ⟨ndr, hndr⟩ := lookupL_lt_some hinv.nodesPos
        obtain ⟨nd2, hnd2, hl2⟩ := hlink 0 ndr 0 hndr (hinv.rootLink ndr hndr)
        rw [hnd0] at hnd2
        cases hnd2
        exact hl2
      · intro hm
        obtain ⟨hph, _⟩ := hcont hm
        rw [hends0, hph]
        exact hinv.geInv hmode
      · intro p hm hp
        exact (hcont hm).2 p hp
      · intro hT idx hidx
        rcases hlog idx hidx with hold | ⟨c, hc, hce⟩
        · exact hinv.logOK hT idx hold
        · subst hce
          exact text_char_in_range hT (by rw [hinv.textEq] at hc; exact hc)
    · cases h
      refine ⟨⟨hinv.textEq, hinv.nodesPos, hinv.endsPos, hinv.rootLink, ?_, ?_,
        hinv.logOK⟩, linkPreserved_of_nodes_eq rfl, endsPreserved_of_ends_eq rfl,
        endRefPreserved_of_edges_eq rfl⟩
      · intro hm
        cases hm
      · intro p hm
        cases hm

/-- The invariant and the three frame properties hold along any number of
construction steps. -/
theorem reach_spec {T : List Nat} {s t : Ukkonen}
    (hinv : BuildInv T s) (h : Reach s t) :
    BuildInv T t ∧ linkPreserved s t ∧ endsPreserved s t ∧ endRefPreserved s t := by
  induction h with
  | refl =>
    exact ⟨hinv, linkPreserved_refl s, endsPreserved_refl s, endRefPreserved_refl s⟩
  | tail hab hbc ih =>
    obtain ⟨invb, l1, e1, r1⟩ := ih
    obtain ⟨invc, l2, e2, r2⟩ := step_spec invb hbc
    exact ⟨invc, linkPreserved_trans l1 l2, endsPreserved_trans e1 e2,
      endRefPreserved_trans r1 r2⟩

/-- Every character of the original text lies in the configured code-point
range (terminator included, since ALPHABET_START is its code point). -/
def inAlphabet (T : List Nat) : Prop :=
  ∀ c, c ∈ T → ALPHABET_START ≤ (c : Int) ∧ (c : Int) ≤ ALPHABET_END

/-- A valid input text: characters in the alphabet and none equal to the
reserved terminator (whose code point is ALPHABET_START). -/
def validText (T : List Nat) : Prop :=
  ∀ c, c ∈ T → ALPHABET_START < (c : Int) ∧ (c : Int) ≤ ALPHABET_END

theorem validText_inAlphabet {T : List Nat} (h : validText T) : inAlphabet T :=
  fun c hc => ⟨le_of_lt (h c hc).1, (h c hc).2⟩

/-- Edge.__len__: end.value - start + 1, read through the End arena of the
state (None end value would make Python raise, hence the Option). -/
def edgeLen (s : Ukkonen) (ed : Edge) : Option Int :=
  match lookupL s.ends ed.endId with
  | some ec =>
    match ec.value with
    | some v => some (v - ed.start + 1)
    | none => none
  | none => none

/-- Run exactly n construction steps. -/
def stepN : Nat → Ukkonen → Option Ukkonen
  | 0, s => some s
  | n + 1, s =>
    match step s with
    | none => none
    | some s2 => stepN n s2

theorem stepN_reach : ∀ {n : Nat} {s t : Ukkonen}, stepN n s = some t → Reach s t := by
  intro n
  induction n with
  | zero =>
    intro s t h
    cases h
    exact Relation.ReflTransGen.refl
  | succ m ih =>
    intro s t h
    unfold stepN at h
    split at h
    · cases h
    · rename_i s2 hs2
      exact Relation.ReflTransGen.head hs2 (ih h)

/-- C8: for every valid input text and any two points of the construction
(state s reachable from the initial state, state t reachable from s), a
suffix link that is set in s is still set to the same node in t, and the
link of the root (node 0) is the root itself.  Together these say a link,
once set, is never changed, and the root link stays the root forever. -/
theorem suffix_links_write_once {T : List Nat} {s t : Ukkonen}
    (hT : validText T) (hs : Reach (initState T) s) (hst : Reach s t) :
    (∀ v nd w, lookupL s.nodes v = some nd → nd.link = some w →
      ∃ nd2, lookupL t.nodes v = some nd2 ∧ nd2.link = some w) ∧
    (∀ nd, lookupL s.nodes 0 = some nd → nd.link = some 0) := by
  have hTa : inAlphabet T := validText_inAlphabet hT
  have hinvs := (reach_spec (inv_init T) hs).1
  obtain ⟨_, hlink, _, _⟩ := reach_spec hinvs hst
  exact ⟨hlink, hinvs.rootLink⟩

/-- Witness for suffix_links_write_once at the one-character text "a",
with both reachability hypotheses discharged by the reflexive closure:
the root link of the freshly initialised object is the root. -/
theorem suffix_links_write_once_witness :
    ∃ nd2, lookupL (initState [97]).nodes 0 = some nd2 ∧ nd2.link = some 0 :=
  (suffix_links_write_once (T := [97]) (by unfold validText; decide) Relation.ReflTransGen.refl
    Relation.ReflTransGen.refl).1 0 { edges := emptyTable, link := some 0 } 0
    (by rfl) rfl

/-- C9: for every valid input text and states s, t of the construction
(s reachable from the start, t reachable from s): a private End cell
(index other than 0, i.e. any cell created by a split) never changes its
value afterwards; every edge keeps its End reference forever (a closed
edge can never come to reference the shared cell again); and while inside
phase i the shared cell holds i, so every open edge (End reference 0) with
start offset s has length i - s + 1. -/
theorem end_cells_frame {T : List Nat} {s t : Ukkonen}
    (hT : validText T) (hs : Reach (initState T) s) (hst : Reach s t) :
    (∀ j, j ≠ 0 → ∀ e, lookupL s.ends j = some e → lookupL t.ends j = some e) ∧
    (∀ k ed, lookupL s.edgeArena k = some ed →
      ∃ ed2, lookupL t.edgeArena k = some ed2 ∧ ed2.endId = ed.endId) ∧
    (s.mode = Mode.inner → ∀ k ed, lookupL s.edgeArena k = some ed →
      ed.endId = 0 → edgeLen s ed = some ((s.phase : Int) - ed.start + 1)) := by
  have _hTa := validText_inAlphabet hT
  have hinvs := (reach_spec (inv_init T) hs).1
  obtain ⟨_, _, hends, hedge⟩ := reach_spec hinvs hst
  refine ⟨hends, ?_, ?_⟩
  · intro k ed hk
    obtain ⟨ed2, h1, h2, _, _⟩ := hedge k ed hk
    exact ⟨ed2, h1, h2⟩
  · intro hm k ed _ hid
    unfold edgeLen
    rw [hid, hinvs.geInv hm]

/-- The state of Ukkonen("aa") after seven construction steps, i.e. just
after the split in the third phase. -/
def uSeven : Ukkonen := (stepN 7 (initState [97, 97])).getD (initState [97, 97])

/-- Witness for end_cells_frame on the text "aa" at the state uSeven (a
split has happened: the private End cell 1 holds 0, the truncated open
leaf edge 0 starts at 1, and the in-phase length formula gives 2). -/
theorem end_cells_frame_witness :
    lookupL uSeven.ends 1 = some { value := some 0 } ∧
    (∃ ed2, lookupL uSeven.edgeArena 2 = some ed2 ∧ ed2.endId = 1) ∧
    edgeLen uSeven { start := 1, endId := 0, next := none, suffix_id := some 0 }
      = some ((uSeven.phase : Int) - 1 + 1) := by
  have hrun : stepN 7 (initState [97, 97]) = some uSeven := by rfl
  have hreach : Reach (initState [97, 97]) uSeven := stepN_reach hrun
  have hthm := end_cells_frame (by unfold validText; decide) hreach
    Relation.ReflTransGen.refl
  refine ⟨hthm.1 1 (by decide) { value := some 0 } (by rfl),
    hthm.2.1 2 { start := 0, endId := 1, next := some 1, suffix_id := none } (by rfl),
    hthm.2.2 (by rfl) 0 { start := 1, endId := 0, next := none, suffix_id := some 0 }
      (by rfl) rfl⟩

/-- C10: under the precondition that every character of the text lies in
the configured code-point range [ALPHABET_START, ALPHABET_END] (the
appended terminator does too), every edge-table index the construction
ever computes as ord(character) - ALPHABET_START lies in
[0, ALPHABET_LENGTH): no access is out of bounds and, in particular, no
index is negative, so Python would never silently resolve one from the
end of the table. -/
theorem edge_table_indices_in_range {T : List Nat} {s : Ukkonen}
    (hT : inAlphabet T) (hs : Reach (initState T) s) :
    ∀ idx, idx ∈ s.idxLog → 0 ≤ idx ∧ idx < ALPHABET_LENGTH :=
  ((reach_spec (inv_init T) hs).1).logOK hT

/-- The state of Ukkonen("a") after two construction steps (the first
leaf has been created; the log holds the index 61 = 97 - 36 twice). -/
def uTwo : Ukkonen := (stepN 2 (initState [97])).getD (initState [97])

/-- Witness for edge_table_indices_in_range at the text "a" and the state
uTwo. -/
theorem edge_table_indices_in_range_witness :
    (0 : Int) ≤ 61 ∧ (61 : Int) < ALPHABET_LENGTH :=
  edge_table_indices_in_range (T := [97]) (by unfold inAlphabet; decide)
    (stepN_reach (show stepN 2 (initState [97]) = some uTwo from rfl)) 61 (by decide)

/-!
Deeper structural theory: words spelled by tree paths.  The definitions
below describe how a word (a list of code points) is consumed by walking
the tree, mirroring how extend_suffix_tree walks it; they are used to
state and prove the active-point invariants of the construction.
-/

/-- The table slot of a character as a natural number; on characters in
the configured alphabet this agrees with slotIdx. -/
def slotN (c : Nat) : Nat := c - 36

/-- The segment of the text of length n starting at offset q. -/
def seg (t : List Nat) (q n : Nat) : List Nat := (t.drop q).take n

/-- The word written along an edge: the slice of the text from start to
the value of its End cell, both inclusive (empty for junk states). -/
def labelOf (s : Ukkonen) (ed : Edge) : List Nat :=
  match lookupL s.ends ed.endId with
  | some ec =>
    match ec.value with
    | some v => seg s.text ed.start.toNat (v - ed.start + 1).toNat
    | none => []
  | none => []

/-- From node v the word x is consumed along whole edges and ends exactly
at node u. -/
inductive SpellsTo (s : Ukkonen) : Nat → List Nat → Nat → Prop where
  | nil (v : Nat) : SpellsTo s v [] v
  | step (v : Nat) (nd : Node) (c : Nat) (y : List Nat) (eid : Nat) (ed : Edge)
      (w u : Nat) :
      lookupL s.nodes v = some nd →
      lookupL nd.edges (slotN c) = some (some eid) →
      lookupL s.edgeArena eid = some ed →
      labelOf s ed <+: c :: y →
      labelOf s ed ≠ [] →
      ed.next = some w →
      SpellsTo s w (List.drop (labelOf s ed).length (c :: y)) u →
      SpellsTo s v (c :: y) u

/-- The word z is empty or sits at the beginning of one edge below u. -/
def PartialIn (s : Ukkonen) (u : Nat) (z : List Nat) : Prop :=
  z = [] ∨ ∃ nd c y eid ed, z = c :: y ∧ lookupL s.nodes u = some nd ∧
    lookupL nd.edges (slotN c) = some (some eid) ∧
    lookupL s.edgeArena eid = some ed ∧ z <+: labelOf s ed

/-- The word y can be consumed from node v (possibly ending inside an
edge): a whole-edge part followed by a partial part. -/
def WalkW (s : Ukkonen) (v : Nat) (y : List Nat) : Prop :=
  ∃ x z u, y = x ++ z ∧ SpellsTo s v x u ∧ PartialIn s u z

theorem walkW_nil (s : Ukkonen) (v : Nat) : WalkW s v [] :=
  ⟨[], [], v, rfl, SpellsTo.nil v, Or.inl rfl⟩

theorem walkW_of_spellsTo {s : Ukkonen} {v u : Nat} {x : List Nat}
    (h : SpellsTo s v x u) : WalkW s v x :=
  ⟨x, [], u, (List.append_nil x).symm, h, Or.inl rfl⟩

theorem seg_zero (t : List Nat) (q : Nat) : seg t q 0 = [] := rfl

theorem seg_length (t : List Nat) (q n : Nat) :
    (seg t q n).length = min n (t.length - q) := by
  unfold seg
  simp

theorem seg_length_of_le {t : List Nat} {q n : Nat} (h : q + n ≤ t.length) :
    (seg t q n).length = n := by
  rw [seg_length]
  omega

theorem seg_add (t : List Nat) (q a b : Nat) :
    seg t q (a + b) = seg t q a ++ seg t (q + a) b := by
  unfold seg
  rw [List.take_add, List.drop_drop]

theorem seg_eq_nil_of_ge {t : List Nat} {q n : Nat} (h : t.length ≤ q) :
    seg t q n = [] := by
  unfold seg
  rw [List.drop_eq_nil_of_le h]
  exact List.take_nil

theorem spellsTo_nil_inv {s : Ukkonen} {v u : Nat}
    (h : SpellsTo s v [] u) : v = u := by
  cases h
  rfl

theorem spellsTo_append {s : Ukkonen} {v u w : Nat} {x y : List Nat}
    (h1 : SpellsTo s v x u) :
    SpellsTo s u y w → SpellsTo s v (x ++ y) w := by
  induction h1 with
  | nil =>
    intro h2
    exact h2
  | step v2 nd c z eid ed w2 u2 hnd hslot hed hpre hne hnext hrec ih =>
    intro h2
    refine SpellsTo.step v2 nd c (z ++ y) eid ed w2 w hnd hslot hed
      (hpre.trans (List.prefix_append _ _)) hne hnext ?_
    have hdrop : List.drop (labelOf s ed).length ((c :: z) ++ y) =
        List.drop (labelOf s ed).length (c :: z) ++ y :=
      List.drop_append_of_le_length (List.IsPrefix.length_le hpre)
    rw [← List.cons_append, hdrop]
    exact ih h2

theorem lookupL_getElem {α : Type} :
    ∀ {l : List α} {k : Nat} {a : α}, lookupL l k = some a →
      ∀ hk : k < l.length, l[k] = a := by
  intro l
  induction l with
  | nil => intro k a h; rw [lookupL_nil] at h; cases h
  | cons x xs ih =>
    intro k a h hk
    cases k with
    | zero => cases h; rfl
    | succ m2 =>
      rw [lookupL_cons_succ] at h
      exact ih h (by simp at hk; omega)

theorem seg_cons {t : List Nat} {q n c : Nat} (hq : lookupL t q = some c)
    (hn : 1 ≤ n) : seg t q n = c :: seg t (q + 1) (n - 1) := by
  have h2 : q < t.length := lookupL_some_lt hq
  unfold seg
  obtain ⟨m, hm⟩ := Nat.exists_eq_add_of_le hn
  subst hm
  have hdq : t.drop q = c :: t.drop (q + 1) := by
    rw [List.drop_eq_getElem_cons h2, lookupL_getElem hq h2]
  rw [hdq]
  simp [Nat.add_comm 1 m]

theorem seg_head {t : List Nat} {q n c : Nat} (hq : lookupL t q = some c)
    (hn : 1 ≤ n) : (seg t q n).head? = some c := by
  rw [seg_cons hq hn]
  rfl

theorem prefix_seg {t : List Nat} {q n : Nat} {y : List Nat}
    (h : y <+: seg t q n) : y = seg t q y.length := by
  have hylen : y.length ≤ n := by
    have h3 := h.length_le
    rw [seg_length] at h3
    omega
  obtain ⟨r, hr⟩ := h
  unfold seg at hr ⊢
  have h1 : y = ((t.drop q).take n).take y.length := by
    rw [← hr, List.take_left]
  exact h1.trans (by rw [List.take_take, Nat.min_eq_left hylen])

theorem seg_prefix_seg (t : List Nat) {a b : Nat} (q : Nat) (h : a ≤ b) :
    seg t q a <+: seg t q b := by
  have h1 : seg t q a = (seg t q b).take a := by
    unfold seg
    rw [List.take_take, Nat.min_eq_left h]
  rw [h1]
  exact List.take_prefix a (seg t q b)

/-- Every edge id occupies at most one table slot in the whole tree. -/
def SlotUnique (s : Ukkonen) : Prop :=
  ∀ v1 k1 nd1 v2 k2 nd2 e, lookupL s.nodes v1 = some nd1 →
    lookupL nd1.edges k1 = some (some e) →
    lookupL s.nodes v2 = some nd2 → lookupL nd2.edges k2 = some (some e) →
    v1 = v2 ∧ k1 = k2

/-- Every node is the child of at most one edge. -/
def NextUnique (s : Ukkonen) : Prop :=
  ∀ e1 ed1 e2 ed2 w, lookupL s.edgeArena e1 = some ed1 →
    lookupL s.edgeArena e2 = some ed2 →
    ed1.next = some w → ed2.next = some w → e1 = e2

/-- No edge has the root as its child. -/
def RootNoIncoming (s : Ukkonen) : Prop :=
  ∀ e ed, lookupL s.edgeArena e = some ed → ed.next ≠ some 0

theorem spellsTo_last {s : Ukkonen} {v u : Nat} {x : List Nat}
    (h : SpellsTo s v x u) (hx : x ≠ []) :
    ∃ x2 u2 nd c eid ed, SpellsTo s v x2 u2 ∧
      lookupL s.nodes u2 = some nd ∧
      lookupL nd.edges (slotN c) = some (some eid) ∧
      lookupL s.edgeArena eid = some ed ∧
      ed.next = some u ∧ labelOf s ed ≠ [] ∧
      x = x2 ++ labelOf s ed ∧ x2.length < x.length := by
  induction h with
  | nil => exact absurd rfl hx
  | step v2 nd c z eid ed w2 u2 hnd hslot hed hpre hne hnext hrec ih =>
    obtain ⟨r, hr⟩ := hpre
    have hrest : List.drop (labelOf s ed).length (c :: z) = r := by
      rw [← hr, List.drop_left]
    by_cases hre : r = []
    · subst hre
      rw [hrest] at hrec
      have hu : w2 = u2 := spellsTo_nil_inv hrec
      refine ⟨[], v2, nd, c, eid, ed, SpellsTo.nil v2, hnd, hslot, hed,
        hu ▸ hnext, hne, ?_, ?_⟩
      · rw [← hr]
        simp
      · simp
    · rw [hrest] at hrec
      obtain ⟨x2, u3, nd2, c2, eid2, ed2, hsp, hnd2, hslot2, hed2, hnext2,
        hne2, heq2, hlt2⟩ := ih (by rw [hrest]; exact hre)
      rw [hrest] at heq2 hlt2
      obtain ⟨L2, hL⟩ : ∃ L2, labelOf s ed = c :: L2 := by
        cases hL0 : labelOf s ed with
        | nil => exact absurd hL0 hne
        | cons a L2 =>
          have hr2 := hr
          rw [hL0, List.cons_append] at hr2
          injection hr2 with h1 h2
          subst h1
          exact ⟨L2, rfl⟩
      have hword : labelOf s ed ++ x2 = c :: (L2 ++ x2) := by
        rw [hL, List.cons_append]
      refine ⟨labelOf s ed ++ x2, u3, nd2, c2, eid2, ed2, ?_, hnd2, hslot2,
        hed2, hnext2, hne2, ?_, ?_⟩
      · rw [hword]
        refine SpellsTo.step v2 nd c (L2 ++ x2) eid ed w2 u3 hnd hslot hed
          ⟨x2, by rw [hL, List.cons_append]⟩ hne hnext ?_
        have hdrop2 : List.drop (labelOf s ed).length (c :: (L2 ++ x2)) = x2 := by
          rw [← hword, List.drop_left]
        rw [hdrop2]
        exact hsp
      · rw [← hr, heq2, List.append_assoc]
      · have hlen1 : (c :: z).length = (labelOf s ed).length + r.length := by
          rw [← hr]
          simp
        have hlen2 : (labelOf s ed ++ x2).length =
            (labelOf s ed).length + x2.length := by simp
        have hlen3 : x2.length < r.length := hlt2
        omega

theorem spellsTo_root_nil {s : Ukkonen} {x : List Nat}
    (hri : RootNoIncoming s) (h : SpellsTo s 0 x 0) : x = [] := by
  by_contra hx
  obtain ⟨x2, u2, nd, c, eid, ed, _, _, _, hed, hnext, _, _, _⟩ :=
    spellsTo_last h hx
  exact hri eid ed hed hnext

theorem spellsTo_unique_aux {s : Ukkonen} (hsu : SlotUnique s)
    (hnu : NextUnique s) (hri : RootNoIncoming s) :
    ∀ n x x2 v, x.length ≤ n → SpellsTo s 0 x v → SpellsTo s 0 x2 v →
      x = x2 := by
  intro n
  induction n with
  | zero =>
    intro x x2 v hlen h1 h2
    have hx : x = [] := List.length_eq_zero.mp (by omega)
    subst hx
    have hv : v = 0 := (spellsTo_nil_inv h1).symm ▸ rfl
    subst hv
    exact (spellsTo_root_nil hri h2).symm
  | succ m ih =>
    intro x x2 v hlen h1 h2
    by_cases hx : x = []
    · subst hx
      have hv : (0 : Nat) = v := spellsTo_nil_inv h1
      subst hv
      exact (spellsTo_root_nil hri h2).symm
    · have hx2 : x2 ≠ [] := by
        intro hx2
        subst hx2
        have hv : (0 : Nat) = v := spellsTo_nil_inv h2
        subst hv
        exact hx (spellsTo_root_nil hri h1)
      obtain ⟨y1, u1, nd1, c1, e1, ed1, hs1, hnd1, hslot1, hed1, hnext1,
        hne1, heq1, hlt1⟩ := spellsTo_last h1 hx
      obtain ⟨y2, u2, nd2, c2, e2, ed2, hs2, hnd2, hslot2, hed2, hnext2,
        hne2, heq2, hlt2⟩ := spellsTo_last h2 hx2
      have he12 : e1 = e2 := hnu e1 ed1 e2 ed2 v hed1 hed2 hnext1 hnext2
      subst he12
      rw [hed1] at hed2
      cases hed2
      obtain ⟨hu12, _⟩ := hsu u1 (slotN c1) nd1 u2 (slotN c2) nd2 e1
        hnd1 hslot1 hnd2 hslot2
      subst hu12
      have hy12 : y1 = y2 := ih y1 y2 u1 (by omega) hs1 hs2
      rw [heq1, heq2, hy12]

theorem spellsTo_unique {s : Ukkonen} (hsu : SlotUnique s) (hnu : NextUnique s)
    (hri : RootNoIncoming s) {x x2 : List Nat} {v : Nat}
    (h1 : SpellsTo s 0 x v) (h2 : SpellsTo s 0 x2 v) : x = x2 :=
  spellsTo_unique_aux hsu hnu hri x.length x x2 v (le_refl _) h1 h2

theorem spellsTo_walkW_append {s : Ukkonen} {v u : Nat} {x y : List Nat}
    (h1 : SpellsTo s v x u) (h2 : WalkW s u y) : WalkW s v (x ++ y) := by
  obtain ⟨x1, z1, u1, hy, hsp, hpart⟩ := h2
  exact ⟨x ++ x1, z1, u1, by rw [hy, List.append_assoc],
    spellsTo_append h1 hsp, hpart⟩

theorem pref_drop_pref {α : Type} {y x : List α} (h : y <+: x) (n : Nat)
    (hn : n ≤ y.length) : y.drop n <+: x.drop n := by
  obtain ⟨r, hr⟩ := h
  rw [← hr, List.drop_append_of_le_length hn]
  exact ⟨r, rfl⟩

theorem partialIn_prefix {s : Ukkonen} {u : Nat} {z z2 : List Nat}
    (h : PartialIn s u z) (hp : z2 <+: z) : PartialIn s u z2 := by
  rcases h with h | ⟨nd, c, y, eid, ed, hz, hnd, hslot, hed, hpre⟩
  · subst h
    rw [List.prefix_nil.mp hp]
    exact Or.inl rfl
  · cases z2 with
    | nil => exact Or.inl rfl
    | cons a y2 =>
      subst hz
      obtain ⟨h1, _⟩ := List.cons_prefix_cons.mp hp
      subst h1
      exact Or.inr ⟨nd, a, y2, eid, ed, rfl, hnd, hslot, hed,
        List.IsPrefix.trans hp hpre⟩

theorem label_head_cons {s : Ukkonen} {ed : Edge} {c : Nat} {z : List Nat}
    (hpre : labelOf s ed <+: c :: z) (hne : labelOf s ed ≠ []) :
    labelOf s ed = c :: (labelOf s ed).drop 1 := by
  cases hL0 : labelOf s ed with
  | nil => exact absurd hL0 hne
  | cons a L2 =>
    rw [hL0] at hpre
    obtain ⟨h1, _⟩ := List.cons_prefix_cons.mp hpre
    rw [h1]
    rfl

theorem spellsTo_one_edge {s : Ukkonen} {v w : Nat} {nd : Node} {c eid : Nat}
    {ed : Edge} {z : List Nat}
    (hnd : lookupL s.nodes v = some nd)
    (hslot : lookupL nd.edges (slotN c) = some (some eid))
    (hed : lookupL s.edgeArena eid = some ed)
    (hpre : labelOf s ed <+: c :: z)
    (hne : labelOf s ed ≠ [])
    (hnext : ed.next = some w) :
    SpellsTo s v (labelOf s ed) w := by
  have hcL := label_head_cons hpre hne
  rw [hcL]
  refine SpellsTo.step v nd c ((labelOf s ed).drop 1) eid ed w w hnd hslot hed
    ?_ hne hnext ?_
  · rw [← hcL]
  · rw [← hcL, List.drop_length]
    exact SpellsTo.nil w

theorem spellsTo_prefix_walk {s : Ukkonen} {v u : Nat} {x : List Nat}
    (h : SpellsTo s v x u) :
    ∀ y2, y2 <+: x → WalkW s v y2 := by
  induction h with
  | nil =>
    intro y2 hp
    rw [List.prefix_nil.mp hp]
    exact walkW_nil s _
  | step v2 nd c z eid ed w2 u2 hnd hslot hed hpre hne hnext hrec ih =>
    intro y2 hp
    by_cases hlen : y2.length ≤ (labelOf s ed).length
    · have hy2L : y2 <+: labelOf s ed :=
        List.prefix_of_prefix_length_le hp hpre hlen
      cases y2 with
      | nil => exact walkW_nil s _
      | cons a y3 =>
        obtain ⟨h1, _⟩ := List.cons_prefix_cons.mp hp
        subst h1
        exact ⟨[], a :: y3, v2, rfl, SpellsTo.nil v2,
          Or.inr ⟨nd, a, y3, eid, ed, rfl, hnd, hslot, hed, hy2L⟩⟩
    · have hLy2 : labelOf s ed <+: y2 :=
        List.prefix_of_prefix_length_le hpre hp (by omega)
      have hy2eq : y2 = labelOf s ed ++ y2.drop (labelOf s ed).length := by
        obtain ⟨r, hr⟩ := hLy2
        rw [← hr, List.drop_left]
      have hdp : y2.drop (labelOf s ed).length <+:
          (c :: z).drop (labelOf s ed).length :=
        pref_drop_pref hp _ (by omega)
      have hw : WalkW s w2 (y2.drop (labelOf s ed).length) := ih _ hdp
      have hsp1 : SpellsTo s v2 (labelOf s ed) w2 :=
        spellsTo_one_edge hnd hslot hed hpre hne hnext
      rw [hy2eq]
      exact spellsTo_walkW_append hsp1 hw

theorem walkW_prefix {s : Ukkonen} {v : Nat} {y y2 : List Nat}
    (h : WalkW s v y) (hp : y2 <+: y) : WalkW s v y2 := by
  obtain ⟨x, z, u, hy, hsp, hpart⟩ := h
  subst hy
  by_cases hlen : y2.length ≤ x.length
  · exact spellsTo_prefix_walk hsp y2
      (List.prefix_of_prefix_length_le hp (List.prefix_append x z) hlen)
  · have hxy2 : x <+: y2 :=
      List.prefix_of_prefix_length_le (List.prefix_append x z) hp (by omega)
    have hy2eq : y2 = x ++ y2.drop x.length := by
      obtain ⟨r, hr⟩ := hxy2
      rw [← hr, List.drop_left]
    have hdp : y2.drop x.length <+: (x ++ z).drop x.length :=
      pref_drop_pref hp _ (by omega)
    rw [List.drop_left] at hdp
    rw [hy2eq]
    exact ⟨x, y2.drop x.length, u, rfl, hsp, partialIn_prefix hpart hdp⟩

theorem walkW_drop_edge {s : Ukkonen} {v w2 : Nat} {nd : Node} {c eid : Nat}
    {ed : Edge} {w : List Nat}
    (hw : WalkW s v w)
    (hnd : lookupL s.nodes v = some nd)
    (hslot : lookupL nd.edges (slotN c) = some (some eid))
    (hed : lookupL s.edgeArena eid = some ed)
    (hpre : labelOf s ed <+: w)
    (hne : labelOf s ed ≠ [])
    (hhead : w.head? = some c)
    (hnext : ed.next = some w2) :
    WalkW s w2 (w.drop (labelOf s ed).length) := by
  obtain ⟨x1, z1, u1, hweq, hsp, hpart⟩ := hw
  cases hsp with
  | nil =>
    have hz1 : w = z1 := by rw [hweq]; rfl
    rcases hpart with hp0 | ⟨nd1, c1, y1, eid1, ed1, hz, hnd1, hslot1, hed1, hpre1⟩
    · rw [hz1, hp0] at hpre
      exact absurd (List.prefix_nil.mp hpre) hne
    · rw [← hz1] at hz hpre1
      have hc1 : c1 = c := by
        rw [hz] at hhead
        exact Option.some.inj hhead
      rw [hc1] at hslot1
      have hnd3 : nd1 = nd := by
        rw [hnd1] at hnd
        exact Option.some.inj hnd
      rw [hnd3] at hslot1
      have heid : eid1 = eid := by
        rw [hslot1] at hslot
        exact Option.some.inj (Option.some.inj hslot)
      rw [heid] at hed1
      have hed3 : ed1 = ed := by
        rw [hed1] at hed
        exact Option.some.inj hed
      rw [hed3] at hpre1
      have hweq2 : w = labelOf s ed :=
        List.IsPrefix.eq_of_length hpre1
          (Nat.le_antisymm hpre1.length_le hpre.length_le)
      rw [hweq2, List.drop_length]
      exact walkW_nil s w2
  | step v2 nd2 c2 z2 eid2 ed2 w3 u2 hnd2 hslot2 hed2 hpre2 hne2 hnext2 hrec =>
    have hc2 : c2 = c := by
      rw [hweq] at hhead
      exact Option.some.inj hhead
    rw [hc2] at hslot2
    have hnd3 : nd2 = nd := by
      rw [hnd2] at hnd
      exact Option.some.inj hnd
    rw [hnd3] at hslot2
    have heid : eid2 = eid := by
      rw [hslot2] at hslot
      exact Option.some.inj (Option.some.inj hslot)
    rw [heid] at hed2
    have hed3 : ed2 = ed := by
      rw [hed2] at hed
      exact Option.some.inj hed
    rw [hed3] at hpre2 hrec hnext2
    have hw3 : w3 = w2 := by
      rw [hnext2] at hnext
      exact Option.some.inj hnext
    rw [hw3] at hrec
    have hlen2 : (labelOf s ed).length ≤ (c2 :: z2).length := hpre2.length_le
    rw [hweq, List.drop_append_of_le_length hlen2]
    exact ⟨List.drop (labelOf s ed).length (c2 :: z2), z1, u1, rfl, hrec, hpart⟩

theorem spellsTo_walk_decomp {s : Ukkonen} {v u : Nat} {x : List Nat}
    (h : SpellsTo s v x u) :
    ∀ y, WalkW s v (x ++ y) → WalkW s u y := by
  induction h with
  | nil =>
    intro y hw
    exact hw
  | step v2 nd c z eid ed w2 u2 hnd hslot hed hpre hne hnext hrec ih =>
    intro y hw
    apply ih
    have h2 := walkW_drop_edge hw hnd hslot hed
      (hpre.trans (List.prefix_append _ _)) hne (by rfl) hnext
    rwa [List.drop_append_of_le_length (by simpa using hpre.length_le)] at h2

theorem walkW_within_edge {s : Ukkonen} {v : Nat} {nd : Node} {c eid : Nat}
    {ed : Edge} {w : List Nat}
    (hw : WalkW s v w)
    (hnd : lookupL s.nodes v = some nd)
    (hslot : lookupL nd.edges (slotN c) = some (some eid))
    (hed : lookupL s.edgeArena eid = some ed)
    (hhead : w.head? = some c)
    (hlen : w.length ≤ (labelOf s ed).length) : w <+: labelOf s ed := by
  obtain ⟨x1, z1, u1, hweq, hsp, hpart⟩ := hw
  cases hsp with
  | nil =>
    have hz1 : w = z1 := by rw [hweq]; rfl
    rcases hpart with hp0 | ⟨nd1, c1, y1, eid1, ed1, hz, hnd1, hslot1, hed1, hpre1⟩
    · rw [hz1, hp0]
      exact List.nil_prefix
    · rw [← hz1] at hz hpre1
      have hc1 : c1 = c := by
        rw [hz] at hhead
        exact Option.some.inj hhead
      rw [hc1] at hslot1
      have hnd3 : nd1 = nd := by
        rw [hnd1] at hnd
        exact Option.some.inj hnd
      rw [hnd3] at hslot1
      have heid : eid1 = eid := by
        rw [hslot1] at hslot
        exact Option.some.inj (Option.some.inj hslot)
      rw [heid] at hed1
      have hed3 : ed1 = ed := by
        rw [hed1] at hed
        exact Option.some.inj hed
      rw [hed3] at hpre1
      exact hpre1
  | step v2 nd2 c2 z2 eid2 ed2 w3 u2 hnd2 hslot2 hed2 hpre2 hne2 hnext2 hrec =>
    have hc2 : c2 = c := by
      rw [hweq] at hhead
      exact Option.some.inj hhead
    rw [hc2] at hslot2
    have hnd3 : nd2 = nd := by
      rw [hnd2] at hnd
      exact Option.some.inj hnd
    rw [hnd3] at hslot2
    have heid : eid2 = eid := by
      rw [hslot2] at hslot
      exact Option.some.inj (Option.some.inj hslot)
    rw [heid] at hed2
    have hed3 : ed2 = ed := by
      rw [hed2] at hed
      exact Option.some.inj hed
    rw [hed3] at hpre2
    have hlen1 : (labelOf s ed).length ≤ (c2 :: z2).length := hpre2.length_le
    have hlen2 : w.length = (c2 :: z2).length + z1.length := by
      rw [hweq]
      exact List.length_append _ _
    have hz1nil : z1 = [] := by
      refine List.length_eq_zero.mp ?_
      omega
    have hxlen : (c2 :: z2).length = (labelOf s ed).length := by
      omega
    have hxeq : labelOf s ed = c2 :: z2 :=
      List.IsPrefix.eq_of_length hpre2 hxlen.symm
    rw [hweq, hz1nil, List.append_nil, ← hxeq]

/-- Value of the shared global end cell. -/
def gvalOf (s : Ukkonen) : Option Int :=
  match lookupL s.ends 0 with
  | some ec => ec.value
  | none => none

/-- Largest starting offset of an already inserted suffix (as an integer,
-1-like values meaning none inserted yet). -/
def insBound (s : Ukkonen) : Int :=
  if s.mode = Mode.inner then (s.phase : Int) - s.remainder
  else (s.phase : Int) - 1 - s.remainder

/-- Starting offset of the first pending suffix. -/
def jStar (s : Ukkonen) : Nat := (insBound s + 1).toNat

/-- Everything the construction maintains about one occupied edge slot:
the span of the edge inside the text, coherence of the slot with the
first label character, alignment of the edge position with the word
spelled by its parent node, the leaf and internal-edge discipline of
the End-cell reference, and the anchor of the edge inside an already
inserted suffix. -/
def EdgeFacts (s : Ukkonen) (v k : Nat) (ed : Edge) : Prop :=
  ∃ st ln q d : Nat,
    ed.start = (st : Int) ∧ 1 ≤ ln ∧ st + ln ≤ s.text.length ∧
    labelOf s ed = seg s.text st ln ∧
    (∃ c, lookupL s.text st = some c ∧ slotN c = k ∧ 36 ≤ c) ∧
    (∃ ec, lookupL s.ends ed.endId = some ec ∧
      ec.value = some ((st : Int) + ln - 1)) ∧
    (ed.endId = 0 → ed.next = none ∧ ed.suffix_id = some (q : Int)) ∧
    (ed.endId ≠ 0 → ed.suffix_id = none ∧
      (∃ w ndw, ed.next = some w ∧ w ≠ 0 ∧ lookupL s.nodes w = some ndw) ∧
      (∃ g : Nat, gvalOf s = some (g : Int) ∧ st + ln ≤ g)) ∧
    SpellsTo s 0 (seg s.text q d) v ∧ q + d = st ∧ (q : Int) ≤ insBound s

/-- The deep invariant of the construction: alphabet-coherent slots with
aligned spans, unique tree structure, every inserted suffix readable down
to the tip of an open edge, the active point denoting the matched part of
the first pending suffix, suffix links denoting tails, and the
previous-node protocol. -/
structure Deep (T : List Nat) (s : Ukkonen) : Prop where
  textEq : s.text = T ++ [DOLLAR]
  gv : (gvalOf s = none ∧ s.edgeArena = [] ∧ s.phase = 0 ∧
      s.remainder = 0 ∧ s.mode = Mode.phaseStart) ∨
    (∃ g : Nat, gvalOf s = some (g : Int) ∧
      (s.mode = Mode.inner → g = s.phase) ∧
      (s.mode ≠ Mode.inner → g + 1 = s.phase))
  phaseLe : s.phase ≤ s.text.length
  phaseLt : s.mode = Mode.inner → s.phase < s.text.length
  remB1 : s.mode = Mode.inner → 0 ≤ s.remainder ∧ s.remainder ≤ (s.phase : Int) + 1
  remB2 : s.mode ≠ Mode.inner → 0 ≤ s.remainder ∧ s.remainder ≤ (s.phase : Int)
  remZero : s.mode = Mode.inner → s.remainder = 0 →
    s.active_length = 0 ∧ s.previous_node = none
  slotFacts : ∀ v nd k eid ed, lookupL s.nodes v = some nd →
    lookupL nd.edges k = some (some eid) → lookupL s.edgeArena eid = some ed →
    EdgeFacts s v k ed
  slotOnto : ∀ eid ed, lookupL s.edgeArena eid = some ed →
    ∃ v nd k, lookupL s.nodes v = some nd ∧ lookupL nd.edges k = some (some eid)
  slotsValid : ∀ v nd k eid, lookupL s.nodes v = some nd →
    lookupL nd.edges k = some (some eid) → ∃ ed, lookupL s.edgeArena eid = some ed
  slotU : SlotUnique s
  nextU : NextUnique s
  rootNI : RootNoIncoming s
  branch2 : ∀ v nd, v ≠ 0 → lookupL s.nodes v = some nd →
    ∃ k1 k2 e1 e2 ed1 ed2, k1 ≠ k2 ∧ lookupL nd.edges k1 = some (some e1) ∧
      lookupL nd.edges k2 = some (some e2) ∧
      lookupL s.edgeArena e1 = some ed1 ∧ lookupL s.edgeArena e2 = some ed2
  m2 : ∀ g : Nat, gvalOf s = some (g : Int) → ∀ j2 : Nat,
    (j2 : Int) ≤ insBound s →
    ∃ x u nd k eid ed, SpellsTo s 0 x u ∧ lookupL s.nodes u = some nd ∧
      lookupL nd.edges k = some (some eid) ∧ lookupL s.edgeArena eid = some ed ∧
      ed.endId = 0 ∧ labelOf s ed ≠ [] ∧
      seg s.text j2 (g + 1 - j2) = x ++ labelOf s ed
  ap : ∃ aLenN : Nat, s.active_length = (aLenN : Int) ∧
    (aLenN = 0 →
      SpellsTo s 0 (seg s.text (jStar s) (s.phase - jStar s)) s.active_node) ∧
    (1 ≤ aLenN → ∃ aeN : Nat, s.active_edge = some ((aeN : Nat) : Int) ∧
      aeN + aLenN = s.phase ∧ jStar s ≤ aeN ∧
      SpellsTo s 0 (seg s.text (jStar s) (aeN - jStar s)) s.active_node ∧
      WalkW s s.active_node (seg s.text aeN aLenN))
  lnk : ∀ v nd w, lookupL s.nodes v = some nd → nd.link = some w →
    ∃ q d : Nat, SpellsTo s 0 (seg s.text q d) v ∧ q + d ≤ s.text.length ∧
      SpellsTo s 0 (seg s.text (q + 1) (d - 1)) w
  nl : ∀ v nd, lookupL s.nodes v = some nd → nd.link = none →
    s.mode = Mode.inner ∧ s.previous_node = some v
  prevSp : s.mode = Mode.inner → ∀ p, s.previous_node = some p →
    p ≠ 0 ∧ 1 ≤ jStar s ∧
    SpellsTo s 0 (seg s.text (jStar s - 1) (s.phase - (jStar s - 1))) p

theorem lookupL_replicate {α : Type} (a : α) :
    ∀ (n k : Nat), lookupL (List.replicate n a) k = if k < n then some a else none := by
  intro n
  induction n with
  | zero =>
    intro k
    rw [List.replicate_zero, lookupL_nil]
    simp
  | succ m ih =>
    intro k
    rw [List.replicate_succ]
    cases k with
    | zero => simp [lookupL_cons_zero]
    | succ k2 =>
      rw [lookupL_cons_succ, ih]
      by_cases h : k2 < m
      · simp [h, Nat.succ_lt_succ h]
      · simp [h, fun hc => h (Nat.lt_of_succ_lt_succ hc)]

theorem spellsTo_step2 {s : Ukkonen} {v w u : Nat} {nd : Node} {c eid : Nat}
    {ed : Edge} {x : List Nat}
    (hnd : lookupL s.nodes v = some nd)
    (hslot : lookupL nd.edges (slotN c) = some (some eid))
    (hed : lookupL s.edgeArena eid = some ed)
    (hpre : labelOf s ed <+: x)
    (hne : labelOf s ed ≠ [])
    (hhead : x.head? = some c)
    (hnext : ed.next = some w)
    (hrec : SpellsTo s w (x.drop (labelOf s ed).length) u) :
    SpellsTo s v x u := by
  cases x with
  | nil => cases hhead
  | cons c1 y =>
    have hc : c1 = c := Option.some.inj hhead
    subst hc
    exact SpellsTo.step v nd c1 y eid ed w u hnd hslot hed hpre hne hnext hrec

/-- Transport relation between states: every occupied slot stays occupied
by the same edge id, edge records are preserved, labels of edges with a
child are unchanged, and every label can only grow at its far end. -/
structure TreeLe (s t : Ukkonen) : Prop where
  slots : ∀ v nd k eid, lookupL s.nodes v = some nd →
    lookupL nd.edges k = some (some eid) →
    ∃ nd2, lookupL t.nodes v = some nd2 ∧ lookupL nd2.edges k = some (some eid)
  arena : ∀ eid ed, lookupL s.edgeArena eid = some ed →
    lookupL t.edgeArena eid = some ed
  labC : ∀ eid ed w, lookupL s.edgeArena eid = some ed → ed.next = some w →
    labelOf t ed = labelOf s ed
  labA : ∀ eid ed, lookupL s.edgeArena eid = some ed →
    labelOf s ed <+: labelOf t ed

theorem spellsTo_mono {s t : Ukkonen} (hle : TreeLe s t) {v u : Nat}
    {x : List Nat} (h : SpellsTo s v x u) : SpellsTo t v x u := by
  induction h with
  | nil => exact SpellsTo.nil _
  | step v2 nd c y eid ed w u2 hnd hslot hed hpre hne hnext hrec ih =>
    obtain ⟨nd2, hnd2, hslot2⟩ := hle.slots v2 nd (slotN c) eid hnd hslot
    have hed2 := hle.arena eid ed hed
    have hlab := hle.labC eid ed w hed hnext
    refine SpellsTo.step v2 nd2 c y eid ed w u2 hnd2 hslot2 hed2 ?_ ?_ hnext ?_
    · rw [hlab]; exact hpre
    · rw [hlab]; exact hne
    · rw [hlab]; exact ih

theorem partialIn_mono {s t : Ukkonen} (hle : TreeLe s t) {u : Nat}
    {z : List Nat} (h : PartialIn s u z) : PartialIn t u z := by
  rcases h with h | ⟨nd, c, y, eid, ed, hz, hnd, hslot, hed, hpre⟩
  · exact Or.inl h
  · obtain ⟨nd2, hnd2, hslot2⟩ := hle.slots u nd (slotN c) eid hnd hslot
    exact Or.inr ⟨nd2, c, y, eid, ed, hz, hnd2, hslot2, hle.arena eid ed hed,
      hpre.trans (hle.labA eid ed hed)⟩

theorem walkW_mono {s t : Ukkonen} (hle : TreeLe s t) {v : Nat}
    {y : List Nat} (h : WalkW s v y) : WalkW t v y := by
  obtain ⟨x, z, u, hy, hsp, hpart⟩ := h
  exact ⟨x, z, u, hy, spellsTo_mono hle hsp, partialIn_mono hle hpart⟩

theorem labelOf_congr {s t : Ukkonen} (hends : t.ends = s.ends)
    (htext : t.text = s.text) (ed : Edge) : labelOf t ed = labelOf s ed := by
  unfold labelOf
  rw [hends, htext]

theorem treeLe_of_eq {s t : Ukkonen} (hn : t.nodes = s.nodes)
    (ha : t.edgeArena = s.edgeArena) (he : t.ends = s.ends)
    (ht : t.text = s.text) : TreeLe s t := by
  refine ⟨?_, ?_, ?_, ?_⟩
  · intro v nd k eid hnd hslot
    exact ⟨nd, by rw [hn]; exact hnd, hslot⟩
  · intro eid ed hed
    rw [ha]; exact hed
  · intro eid ed w hed _
    exact labelOf_congr he ht ed
  · intro eid ed hed
    rw [labelOf_congr he ht ed]

theorem pyGet_nonneg {α : Type} {l : List α} {i : Int} (h : 0 ≤ i) :
    pyGet l i = lookupL l i.toNat := by
  unfold pyGet
  rw [if_pos h]

theorem pySet_nonneg_some {α : Type} {l l2 : List α} {i : Int} {v : α}
    (h0 : 0 ≤ i) (h : pySet l i v = some l2) :
    i < l.length ∧ l2 = setL l i.toNat v := by
  unfold pySet at h
  split at h
  · rename_i hc
    exact ⟨hc.2, (Option.some.inj h).symm⟩
  · split at h
    · rename_i hc2
      exact absurd hc2.1 (not_lt.mpr h0)
    · cases h

theorem slotIdx_toNat {c : Nat} (h : 36 ≤ c) : (slotIdx c).toNat = slotN c := by
  unfold slotIdx slotN ALPHABET_START
  omega

theorem slotIdx_nonneg {c : Nat} (h : 36 ≤ c) : 0 ≤ slotIdx c := by
  unfold slotIdx ALPHABET_START
  omega

theorem slotN_inj {c c2 : Nat} (h : 36 ≤ c) (h2 : 36 ≤ c2)
    (he : slotN c = slotN c2) : c = c2 := by
  unfold slotN at he
  omega

theorem labelOf_eq {s : Ukkonen} {ed : Edge} {ec : End} {st ln : Nat}
    (hec : lookupL s.ends ed.endId = some ec)
    (hv : ec.value = some ((st : Int) + ln - 1))
    (hst : ed.start = (st : Int)) :
    labelOf s ed = seg s.text st ln := by
  unfold labelOf
  rw [hec]
  dsimp only
  rw [hv]
  dsimp only
  rw [hst]
  have h1 : ((st : Int) + ln - 1 - st + 1).toNat = ln := by omega
  have h2 : ((st : Int)).toNat = st := by omega
  rw [h1, h2]

theorem walkW_first_edge {s : Ukkonen} {v : Nat} {w : List Nat} {c : Nat}
    (h : WalkW s v w) (hhead : w.head? = some c) :
    ∃ nd eid ed, lookupL s.nodes v = some nd ∧
      lookupL nd.edges (slotN c) = some (some eid) ∧
      lookupL s.edgeArena eid = some ed := by
  obtain ⟨x, z, u, hy, hsp, hpart⟩ := h
  cases hsp with
  | nil =>
    rw [List.nil_append] at hy
    subst hy
    rcases hpart with hz | ⟨nd, c1, y, eid, ed, hzz, hnd, hslot, hed, hpre⟩
    · subst hz; cases hhead
    · subst hzz
      have hc : c1 = c := Option.some.inj hhead
      subst hc
      exact ⟨nd, eid, ed, hnd, hslot, hed⟩
  | step v2 nd c1 y eid ed w2 u2 hnd hslot hed hpre hne hnext hrec =>
    rw [hy, List.cons_append, List.head?_cons] at hhead
    have hc : c1 = c := Option.some.inj hhead
    subst hc
    exact ⟨nd, eid, ed, hnd, hslot, hed⟩

theorem seg_last {t : List Nat} {q n c : Nat} (hq : lookupL t (q + (n - 1)) = some c)
    (hn : 1 ≤ n) : seg t q n = seg t q (n - 1) ++ [c] := by
  have h1 : n = (n - 1) + 1 := by omega
  rw [h1, seg_add t q (n - 1) 1, seg_cons hq (le_refl 1)]
  rfl

theorem gval_of_open {s : Ukkonen} {ed : Edge} {ec : End} {st ln : Nat}
    (h0 : ed.endId = 0)
    (hec : lookupL s.ends ed.endId = some ec)
    (hv : ec.value = some ((st : Int) + ln - 1))
    (hln : 1 ≤ ln) :
    gvalOf s = some (((st + ln - 1 : Nat) : Int)) := by
  unfold gvalOf
  rw [h0] at hec
  rw [hec]
  dsimp only
  rw [hv]
  congr 1
  omega

/-- Every nonempty word readable from the root occurs in the text at a
position inside an already inserted suffix, ending no later than one past
the current global end. -/
theorem occ_of_walk {s : Ukkonen}
    (hSF : ∀ v nd k eid ed, lookupL s.nodes v = some nd →
      lookupL nd.edges k = some (some eid) → lookupL s.edgeArena eid = some ed →
      EdgeFacts s v k ed)
    (hsu : SlotUnique s) (hnu : NextUnique s) (hri : RootNoIncoming s)
    {w : List Nat} (h : WalkW s 0 w) (hw : w ≠ []) :
    ∃ pos g : Nat, gvalOf s = some (g : Int) ∧ (pos : Int) ≤ insBound s ∧
      pos + w.length ≤ g + 1 ∧ w = seg s.text pos w.length := by
  obtain ⟨x, z, u, hy, hsp, hpart⟩ := h
  rcases hpart with hz | ⟨nd, c1, y, eid, ed, hzz, hnd, hslot, hed, hpre⟩
  · subst hz
    rw [List.append_nil] at hy
    subst hy
    obtain ⟨x2, u2, nd, c, eid, ed, hsp2, hnd, hslot, hed, hnext, hne, hxeq, _⟩ :=
      spellsTo_last hsp hw
    obtain ⟨st, ln, q, d, hst, hln, hstln, hlab, hhc, hcell, hopen, hclosed,
      hspell, hqd, hqb⟩ := hSF u2 nd (slotN c) eid ed hnd hslot hed
    have hnotopen : ed.endId ≠ 0 := by
      intro h0
      rw [(hopen h0).1] at hnext
      cases hnext
    obtain ⟨hsid, hwv, g, hg, hstg⟩ := hclosed hnotopen
    have hlen2 : x2.length = d :=
      spellsTo_unique hsu hnu hri hsp2 hspell ▸ seg_length_of_le (by omega)
    have hlenL : (labelOf s ed).length = ln := by
      rw [hlab]
      exact seg_length_of_le hstln
    have hxlen : w.length = d + ln := by
      rw [hxeq, List.length_append, hlen2, hlenL]
    have hseg : w = seg s.text q (d + ln) := by
      rw [seg_add, ← spellsTo_unique hsu hnu hri hsp2 hspell, hqd, ← hlab]
      exact hxeq
    exact ⟨q, g, hg, hqb, by omega, by rw [hxlen]; exact hseg⟩
  · subst hzz
    obtain ⟨st, ln, q, d, hst, hln, hstln, hlab, hhc, hcell, hopen, hclosed,
      hspell, hqd, hqb⟩ := hSF u nd (slotN c1) eid ed hnd hslot hed
    have hx : x = seg s.text q d := spellsTo_unique hsu hnu hri hsp hspell
    rw [hlab] at hpre
    have hzseg := prefix_seg hpre
    have hzlen : (c1 :: y).length ≤ ln := by
      have h3 := hpre.length_le
      rw [seg_length_of_le hstln] at h3
      exact h3
    have hxlen2 : x.length = d := by
      rw [hx]
      exact seg_length_of_le (by omega)
    have hwlen : w.length = d + (c1 :: y).length := by
      rw [hy, List.length_append, hxlen2]
    have hwseg : w = seg s.text q (d + (c1 :: y).length) := by
      rw [seg_add, ← hx, hqd, ← hzseg]
      exact hy
    by_cases h0 : ed.endId = 0
    · obtain ⟨ec, hec, hv⟩ := hcell
      refine ⟨q, st + ln - 1, gval_of_open h0 hec hv hln, hqb, by omega, ?_⟩
      rw [hwlen]
      exact hwseg
    · obtain ⟨hsid, hwv, g, hg, hstg⟩ := hclosed h0
      refine ⟨q, g, hg, hqb, by omega, ?_⟩
      rw [hwlen]
      exact hwseg

theorem head_of_take {α : Type} {l : List α} {n : Nat} (hn : 1 ≤ n) :
    (l.take n).head? = l.head? := by
  cases l with
  | nil => rw [List.take_nil]
  | cons a l2 =>
    obtain ⟨m, hm⟩ := Nat.exists_eq_add_of_le hn
    subst hm
    rw [Nat.add_comm, List.take_succ_cons]
    rfl

theorem head_of_pref {α : Type} {z l : List α} (h : z <+: l) (hz : z ≠ []) :
    l.head? = z.head? := by
  obtain ⟨r, hr⟩ := h
  subst hr
  cases z with
  | nil => exact absurd rfl hz
  | cons a z2 => rfl

theorem take_of_pref {α : Type} {z l : List α} (h : z <+: l) {n : Nat}
    (hn : n ≤ z.length) : l.take n = z.take n := by
  obtain ⟨r, hr⟩ := h
  subst hr
  rw [List.take_append_of_le_length hn]

/-- Abstract description of the tree surgery a split performs: the slot
(v, k) held edge eid; afterwards it holds the fresh internal edge ieId
whose label is the first stA characters of the old label and whose child
is the fresh node inId, below which the truncated edge eid carries the
rest of the old label; every other slot, record and label is unchanged. -/
structure SplitRel (s0 s1 : Ukkonen) (v k eid ieId inId stA : Nat)
    (ed : Edge) : Prop where
  hsu : SlotUnique s0
  hbase : ∃ nd0, lookupL s0.nodes v = some nd0 ∧
    lookupL nd0.edges k = some (some eid)
  hbaseE : lookupL s0.edgeArena eid = some ed
  hstA1 : 1 ≤ stA
  hstA2 : stA < (labelOf s0 ed).length
  hslots : ∀ v2 nd2, lookupL s0.nodes v2 = some nd2 →
    ∃ nd2b, lookupL s1.nodes v2 = some nd2b ∧
      ∀ k2 e2, lookupL nd2.edges k2 = some (some e2) →
        (v2 = v ∧ k2 = k) ∨ lookupL nd2b.edges k2 = some (some e2)
  harena : ∀ e2 ed2, e2 ≠ eid → lookupL s0.edgeArena e2 = some ed2 →
    lookupL s1.edgeArena e2 = some ed2 ∧ labelOf s1 ed2 = labelOf s0 ed2
  hie : ∃ ndv ie, lookupL s1.nodes v = some ndv ∧
    lookupL ndv.edges k = some (some ieId) ∧
    lookupL s1.edgeArena ieId = some ie ∧ ie.next = some inId ∧
    labelOf s1 ie = (labelOf s0 ed).take stA
  htr : ∃ ndI edT cMid, lookupL s1.nodes inId = some ndI ∧
    lookupL ndI.edges (slotN cMid) = some (some eid) ∧
    lookupL s1.edgeArena eid = some edT ∧ edT.next = ed.next ∧
    labelOf s1 edT = (labelOf s0 ed).drop stA ∧
    ((labelOf s0 ed).drop stA).head? = some cMid

theorem split_spellsTo {s0 s1 : Ukkonen} {v k eid ieId inId stA : Nat}
    {ed : Edge} (hr : SplitRel s0 s1 v k eid ieId inId stA ed)
    {a b : Nat} {x : List Nat} (h : SpellsTo s0 a x b) : SpellsTo s1 a x b := by
  induction h with
  | nil => exact SpellsTo.nil _
  | step a nd c y e2 ed2 w b2 hnd hslot hed hpre hne hnext hrec ih =>
    by_cases hcase : e2 = eid
    · obtain ⟨nd0, hnd0, hslot0⟩ := hr.hbase
      obtain ⟨hav, hkk⟩ := hr.hsu a (slotN c) nd v k nd0 eid hnd
        (hcase ▸ hslot) hnd0 hslot0
      have hede : ed2 = ed :=
        Option.some.inj ((hcase ▸ hed).symm.trans hr.hbaseE)
      rw [hede] at hpre hne hnext ih
      rw [hav]
      obtain ⟨ndv, ie, hndv, hslotv, hiee, hienext, hlabie⟩ := hr.hie
      obtain ⟨ndI, edT, cMid, hndI, hslotI, hedT, hTnext, hTlab, hThead⟩ := hr.htr
      have hsA1 := hr.hstA1
      have hsA2 := hr.hstA2
      have hLhead : (labelOf s0 ed).head? = some c := by
        rw [label_head_cons hpre hne]
        rfl
      have htklen : ((labelOf s0 ed).take stA).length = stA := by
        rw [List.length_take]
        omega
      have htkne : (labelOf s0 ed).take stA ≠ [] := by
        intro hnil
        rw [hnil] at htklen
        simp at htklen
        omega
      have hdrlen : ((labelOf s0 ed).drop stA).length
          = (labelOf s0 ed).length - stA := by
        rw [List.length_drop]
      have hdrne : (labelOf s0 ed).drop stA ≠ [] := by
        intro hnil
        have h2 : ((labelOf s0 ed).drop stA).length = 0 := by rw [hnil]; rfl
        rw [hdrlen] at h2
        omega
      refine spellsTo_step2 hndv (hkk ▸ hslotv) hiee ?_ ?_ ?_ hienext ?_
      · rw [hlabie]
        exact (List.take_prefix _ _).trans hpre
      · rw [hlabie]
        exact htkne
      · rfl
      · rw [hlabie, htklen]
        refine spellsTo_step2 hndI hslotI hedT ?_ ?_ ?_ (hTnext.trans hnext) ?_
        · rw [hTlab]
          exact pref_drop_pref hpre stA (le_of_lt hr.hstA2)
        · rw [hTlab]
          exact hdrne
        · rw [head_of_pref (pref_drop_pref hpre stA (le_of_lt hr.hstA2))
            hdrne]
          exact hThead
        · have hrest : ((c :: y).drop stA).drop ((labelOf s0 ed).drop stA).length
              = (c :: y).drop (labelOf s0 ed).length := by
            rw [hdrlen, List.drop_drop]
            congr 1
            omega
          rw [hTlab, hrest]
          exact ih
    · obtain ⟨nd2b, hnd2b, hkeep⟩ := hr.hslots a nd hnd
      rcases hkeep (slotN c) e2 hslot with ⟨hav, hkk⟩ | hkept
      · subst hav
        obtain ⟨nd0, hnd0, hslot0⟩ := hr.hbase
        have hnde : nd = nd0 := Option.some.inj (hnd.symm.trans hnd0)
        rw [hnde, hkk, hslot0] at hslot
        exact absurd (Option.some.inj (Option.some.inj hslot)).symm hcase
      · obtain ⟨hed2, hlab2⟩ := hr.harena e2 ed2 hcase hed
        refine SpellsTo.step a nd2b c y e2 ed2 w b2 hnd2b hkept hed2 ?_ ?_
          hnext ?_
        · rw [hlab2]; exact hpre
        · rw [hlab2]; exact hne
        · rw [hlab2]; exact ih

theorem split_partialIn {s0 s1 : Ukkonen} {v k eid ieId inId stA : Nat}
    {ed : Edge} (hr : SplitRel s0 s1 v k eid ieId inId stA ed)
    {u : Nat} {z : List Nat} (h : PartialIn s0 u z) : WalkW s1 u z := by
  rcases h with hz | ⟨nd, c1, y, eid2, ed2, hzz, hnd, hslot, hed, hpre⟩
  · subst hz
    exact walkW_nil _ _
  · by_cases hcase : eid2 = eid
    · obtain ⟨nd0, hnd0, hslot0⟩ := hr.hbase
      obtain ⟨hav, hkk⟩ := hr.hsu u (slotN c1) nd v k nd0 eid hnd
        (hcase ▸ hslot) hnd0 hslot0
      have hede : ed2 = ed :=
        Option.some.inj ((hcase ▸ hed).symm.trans hr.hbaseE)
      rw [hede] at hpre
      have hsA1 := hr.hstA1
      have hsA2 := hr.hstA2
      obtain ⟨ndv, ie, hndv, hslotv, hiee, hienext, hlabie⟩ := hr.hie
      have htklen : ((labelOf s0 ed).take stA).length = stA := by
        rw [List.length_take]
        omega
      have htkne : (labelOf s0 ed).take stA ≠ [] := by
        intro hnil
        rw [hnil] at htklen
        simp at htklen
        omega
      rw [hav]
      by_cases hlen : z.length ≤ stA
      · refine ⟨[], z, v, (List.nil_append z).symm, SpellsTo.nil v, ?_⟩
        refine Or.inr ⟨ndv, c1, y, ieId, ie, hzz, hndv, hkk ▸ hslotv, hiee, ?_⟩
        rw [hlabie]
        refine List.prefix_iff_eq_take.mpr ?_
        rw [List.take_take, Nat.min_eq_left hlen]
        exact List.prefix_iff_eq_take.mp hpre
      · push_neg at hlen
        obtain ⟨ndI, edT, cMid, hndI, hslotI, hedT, hTnext, hTlab, hThead⟩ :=
          hr.htr
        have htkeq : z.take stA = (labelOf s0 ed).take stA :=
          (take_of_pref hpre (le_of_lt hlen)).symm
        have hxsp : SpellsTo s1 v (z.take stA) inId := by
          refine spellsTo_step2 hndv (hkk ▸ hslotv) hiee ?_ ?_ ?_ hienext ?_
          · rw [hlabie, ← htkeq]
          · rw [hlabie]
            exact htkne
          · rw [head_of_take hsA1, hzz]
            rfl
          · have hnil2 : (z.take stA).drop stA = [] :=
              List.drop_eq_nil_of_le (by rw [List.length_take]; omega)
            rw [hlabie, htklen, hnil2]
            exact SpellsTo.nil inId
        have hdzp : z.drop stA <+: (labelOf s0 ed).drop stA :=
          pref_drop_pref hpre stA (le_of_lt hlen)
        have hdzne : z.drop stA ≠ [] := by
          intro hnil
          have h2 : (z.drop stA).length = 0 := by rw [hnil]; rfl
          rw [List.length_drop] at h2
          omega
        have hdzhead : (z.drop stA).head? = some cMid := by
          rw [← head_of_pref hdzp hdzne]
          exact hThead
        have hzpart : PartialIn s1 inId (z.drop stA) := by
          cases hzd : z.drop stA with
          | nil => exact absurd hzd hdzne
          | cons a t =>
            have hac : a = cMid := by
              rw [hzd] at hdzhead
              exact Option.some.inj hdzhead
            subst hac
            refine Or.inr ⟨ndI, a, t, eid, edT, rfl, hndI, hslotI, hedT, ?_⟩
            rw [hTlab, ← hzd]
            exact hdzp
        refine ⟨z.take stA, z.drop stA, inId, (List.take_append_drop stA z).symm,
          hxsp, hzpart⟩
    · obtain ⟨nd2b, hnd2b, hkeep⟩ := hr.hslots u nd hnd
      rcases hkeep (slotN c1) eid2 hslot with ⟨hav, hkk⟩ | hkept
      · obtain ⟨nd0, hnd0, hslot0⟩ := hr.hbase
        rw [hav] at hnd
        have hnde : nd = nd0 := Option.some.inj (hnd.symm.trans hnd0)
        rw [hnde, hkk, hslot0] at hslot
        exact absurd (Option.some.inj (Option.some.inj hslot)).symm hcase
      · obtain ⟨hed2, hlab2⟩ := hr.harena eid2 ed2 hcase hed
        refine ⟨[], z, u, (List.nil_append z).symm, SpellsTo.nil u,
          Or.inr ⟨nd2b, c1, y, eid2, ed2, hzz, hnd2b, hkept, hed2, ?_⟩⟩
        rw [hlab2]
        exact hpre

theorem split_walkW {s0 s1 : Ukkonen} {v k eid ieId inId stA : Nat}
    {ed : Edge} (hr : SplitRel s0 s1 v k eid ieId inId stA ed)
    {a : Nat} {y : List Nat} (h : WalkW s0 a y) : WalkW s1 a y := by
  obtain ⟨x, z, u, hy, hsp, hpart⟩ := h
  subst hy
  exact spellsTo_walkW_append (split_spellsTo hr hsp) (split_partialIn hr hpart)

theorem edgeFacts_mono {s t : Ukkonen} (hle : TreeLe s t)
    (htext : t.text = s.text) (hends : t.ends = s.ends)
    (hgv : gvalOf t = gvalOf s) (hins : insBound s ≤ insBound t)
    (hnodesW : ∀ w ndw, lookupL s.nodes w = some ndw →
      ∃ ndw2, lookupL t.nodes w = some ndw2)
    {v k : Nat} {ed : Edge} (hlabel : labelOf t ed = labelOf s ed)
    (h : EdgeFacts s v k ed) : EdgeFacts t v k ed := by
  obtain ⟨st, ln, q, d, hst, hln, hstln, hlab, ⟨c, hc, hck, hc36⟩,
    ⟨ec, hec, hval⟩, hopen, hclosed, hspell, hqd, hqb⟩ := h
  refine ⟨st, ln, q, d, hst, hln, ?_, ?_, ⟨c, ?_, hck, hc36⟩, ⟨ec, ?_, hval⟩,
    hopen, ?_, ?_, hqd, ?_⟩
  · rw [htext]; exact hstln
  · rw [hlabel, htext]; exact hlab
  · rw [htext]; exact hc
  · rw [hends]; exact hec
  · intro hne
    obtain ⟨hsid, ⟨w, ndw, hnext, hw0, hndw⟩, g, hg, hstg⟩ := hclosed hne
    obtain ⟨ndw2, hndw2⟩ := hnodesW w ndw hndw
    exact ⟨hsid, ⟨w, ndw2, hnext, hw0, hndw2⟩, g, by rw [hgv]; exact hg, hstg⟩
  · rw [htext]; exact spellsTo_mono hle hspell
  · exact le_trans hqb hins

theorem deep_finish {T : List Nat} {s : Ukkonen} (hD : Deep T s)
    (hmode : s.mode = Mode.phaseStart) (hph : ¬ s.phase < s.text.length) :
    Deep T { s with mode := Mode.finished } := by
  have hle : TreeLe s { s with mode := Mode.finished } :=
    treeLe_of_eq rfl rfl rfl rfl
  have hmne : s.mode ≠ Mode.inner := by
    rw [hmode]; decide
  have hm2 : ({ s with mode := Mode.finished } : Ukkonen).mode
      = Mode.finished := rfl
  have hinsE : insBound { s with mode := Mode.finished } = insBound s := by
    unfold insBound
    rw [hm2, if_neg hmne, if_neg (by decide : ¬ (Mode.finished = Mode.inner))]
  have hjs : jStar { s with mode := Mode.finished } = jStar s := by
    unfold jStar
    rw [hinsE]
  refine ⟨hD.textEq, ?_, hD.phaseLe, ?_, ?_, ?_, ?_, ?_, hD.slotOnto,
    hD.slotsValid, hD.slotU,
    hD.nextU, hD.rootNI, hD.branch2, ?_, ?_, ?_, ?_, ?_⟩
  · rcases hD.gv with ⟨h1, h2, h3, h4, h5⟩ | ⟨g, hg, hI, hNI⟩
    · exfalso
      apply hph
      rw [h3, hD.textEq]
      simp
    · exact Or.inr ⟨g, hg, fun hc => Mode.noConfusion hc, fun _ => hNI hmne⟩
  · intro hc; exact Mode.noConfusion hc
  · intro hc; exact Mode.noConfusion hc
  · exact fun _ => hD.remB2 hmne
  · intro hc; exact Mode.noConfusion hc
  · intro v nd k eid ed hnd hslot hed
    exact edgeFacts_mono hle rfl rfl rfl (le_of_eq hinsE.symm)
      (fun w ndw h => ⟨ndw, h⟩) (labelOf_congr rfl rfl ed)
      (hD.slotFacts v nd k eid ed hnd hslot hed)
  · intro g hg j2 hj2
    rw [hinsE] at hj2
    obtain ⟨x, u, nd, k, eid, ed, hsp, hnd, hslot, hed, h0, hne, hweq⟩ :=
      hD.m2 g hg j2 hj2
    exact ⟨x, u, nd, k, eid, ed, spellsTo_mono hle hsp, hnd, hslot, hed, h0,
      hne, hweq⟩
  · obtain ⟨aLenN, hal, h0case, h1case⟩ := hD.ap
    refine ⟨aLenN, hal, ?_, ?_⟩
    · intro h0
      rw [hjs]
      exact spellsTo_mono hle (h0case h0)
    · intro h1
      obtain ⟨aeN, hae, haep, hjae, hsp, hwk⟩ := h1case h1
      rw [hjs]
      exact ⟨aeN, hae, haep, hjae, spellsTo_mono hle hsp, walkW_mono hle hwk⟩
  · intro v nd w hnd hlnk
    obtain ⟨q, d, h1, h2, h3⟩ := hD.lnk v nd w hnd hlnk
    exact ⟨q, d, spellsTo_mono hle h1, h2, spellsTo_mono hle h3⟩
  · intro v nd hnd hln
    exact absurd (hD.nl v nd hnd hln).1 hmne
  · intro hc; exact Mode.noConfusion hc

theorem deep_rem0 {T : List Nat} {s : Ukkonen} (hD : Deep T s)
    (hmode : s.mode = Mode.inner) (hrem : ¬ s.remainder > 0) :
    Deep T { s with phase := s.phase + 1, mode := Mode.phaseStart } := by
  have hle : TreeLe s { s with phase := s.phase + 1, mode := Mode.phaseStart } :=
    treeLe_of_eq rfl rfl rfl rfl
  obtain ⟨hrB1, hrB2⟩ := hD.remB1 hmode
  have hrem0 : s.remainder = 0 := by omega
  obtain ⟨hal0, hprev0⟩ := hD.remZero hmode hrem0
  have hm2 : ({ s with phase := s.phase + 1, mode := Mode.phaseStart }
      : Ukkonen).mode = Mode.phaseStart := rfl
  have hinsE : insBound { s with phase := s.phase + 1, mode := Mode.phaseStart }
      = insBound s := by
    unfold insBound
    rw [hm2, if_pos hmode, if_neg (by decide :
      ¬ (Mode.phaseStart = Mode.inner))]
    show ((s.phase + 1 : Nat) : Int) - 1 - s.remainder
      = (s.phase : Int) - s.remainder
    omega
  have hjs : jStar { s with phase := s.phase + 1, mode := Mode.phaseStart }
      = jStar s := by
    unfold jStar
    rw [hinsE]
  have hjsv : jStar s = s.phase + 1 := by
    unfold jStar insBound
    rw [if_pos hmode]
    omega
  refine ⟨hD.textEq, ?_, ?_, ?_, ?_, ?_, ?_, ?_, hD.slotOnto, hD.slotsValid,
    hD.slotU,
    hD.nextU, hD.rootNI, hD.branch2, ?_, ?_, ?_, ?_, ?_⟩
  · rcases hD.gv with ⟨h1, h2, h3, h4, h5⟩ | ⟨g, hg, hI, hNI⟩
    · rw [hmode] at h5; cases h5
    · refine Or.inr ⟨g, hg, fun hc => Mode.noConfusion hc, fun _ => ?_⟩
      have := hI hmode
      show g + 1 = s.phase + 1
      omega
  · show s.phase + 1 ≤ s.text.length
    exact hD.phaseLt hmode
  · intro hc; exact Mode.noConfusion hc
  · intro hc; exact Mode.noConfusion hc
  · intro hc2
    constructor
    · show (0 : Int) ≤ s.remainder
      omega
    · show s.remainder ≤ ((s.phase + 1 : Nat) : Int)
      omega
  · intro hc; exact Mode.noConfusion hc
  · intro v nd k eid ed hnd hslot hed
    exact edgeFacts_mono hle rfl rfl rfl (le_of_eq hinsE.symm)
      (fun w ndw h => ⟨ndw, h⟩) (labelOf_congr rfl rfl ed)
      (hD.slotFacts v nd k eid ed hnd hslot hed)
  · intro g hg j2 hj2
    rw [hinsE] at hj2
    obtain ⟨x, u, nd, k, eid, ed, hsp, hnd, hslot, hed, h0, hne, hweq⟩ :=
      hD.m2 g hg j2 hj2
    exact ⟨x, u, nd, k, eid, ed, spellsTo_mono hle hsp, hnd, hslot, hed, h0,
      hne, hweq⟩
  · obtain ⟨aLenN, hal, h0case, h1case⟩ := hD.ap
    have haln0 : aLenN = 0 := by
      rw [hal0] at hal
      omega
    refine ⟨aLenN, hal, ?_, ?_⟩
    · intro h0
      have h2 := h0case h0
      rw [hjs]
      have hz1 : ({ s with phase := s.phase + 1, mode := Mode.phaseStart }
          : Ukkonen).phase - jStar s = 0 := by
        show s.phase + 1 - jStar s = 0
        rw [hjsv]
        omega
      rw [hz1]
      have hz2 : s.phase - jStar s = 0 := by
        rw [hjsv]
        omega
      rw [hz2] at h2
      exact spellsTo_mono hle h2
    · intro h1
      omega
  · intro v nd w hnd hlnk
    obtain ⟨q, d, h1, h2, h3⟩ := hD.lnk v nd w hnd hlnk
    exact ⟨q, d, spellsTo_mono hle h1, h2, spellsTo_mono hle h3⟩
  · intro v nd hnd hln
    have h2 := (hD.nl v nd hnd hln).2
    rw [hprev0] at h2
    cases h2
  · intro hc; exact Mode.noConfusion hc

/-- The state produced by the phase-start step: global end set to the
phase index, remainder incremented, previous node cleared. -/
def bumpG (s : Ukkonen) (ends1 : List End) : Ukkonen :=
  { s with ends := ends1, remainder := s.remainder + 1
         , previous_node := none, mode := Mode.inner }

theorem labelOf_cell_congr {s t : Ukkonen} {ed : Edge}
    (h : lookupL t.ends ed.endId = lookupL s.ends ed.endId)
    (htext : t.text = s.text) : labelOf t ed = labelOf s ed := by
  unfold labelOf
  rw [h, htext]

theorem gvalOf_eq_cell {s : Ukkonen} {ec : End} {g : Int}
    (hec : lookupL s.ends 0 = some ec) (hv : ec.value = some g) :
    gvalOf s = some g := by
  unfold gvalOf
  rw [hec]
  dsimp only
  exact hv

theorem seg_ne_nil {t : List Nat} {q n : Nat} (hn : 1 ≤ n)
    (hq : q + n ≤ t.length) : seg t q n ≠ [] := by
  intro hnil
  have h2 : (seg t q n).length = 0 := by rw [hnil]; rfl
  rw [seg_length_of_le hq] at h2
  omega

theorem deep_phaseStart {T : List Nat} {s : Ukkonen} {ends1 : List End}
    (hD : Deep T s) (hmode : s.mode = Mode.phaseStart)
    (hph : s.phase < s.text.length)
    (hset : asetL s.ends 0 { value := some ((s.phase : Nat) : Int) }
      = some ends1) :
    Deep T (bumpG s ends1) := by
  obtain ⟨h0lt, hE2⟩ := asetL_eq_some hset
  have hmne : s.mode ≠ Mode.inner := by rw [hmode]; decide
  have htE : (bumpG s ends1).ends = ends1 := rfl
  have htX : (bumpG s ends1).text = s.text := rfl
  have htM : (bumpG s ends1).mode = Mode.inner := rfl
  have htR : (bumpG s ends1).remainder = s.remainder + 1 := rfl
  have htP : (bumpG s ends1).phase = s.phase := rfl
  have hgv1 : gvalOf (bumpG s ends1) = some ((s.phase : Nat) : Int) := by
    unfold gvalOf
    rw [htE, hE2, lookupL_setL_self h0lt]
  have hinsE : insBound (bumpG s ends1) = insBound s := by
    unfold insBound
    rw [htM, if_pos rfl, if_neg hmne, htP, htR]
    omega
  have hjsE : jStar (bumpG s ends1) = jStar s := by
    unfold jStar
    rw [hinsE]
  rcases hD.gv with ⟨hg1, hg2, hg3, hg4, hg5⟩ | ⟨g, hg, hI, hNI⟩
  · have hle : TreeLe s (bumpG s ends1) := by
      refine ⟨?_, ?_, ?_, ?_⟩
      · exact fun v nd k eid hnd hslot => ⟨nd, hnd, hslot⟩
      · intro eid ed hed
        rw [hg2, lookupL_nil] at hed
        cases hed
      · intro eid ed w hed _
        rw [hg2, lookupL_nil] at hed
        cases hed
      · intro eid ed hed
        rw [hg2, lookupL_nil] at hed
        cases hed
    have hinsm1 : insBound s = -1 := by
      unfold insBound
      rw [if_neg hmne]
      omega
    refine ⟨hD.textEq, ?_, le_of_lt hph, fun _ => hph, ?_, ?_, ?_, ?_, ?_, ?_,
      hD.slotU, hD.nextU, hD.rootNI, hD.branch2, ?_, ?_, ?_, ?_, ?_⟩
    · exact Or.inr ⟨s.phase, hgv1, fun _ => rfl, fun hni => absurd htM hni⟩
    · intro _
      constructor
      · show (0 : Int) ≤ s.remainder + 1
        omega
      · show s.remainder + 1 ≤ (s.phase : Int) + 1
        omega
    · exact fun hni => absurd htM hni
    · intro _ h0
      exfalso
      rw [htR] at h0
      omega
    · intro v nd k eid ed hnd hslot hed
      rw [show (bumpG s ends1).edgeArena = s.edgeArena from rfl, hg2,
        lookupL_nil] at hed
      cases hed
    · intro eid ed hed
      rw [show (bumpG s ends1).edgeArena = s.edgeArena from rfl, hg2,
        lookupL_nil] at hed
      cases hed
    · intro v nd k eid hnd hslot
      exfalso
      obtain ⟨ed, hed⟩ := hD.slotsValid v nd k eid hnd hslot
      rw [hg2, lookupL_nil] at hed
      cases hed
    · intro g2 hg2x j2 hj2
      exfalso
      rw [hinsE, hinsm1] at hj2
      omega
    · obtain ⟨aLenN, hal, h0c, h1c⟩ := hD.ap
      refine ⟨aLenN, hal, ?_, ?_⟩
      · intro h0
        rw [htX, htP, hjsE]
        exact spellsTo_mono hle (h0c h0)
      · intro h1
        obtain ⟨aeN, hae, haep, hjae, hsp, hwk⟩ := h1c h1
        rw [htX, htP, hjsE]
        exact ⟨aeN, hae, haep, hjae, spellsTo_mono hle hsp, walkW_mono hle hwk⟩
    · intro v nd w hnd hlnk
      obtain ⟨q, d, h1, h2, h3⟩ := hD.lnk v nd w hnd hlnk
      rw [htX]
      exact ⟨q, d, spellsTo_mono hle h1, h2, spellsTo_mono hle h3⟩
    · intro v nd hnd hln
      exact absurd (hD.nl v nd hnd hln).1 hmne
    · intro _ p hp
      exact Option.noConfusion hp
  · have hgp : g + 1 = s.phase := hNI hmne
    have hex : ∃ ec, lookupL s.ends 0 = some ec ∧ ec.value = some ((g:Nat):Int) := by
      unfold gvalOf at hg
      cases hc0 : lookupL s.ends 0 with
      | none => rw [hc0] at hg; cases hg
      | some ec =>
        rw [hc0] at hg
        dsimp only at hg
        exact ⟨ec, rfl, hg⟩
    obtain ⟨ec0, hc0, hv0⟩ := hex
    have hlabNe : ∀ eid ed, lookupL s.edgeArena eid = some ed → ed.endId ≠ 0 →
        labelOf (bumpG s ends1) ed = labelOf s ed := by
      intro eid ed hed h0
      apply labelOf_cell_congr _ htX
      rw [htE, hE2, lookupL_setL_ne h0]
    have hopenlab : ∀ (ed : Edge) (st ln : Nat), ed.endId = 0 →
        ed.start = (st : Int) →
        (∃ ec, lookupL s.ends ed.endId = some ec ∧
          ec.value = some ((st : Int) + ln - 1)) →
        st + ln = g + 1 ∧ labelOf (bumpG s ends1) ed = seg s.text st (ln + 1) := by
      intro ed st ln h0 hst hcell
      obtain ⟨ec, hec, hval⟩ := hcell
      have hecec : ec = ec0 := by
        rw [h0] at hec
        exact Option.some.inj (hec.symm.trans hc0)
      have hstg : (st : Int) + ln - 1 = ((g:Nat) : Int) := by
        rw [hecec] at hval
        exact Option.some.inj (hval.symm.trans hv0)
      have hstln2 : st + ln = g + 1 := by omega
      refine ⟨hstln2, ?_⟩
      have hcell2 : lookupL (bumpG s ends1).ends ed.endId
          = some { value := some ((s.phase : Nat) : Int) } := by
        rw [htE, hE2, h0, lookupL_setL_self h0lt]
      have hveq : ({ value := some ((s.phase : Nat) : Int) } : End).value
          = some ((st : Int) + (ln + 1) - 1) := by
        show some ((s.phase : Nat) : Int) = some ((st : Int) + (ln + 1) - 1)
        congr 1
        omega
      have h3 := labelOf_eq hcell2 hveq hst
      rw [htX] at h3
      exact h3
    have hle : TreeLe s (bumpG s ends1) := by
      refine ⟨?_, ?_, ?_, ?_⟩
      · exact fun v nd k eid hnd hslot => ⟨nd, hnd, hslot⟩
      · exact fun eid ed hed => hed
      · intro eid ed w hed hnext
        obtain ⟨v, nd, k, hnd, hslot⟩ := hD.slotOnto eid ed hed
        obtain ⟨st, ln, q, d, hst, hln, hstln, hlab, hhc, hcell, hopen,
          hclosed, hspell, hqd, hqb⟩ :=
          hD.slotFacts v nd k eid ed hnd hslot hed
        by_cases h0 : ed.endId = 0
        · rw [(hopen h0).1] at hnext; cases hnext
        · exact hlabNe eid ed hed h0
      · intro eid ed hed
        obtain ⟨v, nd, k, hnd, hslot⟩ := hD.slotOnto eid ed hed
        obtain ⟨st, ln, q, d, hst, hln, hstln, hlab, hhc, hcell, hopen,
          hclosed, hspell, hqd, hqb⟩ :=
          hD.slotFacts v nd k eid ed hnd hslot hed
        by_cases h0 : ed.endId = 0
        · obtain ⟨hstln2, hlabnew⟩ := hopenlab ed st ln h0 hst hcell
          rw [hlab, hlabnew]
          exact seg_prefix_seg s.text st (by omega)
        · rw [hlabNe eid ed hed h0]
    refine ⟨hD.textEq, ?_, le_of_lt hph, fun _ => hph, ?_, ?_, ?_, ?_, ?_, ?_,
      hD.slotU, hD.nextU, hD.rootNI, hD.branch2, ?_, ?_, ?_, ?_, ?_⟩
    · exact Or.inr ⟨s.phase, hgv1, fun _ => rfl, fun hni => absurd htM hni⟩
    · intro _
      have hrB := hD.remB2 hmne
      constructor
      · show (0 : Int) ≤ s.remainder + 1
        omega
      · show s.remainder + 1 ≤ (s.phase : Int) + 1
        omega
    · exact fun hni => absurd htM hni
    · intro _ h0
      exfalso
      have hrB := hD.remB2 hmne
      rw [htR] at h0
      omega
    · intro v nd k eid ed hnd hslot hed
      obtain ⟨st, ln, q, d, hst, hln, hstln, hlab, ⟨c, hc, hck, hc36⟩,
        hcell, hopen, hclosed, hspell, hqd, hqb⟩ :=
        hD.slotFacts v nd k eid ed hnd hslot hed
      by_cases h0 : ed.endId = 0
      · obtain ⟨hstln2, hlabnew⟩ := hopenlab ed st ln h0 hst hcell
        refine ⟨st, ln + 1, q, d, hst, by omega, ?_, ?_, ⟨c, ?_, hck, hc36⟩,
          ?_, ?_, ?_, ?_, hqd, ?_⟩
        · rw [htX]; omega
        · rw [htX]; exact hlabnew
        · rw [htX]; exact hc
        · refine ⟨{ value := some ((s.phase : Nat) : Int) }, ?_, ?_⟩
          · rw [htE, hE2, h0, lookupL_setL_self h0lt]
          · show some ((s.phase : Nat) : Int) = some ((st : Int) + (ln + 1) - 1)
            congr 1
            omega
        · intro _
          exact hopen h0
        · intro hne
          exact absurd h0 hne
        · rw [htX]; exact spellsTo_mono hle hspell
        · rw [hinsE]; exact hqb
      · obtain ⟨ec, hec, hval⟩ := hcell
        refine ⟨st, ln, q, d, hst, hln, by rw [htX]; exact hstln, ?_,
          ⟨c, by rw [htX]; exact hc, hck, hc36⟩, ⟨ec, ?_, hval⟩, hopen, ?_,
          by rw [htX]; exact spellsTo_mono hle hspell, hqd,
          by rw [hinsE]; exact hqb⟩
        · rw [htX, hlabNe eid ed hed h0]
          exact hlab
        · rw [htE, hE2, lookupL_setL_ne h0]
          exact hec
        · intro hne
          obtain ⟨hsid, ⟨w, ndw, hnext, hw0, hndw⟩, g2, hg2, hstg2⟩ :=
            hclosed hne
          refine ⟨hsid, ⟨w, ndw, hnext, hw0, hndw⟩, s.phase, hgv1, ?_⟩
          have hge : ((g2:Nat) : Int) = ((g:Nat) : Int) :=
            Option.some.inj (hg2.symm.trans hg)
          omega
    · exact hD.slotOnto
    · exact hD.slotsValid
    · intro g2 hg2x j2 hj2
      have hg2e : g2 = s.phase := by
        have h3 := Option.some.inj (hg2x.symm.trans hgv1)
        omega
      rw [hinsE] at hj2
      obtain ⟨x, u, nd, k, eid, ed, hsp, hnd, hslot, hed, h0, hne, hweq⟩ :=
        hD.m2 g hg j2 hj2
      obtain ⟨st, ln, q, d, hst, hln, hstln, hlab, hhc, hcell, hopen,
        hclosed, hspell, hqd, hqb⟩ :=
        hD.slotFacts u nd k eid ed hnd hslot hed
      obtain ⟨hstln2, hlabnew⟩ := hopenlab ed st ln h0 hst hcell
      have hjg : j2 ≤ g := by
        have hrB := hD.remB2 hmne
        have hib : insBound s = (s.phase : Int) - 1 - s.remainder := by
          unfold insBound
          rw [if_neg hmne]
        omega
      obtain ⟨cN, hcN⟩ := lookupL_lt_some
        (show g + 1 < s.text.length by omega)
      have hnewword : seg s.text j2 (s.phase + 1 - j2)
          = seg s.text j2 (g + 1 - j2) ++ [cN] := by
        have hlk : lookupL s.text (j2 + (s.phase + 1 - j2 - 1)) = some cN := by
          have he : j2 + (s.phase + 1 - j2 - 1) = g + 1 := by omega
          rw [he]; exact hcN
        have harr : s.phase + 1 - j2 - 1 = g + 1 - j2 := by omega
        rw [seg_last hlk (by omega), harr]
      have hlabext : labelOf (bumpG s ends1) ed = labelOf s ed ++ [cN] := by
        rw [hlabnew, hlab]
        have hlk2 : lookupL s.text (st + (ln + 1 - 1)) = some cN := by
          have he : st + (ln + 1 - 1) = g + 1 := by omega
          rw [he]; exact hcN
        rw [seg_last hlk2 (by omega), Nat.add_sub_cancel]
      refine ⟨x, u, nd, k, eid, ed, spellsTo_mono hle hsp, hnd, hslot, hed,
        h0, ?_, ?_⟩
      · rw [hlabext]
        simp
      · rw [htX, hg2e, hnewword, hweq, hlabext, List.append_assoc]
    · obtain ⟨aLenN, hal, h0c, h1c⟩ := hD.ap
      refine ⟨aLenN, hal, ?_, ?_⟩
      · intro h0
        rw [htX, htP, hjsE]
        exact spellsTo_mono hle (h0c h0)
      · intro h1
        obtain ⟨aeN, hae, haep, hjae, hsp, hwk⟩ := h1c h1
        rw [htX, htP, hjsE]
        exact ⟨aeN, hae, haep, hjae, spellsTo_mono hle hsp, walkW_mono hle hwk⟩
    · intro v nd w hnd hlnk
      obtain ⟨q, d, h1, h2, h3⟩ := hD.lnk v nd w hnd hlnk
      rw [htX]
      exact ⟨q, d, spellsTo_mono hle h1, h2, spellsTo_mono hle h3⟩
    · intro v nd hnd hln
      exact absurd (hD.nl v nd hnd hln).1 hmne
    · intro _ p hp
      exact Option.noConfusion hp

theorem slot_empty_table : ∀ (k e : Nat),
    lookupL emptyTable k ≠ some (some e) := by
  intro k e hc
  unfold emptyTable at hc
  rw [lookupL_replicate] at hc
  split at hc
  · exact Option.noConfusion (Option.some.inj hc)
  · exact Option.noConfusion hc

theorem init_nodes {T : List Nat} : ∀ v nd,
    lookupL (initState T).nodes v = some nd →
    v = 0 ∧ nd = { edges := emptyTable, link := some 0 } := by
  intro v nd h
  cases v with
  | zero => exact ⟨rfl, (Option.some.inj h).symm⟩
  | succ m =>
    have h2 : lookupL (initState T).nodes (m + 1) = none := rfl
    rw [h2] at h
    cases h

theorem deep_init (T : List Nat) : Deep T (initState T) := by
  have hjs0 : jStar (initState T) = 0 := by
    unfold jStar insBound
    rw [if_neg (fun hc => Mode.noConfusion hc)]
    show (((0 : Nat) : Int) - 1 - 0 + 1).toNat = 0
    decide
  refine ⟨rfl, Or.inl ⟨rfl, rfl, rfl, rfl, rfl⟩, Nat.zero_le _,
    ?_, ?_, ?_, ?_, ?_, ?_, ?_, ?_, ?_, ?_, ?_, ?_, ?_, ?_, ?_, ?_⟩
  · intro hc; exact Mode.noConfusion hc
  · intro hc; exact Mode.noConfusion hc
  · intro _
    constructor
    · show (0 : Int) ≤ 0
      omega
    · show (0 : Int) ≤ ((0 : Nat) : Int)
      omega
  · intro hc; exact Mode.noConfusion hc
  · intro v nd k eid ed hnd hslot hed
    have h2 : lookupL (initState T).edgeArena eid = none := lookupL_nil eid
    rw [h2] at hed
    cases hed
  · intro eid ed hed
    have h2 : lookupL (initState T).edgeArena eid = none := lookupL_nil eid
    rw [h2] at hed
    cases hed
  · intro v nd k eid hnd hslot
    obtain ⟨_, hnd0⟩ := init_nodes v nd hnd
    rw [hnd0] at hslot
    exact absurd hslot (slot_empty_table k eid)
  · intro v1 k1 nd1 v2 k2 nd2 e h1 h2 h3 h4
    obtain ⟨hv1, hnd1⟩ := init_nodes v1 nd1 h1
    rw [hnd1] at h2
    exact absurd h2 (slot_empty_table k1 e)
  · intro e1 ed1 e2 ed2 w h1 h2 h3 h4
    have h5 : lookupL (initState T).edgeArena e1 = none := lookupL_nil e1
    rw [h5] at h1
    cases h1
  · intro e ed hed
    have h5 : lookupL (initState T).edgeArena e = none := lookupL_nil e
    rw [h5] at hed
    cases hed
  · intro v nd hv hnd
    obtain ⟨hv0, _⟩ := init_nodes v nd hnd
    exact absurd hv0 hv
  · intro g hg j2 hj2
    have h2 : gvalOf (initState T) = none := rfl
    rw [h2] at hg
    cases hg
  · refine ⟨0, rfl, ?_, ?_⟩
    · intro _
      rw [hjs0]
      exact SpellsTo.nil 0
    · intro h1
      omega
  · intro v nd w hnd hlnk
    obtain ⟨hv0, hnd0⟩ := init_nodes v nd hnd
    rw [hnd0] at hlnk
    have hw0 : w = 0 := (Option.some.inj hlnk).symm
    subst hv0
    subst hw0
    exact ⟨0, 0, SpellsTo.nil 0, by simp, SpellsTo.nil 0⟩
  · intro v nd hnd hln
    obtain ⟨hv0, hnd0⟩ := init_nodes v nd hnd
    rw [hnd0] at hln
    cases hln
  · intro hc; exact Mode.noConfusion hc

theorem toNat_cast (n : Nat) : ((n : Int)).toNat = n := rfl

theorem text_range {T : List Nat} {s : Ukkonen} (hT : validText T)
    (hX : s.text = T ++ [DOLLAR]) {c : Nat}
    (h : c ∈ s.text) : 36 ≤ c ∧ c ≤ 126 := by
  rw [hX] at h
  rcases List.mem_append.mp h with hm | hm
  · have h2 := hT c hm
    unfold ALPHABET_START ALPHABET_END at h2
    omega
  · rw [List.mem_singleton] at hm
    subst hm
    unfold DOLLAR
    omega

theorem seg_drop_exact {t : List Nat} {q m n : Nat} (hm : m ≤ n)
    (hq : q + m ≤ t.length) :
    (seg t q n).drop m = seg t (q + m) (n - m) := by
  have h1 : n = m + (n - m) := by omega
  have h2 : (seg t q m).length = m := seg_length_of_le hq
  have h3 : seg t q n = seg t q m ++ seg t (q + m) (n - m) := by
    conv_lhs => rw [h1]
    exact seg_add t q m (n - m)
  rw [h3, List.drop_left' h2]

theorem walkW_label_prefix {s : Ukkonen} {v : Nat} {nd : Node} {c eid : Nat}
    {ed : Edge} {w : List Nat}
    (hw : WalkW s v w)
    (hnd : lookupL s.nodes v = some nd)
    (hslot : lookupL nd.edges (slotN c) = some (some eid))
    (hed : lookupL s.edgeArena eid = some ed)
    (hhead : w.head? = some c)
    (hlen : (labelOf s ed).length ≤ w.length) :
    labelOf s ed <+: w := by
  obtain ⟨x, z, u, hy, hsp, hpart⟩ := hw
  cases hsp with
  | nil =>
    rw [List.nil_append] at hy
    subst hy
    rcases hpart with hz | ⟨nd2, c1, y, eid2, ed2, hzz, hnd2, hslot2, hed2, hpre⟩
    · subst hz; cases hhead
    · subst hzz
      have hc : c1 = c := Option.some.inj hhead
      subst hc
      have hnde : nd2 = nd := Option.some.inj (hnd2.symm.trans hnd)
      rw [hnde, hslot] at hslot2
      have heide : eid2 = eid :=
        Option.some.inj (Option.some.inj hslot2.symm)
      rw [heide, hed] at hed2
      have hede : ed2 = ed := Option.some.inj hed2.symm
      rw [hede] at hpre
      have hfull : c1 :: y = labelOf s ed := by
        have h4 := List.prefix_iff_eq_take.mp hpre
        rw [List.take_of_length_le hlen] at h4
        exact h4
      rw [← hfull]
  | step v2 nd2 c1 y eid2 ed2 w2 u2 hnd2 hslot2 hed2 hpre hne hnext hrec =>
    have hc : c1 = c := by
      rw [hy, List.cons_append, List.head?_cons] at hhead
      exact Option.some.inj hhead
    subst hc
    have hnde : nd2 = nd := Option.some.inj (hnd2.symm.trans hnd)
    rw [hnde, hslot] at hslot2
    have heide : eid2 = eid :=
      Option.some.inj (Option.some.inj hslot2.symm)
    rw [heide, hed] at hed2
    have hede : ed2 = ed := Option.some.inj hed2.symm
    rw [hede] at hpre
    rw [hy]
    exact hpre.trans (List.prefix_append _ _)

/-- The state after a walk-down repositioning step. -/
def wdState (s : Ukkonen) (idx ae2 al2 : Int) (w : Nat) : Ukkonen :=
  { s with active_edge := some ae2, active_length := al2
         , active_node := w, idxLog := idx :: s.idxLog }

theorem deep_walkdown {T : List Nat} {s : Ukkonen} {c0 : Nat} {ae ev : Int}
    {nd : Node} {eid : Nat} {ed : Edge} {ec : End} {w : Nat}
    (hT : validText T) (hD : Deep T s)
    (hmode : s.mode = Mode.inner) (hrem : s.remainder > 0)
    (hres : (if s.active_length = 0 then some ((s.phase : Nat) : Int)
      else s.active_edge) = some ae)
    (hc0 : pyGet s.text ae = some c0)
    (hnd : lookupL s.nodes s.active_node = some nd)
    (hslotG : pyGet nd.edges (slotIdx c0) = some (some eid))
    (hed : lookupL s.edgeArena eid = some ed)
    (hec : lookupL s.ends ed.endId = some ec)
    (hev : ec.value = some ev)
    (hge : s.active_length ≥ ev - ed.start + 1)
    (hnext : ed.next = some w) :
    Deep T (wdState s (slotIdx c0) (ae + (ev - ed.start + 1))
      (s.active_length - (ev - ed.start + 1)) w) := by
  have hph := hD.phaseLt hmode
  have hrB := hD.remB1 hmode
  obtain ⟨aLenN, hal, h0c, h1c⟩ := hD.ap
  have hc0r := text_range hT hD.textEq (pyGet_mem hc0)
  have hslotL : lookupL nd.edges (slotN c0) = some (some eid) := by
    rw [← slotIdx_toNat hc0r.1, ← pyGet_nonneg (slotIdx_nonneg hc0r.1)]
    exact hslotG
  obtain ⟨st, ln, q, d, hst, hln, hstln, hlab, hhc, ⟨ec2, hec2, hval2⟩,
    hopen, hclosed, hspell, hqd, hqb⟩ :=
    hD.slotFacts s.active_node nd (slotN c0) eid ed hnd hslotL hed
  have hece : ec2 = ec := Option.some.inj (hec2.symm.trans hec)
  have hevE : ev = (st : Int) + ln - 1 := by
    rw [hece] at hval2
    exact Option.some.inj (hev.symm.trans hval2)
  have hlenE : ev - ed.start + 1 = ((ln : Nat) : Int) := by
    rw [hst, hevE]
    omega
  have hgeN : ln ≤ aLenN := by
    rw [hal, hlenE] at hge
    omega
  have h1 : 1 ≤ aLenN := le_trans hln hgeN
  have hane : ¬ s.active_length = 0 := by
    rw [hal]
    omega
  rw [if_neg hane] at hres
  obtain ⟨aeN, hae, haep, hjae, hspA, hwkA⟩ := h1c h1
  have haee : ae = ((aeN : Nat) : Int) := Option.some.inj (hres.symm.trans hae)
  have haeL : aeN < s.text.length := by omega
  have hc0L : lookupL s.text aeN = some c0 := by
    rw [haee, pyGet_nonneg (by omega)] at hc0
    rw [toNat_cast] at hc0
    exact hc0
  have hseglen : (seg s.text aeN aLenN).length = aLenN :=
    seg_length_of_le (by omega)
  have hwhead : (seg s.text aeN aLenN).head? = some c0 := seg_head hc0L h1
  have hlablen : (labelOf s ed).length = ln := by
    rw [hlab]
    exact seg_length_of_le hstln
  have hlabne : labelOf s ed ≠ [] := by
    rw [hlab]
    exact seg_ne_nil hln hstln
  have hLpre : labelOf s ed <+: seg s.text aeN aLenN :=
    walkW_label_prefix hwkA hnd hslotL hed hwhead
      (by rw [hlablen, hseglen]; exact hgeN)
  have hlabseg : labelOf s ed = seg s.text aeN ln := by
    have h2 := prefix_seg hLpre
    rw [hlablen] at h2
    exact h2
  have hconspre : labelOf s ed <+: c0 :: seg s.text (aeN + 1) (aLenN - 1) := by
    rw [← seg_cons hc0L h1]
    exact hLpre
  have hspEdge : SpellsTo s s.active_node (labelOf s ed) w :=
    spellsTo_one_edge hnd hslotL hed hconspre hlabne hnext
  have hspW : SpellsTo s 0 (seg s.text (jStar s) (aeN + ln - jStar s)) w := by
    have h5 : seg s.text (jStar s) (aeN + ln - jStar s)
        = seg s.text (jStar s) (aeN - jStar s) ++ seg s.text aeN ln := by
      have h6 : aeN + ln - jStar s = (aeN - jStar s) + ln := by omega
      rw [h6, seg_add]
      have h7 : jStar s + (aeN - jStar s) = aeN := by omega
      rw [h7]
    rw [h5]
    exact spellsTo_append hspA (hlabseg ▸ hspEdge)
  have hwkRest : WalkW s w (seg s.text (aeN + ln) (aLenN - ln)) := by
    have h8 := walkW_drop_edge hwkA hnd hslotL hed hLpre hlabne hwhead hnext
    rw [hlablen, seg_drop_exact hgeN (by omega)] at h8
    exact h8
  have hle : TreeLe s (wdState s (slotIdx c0) (ae + (ev - ed.start + 1))
      (s.active_length - (ev - ed.start + 1)) w) :=
    treeLe_of_eq rfl rfl rfl rfl
  have htM : (wdState s (slotIdx c0) (ae + (ev - ed.start + 1))
      (s.active_length - (ev - ed.start + 1)) w).mode = Mode.inner := hmode
  refine ⟨hD.textEq, ?_, hD.phaseLe, fun _ => hph, fun _ => hD.remB1 hmode,
    ?_, ?_, ?_, hD.slotOnto, hD.slotsValid, hD.slotU, hD.nextU, hD.rootNI, hD.branch2,
    ?_, ?_, ?_, ?_, ?_⟩
  · rcases hD.gv with ⟨h1x, h2x, h3x, h4x, h5x⟩ | ⟨g, hg, hI, hNI⟩
    · rw [hmode] at h5x; cases h5x
    · exact Or.inr ⟨g, hg, fun _ => hI hmode, fun hni => absurd htM hni⟩
  · exact fun hni => absurd htM hni
  · intro _ h0
    exfalso
    have h02 : s.remainder = 0 := h0
    omega
  · intro v nd2 k2 eid2 ed2 hnd2 hslot2 hed2
    exact edgeFacts_mono hle rfl rfl rfl (le_refl _) (fun w2 ndw h => ⟨ndw, h⟩)
      (labelOf_congr rfl rfl ed2)
      (hD.slotFacts v nd2 k2 eid2 ed2 hnd2 hslot2 hed2)
  · intro g hg j2 hj2
    obtain ⟨x, u, nd2, k2, eid2, ed2, hsp, hnd2, hslot2, hed2, h0, hne, hweq⟩ :=
      hD.m2 g hg j2 hj2
    exact ⟨x, u, nd2, k2, eid2, ed2, spellsTo_mono hle hsp, hnd2, hslot2,
      hed2, h0, hne, hweq⟩
  · refine ⟨aLenN - ln, ?_, ?_, ?_⟩
    · show s.active_length - (ev - ed.start + 1) = ((aLenN - ln : Nat) : Int)
      rw [hal, hlenE]
      omega
    · intro h0
      show SpellsTo _ 0 (seg s.text (jStar s) (s.phase - jStar s)) w
      have h9 : s.phase - jStar s = aeN + ln - jStar s := by omega
      rw [h9]
      exact spellsTo_mono hle hspW
    · intro h1x
      refine ⟨aeN + ln, ?_, ?_, ?_, ?_, ?_⟩
      · show some (ae + (ev - ed.start + 1)) = some ((aeN + ln : Nat) : Int)
        rw [haee, hlenE]
        norm_cast
      · show aeN + ln + (aLenN - ln) = s.phase
        omega
      · show jStar s ≤ aeN + ln
        omega
      · show SpellsTo _ 0 (seg s.text (jStar s) (aeN + ln - jStar s)) w
        exact spellsTo_mono hle hspW
      · show WalkW _ w (seg s.text (aeN + ln) (aLenN - ln))
        exact walkW_mono hle hwkRest
  · intro v nd2 w2 hnd2 hlnk
    obtain ⟨q2, d2, h1x, h2x, h3x⟩ := hD.lnk v nd2 w2 hnd2 hlnk
    exact ⟨q2, d2, spellsTo_mono hle h1x, h2x, spellsTo_mono hle h3x⟩
  · intro v nd2 hnd2 hln
    obtain ⟨h5, h6⟩ := hD.nl v nd2 hnd2 hln
    exact ⟨hmode, h6⟩
  · intro _ p hp
    obtain ⟨hp0, hj1, hsp⟩ := hD.prevSp hmode p hp
    exact ⟨hp0, hj1, spellsTo_mono hle hsp⟩

/-- The state after a showstopper break: active length extended, phase
advanced, control back at the top of the phase loop. -/
def ssState (s : Ukkonen) (idx ae : Int) (nodes2 : List Node) : Ukkonen :=
  { s with nodes := nodes2, active_edge := some ae
         , active_length := s.active_length + 1
         , phase := s.phase + 1, mode := Mode.phaseStart
         , idxLog := idx :: s.idxLog }

theorem insBound_ssState (s : Ukkonen) (idx ae : Int) (nodes2 : List Node)
    (hmode : s.mode = Mode.inner) :
    insBound (ssState s idx ae nodes2) = insBound s := by
  unfold insBound
  rw [show (ssState s idx ae nodes2).mode = Mode.phaseStart from rfl,
    if_neg (by decide : ¬ (Mode.phaseStart = Mode.inner)), if_pos hmode]
  show ((s.phase + 1 : Nat) : Int) - 1 - s.remainder
    = (s.phase : Int) - s.remainder
  omega

theorem deep_showstop_noprev {T : List Nat} {s : Ukkonen} {char c0 cc : Nat}
    {ae ev : Int} {nd : Node} {eid : Nat} {ed : Edge} {ec : End}
    (hT : validText T) (hD : Deep T s)
    (hmode : s.mode = Mode.inner) (hrem : s.remainder > 0)
    (hchar : lookupL s.text s.phase = some char)
    (hres : (if s.active_length = 0 then some ((s.phase : Nat) : Int)
      else s.active_edge) = some ae)
    (hc0 : pyGet s.text ae = some c0)
    (hnd : lookupL s.nodes s.active_node = some nd)
    (hslotG : pyGet nd.edges (slotIdx c0) = some (some eid))
    (hed : lookupL s.edgeArena eid = some ed)
    (hec : lookupL s.ends ed.endId = some ec)
    (hev : ec.value = some ev)
    (hlt : ¬ s.active_length ≥ ev - ed.start + 1)
    (hcc : pyGet s.text (ed.start + s.active_length) = some cc)
    (hccc : cc = char)
    (hprev : s.previous_node = none) :
    Deep T (ssState s (slotIdx c0) ae s.nodes) := by
  have hph := hD.phaseLt hmode
  have hrB := hD.remB1 hmode
  obtain ⟨aLenN, hal, h0c, h1c⟩ := hD.ap
  have hc0r := text_range hT hD.textEq (pyGet_mem hc0)
  have hslotL : lookupL nd.edges (slotN c0) = some (some eid) := by
    rw [← slotIdx_toNat hc0r.1, ← pyGet_nonneg (slotIdx_nonneg hc0r.1)]
    exact hslotG
  obtain ⟨st, ln, q, d, hst, hln, hstln, hlab, ⟨cH, hcH, hcHk, hcH36⟩,
    ⟨ec2, hec2, hval2⟩, hopen, hclosed, hspell, hqd, hqb⟩ :=
    hD.slotFacts s.active_node nd (slotN c0) eid ed hnd hslotL hed
  have hece : ec2 = ec := Option.some.inj (hec2.symm.trans hec)
  have hevE : ev = (st : Int) + ln - 1 := by
    rw [hece] at hval2
    exact Option.some.inj (hev.symm.trans hval2)
  have hltN : aLenN < ln := by
    rw [hal] at hlt
    rw [hst, hevE] at hlt
    omega
  have hjsle : jStar s ≤ s.phase := by
    unfold jStar insBound
    rw [if_pos hmode]
    omega
  have hle : TreeLe s (ssState s (slotIdx c0) ae s.nodes) :=
    treeLe_of_eq rfl rfl rfl rfl
  have hinsE := insBound_ssState s (slotIdx c0) ae s.nodes hmode
  have hjsE : jStar (ssState s (slotIdx c0) ae s.nodes) = jStar s := by
    unfold jStar
    rw [hinsE]
  refine ⟨hD.textEq, ?_, ?_, ?_, ?_, ?_, ?_, ?_, hD.slotOnto, hD.slotsValid,
    hD.slotU,
    hD.nextU, hD.rootNI, hD.branch2, ?_, ?_, ?_, ?_, ?_⟩
  · rcases hD.gv with ⟨h1x, h2x, h3x, h4x, h5x⟩ | ⟨g, hg, hI, hNI⟩
    · rw [hmode] at h5x; cases h5x
    · refine Or.inr ⟨g, hg, fun hc =>
        Mode.noConfusion (show Mode.phaseStart = Mode.inner from hc),
        fun _ => ?_⟩
      have h6 := hI hmode
      show g + 1 = s.phase + 1
      omega
  · show s.phase + 1 ≤ s.text.length
    omega
  · intro hc
    exact Mode.noConfusion (show Mode.phaseStart = Mode.inner from hc)
  · intro hc
    exact Mode.noConfusion (show Mode.phaseStart = Mode.inner from hc)
  · intro _
    constructor
    · show (0 : Int) ≤ s.remainder
      omega
    · show s.remainder ≤ ((s.phase + 1 : Nat) : Int)
      omega
  · intro hc
    exact Mode.noConfusion (show Mode.phaseStart = Mode.inner from hc)
  · intro v nd2 k2 eid2 ed2 hnd2 hslot2 hed2
    exact edgeFacts_mono hle rfl rfl rfl (le_of_eq hinsE.symm)
      (fun w2 ndw h => ⟨ndw, h⟩) (labelOf_congr rfl rfl ed2)
      (hD.slotFacts v nd2 k2 eid2 ed2 hnd2 hslot2 hed2)
  · intro g hg j2 hj2
    rw [hinsE] at hj2
    obtain ⟨x, u, nd2, k2, eid2, ed2, hsp, hnd2, hslot2, hed2, h0, hne, hweq⟩ :=
      hD.m2 g hg j2 hj2
    exact ⟨x, u, nd2, k2, eid2, ed2, spellsTo_mono hle hsp, hnd2, hslot2,
      hed2, h0, hne, hweq⟩
  · by_cases haln : aLenN = 0
    · have hres2 : ae = ((s.phase : Nat) : Int) := by
        rw [if_pos (by rw [hal, haln]; rfl)] at hres
        exact (Option.some.inj hres).symm
      have hc0c : c0 = char := by
        rw [hres2, pyGet_nonneg (by omega), toNat_cast] at hc0
        exact Option.some.inj (hc0.symm.trans hchar)
      have hcHc : cH = char := by
        apply slotN_inj hcH36 (by omega)
        rw [hcHk, hc0c]
      refine ⟨1, ?_, ?_, ?_⟩
      · show s.active_length + 1 = ((1 : Nat) : Int)
        rw [hal, haln]
        rfl
      · intro h0
        exact absurd h0 one_ne_zero
      · intro _
        refine ⟨s.phase, ?_, ?_, ?_, ?_, ?_⟩
        · show some ae = some ((s.phase : Nat) : Int)
          rw [hres2]
        · show s.phase + 1 = s.phase + 1
          rfl
        · rw [hjsE]
          exact hjsle
        · rw [hjsE]
          show SpellsTo _ 0 (seg s.text (jStar s) (s.phase - jStar s))
            s.active_node
          exact spellsTo_mono hle (h0c haln)
        · show WalkW _ s.active_node (seg s.text s.phase 1)
          apply walkW_mono hle
          have hsegchar : seg s.text s.phase 1
              = char :: seg s.text (s.phase + 1) 0 := seg_cons hchar (le_refl 1)
          refine ⟨[], seg s.text s.phase 1, s.active_node,
            (List.nil_append _).symm, SpellsTo.nil _, ?_⟩
          refine Or.inr ⟨nd, char, seg s.text (s.phase + 1) 0, eid, ed,
            hsegchar, hnd, ?_, hed, ?_⟩
          · rw [← hc0c]
            exact hslotL
          · rw [hlab, hsegchar]
            have hstchar : lookupL s.text st = some char := by
              rw [← hcHc]
              exact hcH
            have hlabc : seg s.text st ln
                = char :: seg s.text (st + 1) (ln - 1) :=
              seg_cons hstchar hln
            rw [hlabc]
            refine List.cons_prefix_cons.mpr ⟨rfl, ?_⟩
            show seg s.text (s.phase + 1) 0 <+: seg s.text (st + 1) (ln - 1)
            rw [seg_zero]
            exact List.nil_prefix
    · have h1 : 1 ≤ aLenN := by omega
      have hane : ¬ s.active_length = 0 := by
        rw [hal]
        omega
      rw [if_neg hane] at hres
      obtain ⟨aeN, hae, haep, hjae, hspA, hwkA⟩ := h1c h1
      have haee : ae = ((aeN : Nat) : Int) :=
        Option.some.inj (hres.symm.trans hae)
      have haeL : aeN < s.text.length := by omega
      have hc0L : lookupL s.text aeN = some c0 := by
        rw [haee, pyGet_nonneg (by omega), toNat_cast] at hc0
        exact hc0
      have hseglen : (seg s.text aeN aLenN).length = aLenN :=
        seg_length_of_le (by omega)
      have hwhead : (seg s.text aeN aLenN).head? = some c0 := seg_head hc0L h1
      have hlablen : (labelOf s ed).length = ln := by
        rw [hlab]
        exact seg_length_of_le hstln
      have hzpre : seg s.text aeN aLenN <+: labelOf s ed :=
        walkW_within_edge hwkA hnd hslotL hed hwhead
          (by rw [hlablen, hseglen]; omega)
      have hzseg : seg s.text aeN aLenN = seg s.text st aLenN := by
        have hzpre2 : seg s.text aeN aLenN <+: seg s.text st ln := by
          rw [← hlab]
          exact hzpre
        have h2 := prefix_seg hzpre2
        rw [hseglen] at h2
        exact h2
      have hccL : lookupL s.text (st + aLenN) = some cc := by
        rw [hst, hal] at hcc
        rw [show (st : Int) + (aLenN : Int) = ((st + aLenN : Nat) : Int)
          by omega, pyGet_nonneg (by omega), toNat_cast] at hcc
        exact hcc
      have hnew1 : seg s.text aeN (aLenN + 1)
          = seg s.text aeN aLenN ++ [char] := by
        have hlk : lookupL s.text (aeN + (aLenN + 1 - 1)) = some char := by
          have he : aeN + (aLenN + 1 - 1) = s.phase := by omega
          rw [he]
          exact hchar
        rw [seg_last hlk (by omega), Nat.add_sub_cancel]
      have hnew2 : seg s.text st (aLenN + 1)
          = seg s.text st aLenN ++ [cc] := by
        have hlk : lookupL s.text (st + (aLenN + 1 - 1)) = some cc := by
          rw [Nat.add_sub_cancel]
          exact hccL
        rw [seg_last hlk (by omega), Nat.add_sub_cancel]
      have hneweq : seg s.text aeN (aLenN + 1) = seg s.text st (aLenN + 1) := by
        rw [hnew1, hnew2, hzseg, hccc]
      refine ⟨aLenN + 1, ?_, ?_, ?_⟩
      · show s.active_length + 1 = ((aLenN + 1 : Nat) : Int)
        rw [hal]
        omega
      · intro h0
        omega
      · intro _
        refine ⟨aeN, ?_, ?_, ?_, ?_, ?_⟩
        · show some ae = some ((aeN : Nat) : Int)
          rw [haee]
        · show aeN + (aLenN + 1) = s.phase + 1
          omega
        · rw [hjsE]
          exact hjae
        · rw [hjsE]
          show SpellsTo _ 0 (seg s.text (jStar s) (aeN - jStar s))
            s.active_node
          exact spellsTo_mono hle hspA
        · show WalkW _ s.active_node (seg s.text aeN (aLenN + 1))
          apply walkW_mono hle
          have hsegc : seg s.text aeN (aLenN + 1)
              = c0 :: seg s.text (aeN + 1) (aLenN + 1 - 1) :=
            seg_cons hc0L (by omega)
          refine ⟨[], seg s.text aeN (aLenN + 1), s.active_node,
            (List.nil_append _).symm, SpellsTo.nil _, ?_⟩
          refine Or.inr ⟨nd, c0, seg s.text (aeN + 1) (aLenN + 1 - 1), eid,
            ed, hsegc, hnd, hslotL, hed, ?_⟩
          rw [hneweq, hlab]
          exact seg_prefix_seg s.text st (by omega)
  · intro v nd2 w2 hnd2 hlnk
    obtain ⟨q2, d2, h1x, h2x, h3x⟩ := hD.lnk v nd2 w2 hnd2 hlnk
    exact ⟨q2, d2, spellsTo_mono hle h1x, h2x, spellsTo_mono hle h3x⟩
  · intro v nd2 hnd2 hln
    exfalso
    obtain ⟨h5, h6⟩ := hD.nl v nd2 hnd2 hln
    rw [hprev] at h6
    cases h6
  · intro hc
    exact Mode.noConfusion (show Mode.phaseStart = Mode.inner from hc)

theorem m2_tip_walk {s : Ukkonen} {x : List Nat} {u : Nat} {nd : Node}
    {k eid : Nat} {ed : Edge}
    (hSF : ∀ v nd2 k2 eid2 ed2, lookupL s.nodes v = some nd2 →
      lookupL nd2.edges k2 = some (some eid2) →
      lookupL s.edgeArena eid2 = some ed2 → EdgeFacts s v k2 ed2)
    (hsp : SpellsTo s 0 x u)
    (hnd : lookupL s.nodes u = some nd)
    (hslot : lookupL nd.edges k = some (some eid))
    (hed : lookupL s.edgeArena eid = some ed) :
    WalkW s 0 (x ++ labelOf s ed) := by
  obtain ⟨st, ln, q, d, hst, hln, hstln, hlab, ⟨c, hcst, hck, hc36⟩,
    hcell, hopen, hclosed, hspell, hqd, hqb⟩ := hSF u nd k eid ed hnd hslot hed
  refine ⟨x, labelOf s ed, u, rfl, hsp, ?_⟩
  have hcons : labelOf s ed = c :: seg s.text (st + 1) (ln - 1) := by
    rw [hlab]
    exact seg_cons hcst hln
  refine Or.inr ⟨nd, c, seg s.text (st + 1) (ln - 1), eid, ed, hcons, hnd,
    ?_, hed, List.prefix_refl _⟩
  rw [hck]
  exact hslot

theorem showstop_prev_alen0 {T : List Nat} {s : Ukkonen} {char c0 cc : Nat}
    {ae ev : Int} {nd pn : Node} {eid : Nat} {ed : Edge} {ec : End} {p : Nat}
    (hT : validText T) (hD : Deep T s)
    (hmode : s.mode = Mode.inner) (hrem : s.remainder > 0)
    (hchar : lookupL s.text s.phase = some char)
    (hres : (if s.active_length = 0 then some ((s.phase : Nat) : Int)
      else s.active_edge) = some ae)
    (hc0 : pyGet s.text ae = some c0)
    (hnd : lookupL s.nodes s.active_node = some nd)
    (hslotG : pyGet nd.edges (slotIdx c0) = some (some eid))
    (hed : lookupL s.edgeArena eid = some ed)
    (hec : lookupL s.ends ed.endId = some ec)
    (hev : ec.value = some ev)
    (hlt : ¬ s.active_length ≥ ev - ed.start + 1)
    (hcc : pyGet s.text (ed.start + s.active_length) = some cc)
    (hccc : cc = char)
    (hprev : s.previous_node = some p)
    (hpn : lookupL s.nodes p = some pn) :
    s.active_length = 0 := by
  by_contra hne0
  have hph := hD.phaseLt hmode
  have hrB := hD.remB1 hmode
  obtain ⟨aLenN, hal, h0c, h1c⟩ := hD.ap
  have h1 : 1 ≤ aLenN := by
    rw [hal] at hne0
    omega
  have hc0r := text_range hT hD.textEq (pyGet_mem hc0)
  have hslotL : lookupL nd.edges (slotN c0) = some (some eid) := by
    rw [← slotIdx_toNat hc0r.1, ← pyGet_nonneg (slotIdx_nonneg hc0r.1)]
    exact hslotG
  obtain ⟨st, ln, q, d, hst, hln, hstln, hlab, ⟨cH, hcH, hcHk, hcH36⟩,
    ⟨ec2, hec2, hval2⟩, hopen, hclosed, hspell, hqd, hqb⟩ :=
    hD.slotFacts s.active_node nd (slotN c0) eid ed hnd hslotL hed
  have hece : ec2 = ec := Option.some.inj (hec2.symm.trans hec)
  have hevE : ev = (st : Int) + ln - 1 := by
    rw [hece] at hval2
    exact Option.some.inj (hev.symm.trans hval2)
  have hltN : aLenN < ln := by
    rw [hal] at hlt
    rw [hst, hevE] at hlt
    omega
  have hane : ¬ s.active_length = 0 := by
    rw [hal]
    omega
  rw [if_neg hane] at hres
  obtain ⟨aeN, hae, haep, hjae, hspA, hwkA⟩ := h1c h1
  have haee : ae = ((aeN : Nat) : Int) := Option.some.inj (hres.symm.trans hae)
  have haeL : aeN < s.text.length := by omega
  have hc0L : lookupL s.text aeN = some c0 := by
    rw [haee, pyGet_nonneg (by omega), toNat_cast] at hc0
    exact hc0
  have hseglen : (seg s.text aeN aLenN).length = aLenN :=
    seg_length_of_le (by omega)
  have hwhead : (seg s.text aeN aLenN).head? = some c0 := seg_head hc0L h1
  have hlablen : (labelOf s ed).length = ln := by
    rw [hlab]
    exact seg_length_of_le hstln
  have hzpre : seg s.text aeN aLenN <+: labelOf s ed :=
    walkW_within_edge hwkA hnd hslotL hed hwhead
      (by rw [hlablen, hseglen]; omega)
  have hzseg : seg s.text aeN aLenN = seg s.text st aLenN := by
    have hzpre2 : seg s.text aeN aLenN <+: seg s.text st ln := by
      rw [← hlab]
      exact hzpre
    have h2 := prefix_seg hzpre2
    rw [hseglen] at h2
    exact h2
  have hccL : lookupL s.text (st + aLenN) = some cc := by
    rw [hst, hal] at hcc
    rw [show (st : Int) + (aLenN : Int) = ((st + aLenN : Nat) : Int)
      by omega, pyGet_nonneg (by omega), toNat_cast] at hcc
    exact hcc
  obtain ⟨hp0, hjs1, hspP⟩ := hD.prevSp hmode p hprev
  have hjsle : jStar s ≤ s.phase := by omega
  obtain ⟨k1, k2, e1, e2, ed1, ed2, hk12, hsl1, hsl2, hedl1, hedl2⟩ :=
    hD.branch2 p pn hp0 hpn
  obtain ⟨st1, ln1, q1, d1, hst1, hln1, hstln1, hlab1,
    ⟨cH1, hcH1, hcHk1, hcH361⟩, hcell1, hopen1, hclosed1, hspell1, hqd1,
    hqb1⟩ := hD.slotFacts p pn k1 e1 ed1 hpn hsl1 hedl1
  obtain ⟨st2, ln2, q2, d2, hst2, hln2, hstln2, hlab2,
    ⟨cH2, hcH2, hcHk2, hcH362⟩, hcell2, hopen2, hclosed2, hspell2, hqd2,
    hqb2⟩ := hD.slotFacts p pn k2 e2 ed2 hpn hsl2 hedl2
  have hc12 : cH1 ≠ cH2 := by
    intro hcc2
    apply hk12
    rw [← hcHk1, ← hcHk2, hcc2]
  -- choose the child whose first character differs from char
  obtain ⟨kx, ex, edx, cx, stx, lnx, hslx, hedx, hcx, hcxk, hcx36, hlnx,
    hstlnx, hlabx, hcxne⟩ :
      ∃ kx ex edx cx stx lnx, lookupL pn.edges kx = some (some ex) ∧
        lookupL s.edgeArena ex = some edx ∧ lookupL s.text stx = some cx ∧
        slotN cx = kx ∧ 36 ≤ cx ∧ 1 ≤ lnx ∧ stx + lnx ≤ s.text.length ∧
        labelOf s edx = seg s.text stx lnx ∧ cx ≠ char := by
    by_cases hcase : cH1 = char
    · refine ⟨k2, e2, ed2, cH2, st2, ln2, hsl2, hedl2, hcH2, hcHk2, hcH362,
        hln2, hstln2, hlab2, ?_⟩
      intro hcc2
      exact hc12 (hcase.trans hcc2.symm)
    · exact ⟨k1, e1, ed1, cH1, st1, ln1, hsl1, hedl1, hcH1, hcHk1, hcH361,
        hln1, hstln1, hlab1, hcase⟩
  -- the word spelled to p, extended by one character below p
  have hW1 : WalkW s 0 (seg s.text (jStar s - 1) (s.phase - (jStar s - 1))
      ++ [cx]) := by
    refine spellsTo_walkW_append hspP ⟨[], [cx], p, (List.nil_append _).symm,
      SpellsTo.nil p, ?_⟩
    have hconsx : labelOf s edx = cx :: seg s.text (stx + 1) (lnx - 1) := by
      rw [hlabx]
      exact seg_cons hcx hlnx
    refine Or.inr ⟨pn, cx, [], ex, edx, rfl, hpn, ?_, hedx, ?_⟩
    · rw [hcxk]
      exact hslx
    · rw [hconsx]
      exact ⟨seg s.text (stx + 1) (lnx - 1), rfl⟩
  have hwPlen : (seg s.text (jStar s - 1) (s.phase - (jStar s - 1))).length
      = s.phase - (jStar s - 1) := seg_length_of_le (by omega)
  obtain ⟨pos, g2, hg2, hposB, hposLen, hseg⟩ :=
    occ_of_walk hD.slotFacts hD.slotU hD.nextU hD.rootNI hW1 (by simp)
  have hg2v : g2 = s.phase := by
    rcases hD.gv with ⟨h1x, h2x, h3x, h4x, h5x⟩ | ⟨g, hg, hI, hNI⟩
    · rw [hmode] at h5x; cases h5x
    · have h6 := Option.some.inj (hg2.symm.trans hg)
      have h7 := hI hmode
      omega
  have hLv : s.phase - (jStar s - 1) = s.phase - jStar s + 1 := by omega
  have hwordlen : (seg s.text (jStar s - 1) (s.phase - (jStar s - 1))
      ++ [cx]).length = (s.phase - jStar s + 1) + 1 := by
    rw [List.length_append, hwPlen, List.length_singleton]
    omega
  rw [hwordlen] at hseg hposLen
  have hposle : pos + (s.phase - jStar s + 1) ≤ s.phase := by omega
  have hposne : pos ≠ jStar s - 1 := by
    intro hpe
    rw [hpe] at hseg
    have hlk : lookupL s.text ((jStar s - 1) + ((s.phase - jStar s + 1) + 1 - 1))
        = some char := by
      have he : (jStar s - 1) + ((s.phase - jStar s + 1) + 1 - 1)
          = s.phase := by omega
      rw [he]
      exact hchar
    rw [seg_last hlk (by omega), Nat.add_sub_cancel] at hseg
    have hseq : seg s.text (jStar s - 1) (s.phase - jStar s + 1)
        = seg s.text (jStar s - 1) (s.phase - (jStar s - 1)) := by
      rw [hLv]
    rw [hseq] at hseg
    have hcx2 : [cx] = [char] := List.append_cancel_left hseg
    injection hcx2 with h9 _
    exact hcxne h9
  have hposlt : pos + 1 ≤ jStar s - 1 := by omega
  have hIB : insBound s = (s.phase : Int) - s.remainder := by
    unfold insBound
    rw [if_pos hmode]
  have hjsInt : (jStar s : Int) = insBound s + 1 := by
    unfold jStar
    rw [hIB]
    omega
  have hm2b : ((pos + 1 : Nat) : Int) ≤ insBound s := by omega
  obtain ⟨x2, u2, nd2, k2b, eid2b, ed2b, hsp2, hnd2, hslot2, hed2b, h02,
    hne2, hweq2⟩ := hD.m2 g2 hg2 (pos + 1) hm2b
  have hW2 : WalkW s 0 (seg s.text (pos + 1) (g2 + 1 - (pos + 1))) := by
    rw [hweq2]
    exact m2_tip_walk hD.slotFacts hsp2 hnd2 hslot2 hed2b
  have htear : seg s.text (jStar s) (s.phase - jStar s) ++ [cx]
      = seg s.text (pos + 1) (s.phase - jStar s + 1) := by
    obtain ⟨cw, hcw⟩ := lookupL_lt_some
      (show jStar s - 1 < s.text.length by omega)
    have hwP : seg s.text (jStar s - 1) (s.phase - (jStar s - 1))
        = cw :: seg s.text ((jStar s - 1) + 1) (s.phase - (jStar s - 1) - 1) :=
      seg_cons hcw (by omega)
    obtain ⟨cp, hcp⟩ := lookupL_lt_some (show pos < s.text.length by omega)
    have hpseg : seg s.text pos ((s.phase - jStar s + 1) + 1)
        = cp :: seg s.text (pos + 1) ((s.phase - jStar s + 1) + 1 - 1) :=
      seg_cons hcp (by omega)
    rw [hwP, hpseg, List.cons_append] at hseg
    injection hseg with h8 h9
    have he1 : (jStar s - 1) + 1 = jStar s := by omega
    have he2 : s.phase - (jStar s - 1) - 1 = s.phase - jStar s := by omega
    have he3 : (s.phase - jStar s + 1) + 1 - 1 = s.phase - jStar s + 1 := by
      omega
    rw [he1, he2, he3] at h9
    exact h9
  have hpre3 : seg s.text (pos + 1) (s.phase - jStar s + 1)
      <+: seg s.text (pos + 1) (g2 + 1 - (pos + 1)) :=
    seg_prefix_seg s.text (pos + 1) (by omega)
  have hW3 : WalkW s 0 (seg s.text (jStar s) (s.phase - jStar s) ++ [cx]) := by
    rw [htear]
    exact walkW_prefix hW2 hpre3
  have hsplit : seg s.text (jStar s) (s.phase - jStar s)
      = seg s.text (jStar s) (aeN - jStar s) ++ seg s.text aeN aLenN := by
    have h6 : s.phase - jStar s = (aeN - jStar s) + aLenN := by omega
    rw [h6, seg_add]
    have h7 : jStar s + (aeN - jStar s) = aeN := by omega
    rw [h7]
  have hW4 : WalkW s s.active_node (seg s.text aeN aLenN ++ [cx]) := by
    apply spellsTo_walk_decomp hspA
    rw [← List.append_assoc, ← hsplit]
    exact hW3
  have hW4head : (seg s.text aeN aLenN ++ [cx]).head? = some c0 := by
    rw [seg_cons hc0L h1, List.cons_append, List.head?_cons]
  have hpre4 : seg s.text aeN aLenN ++ [cx] <+: labelOf s ed :=
    walkW_within_edge hW4 hnd hslotL hed hW4head
      (by rw [hlablen, List.length_append, hseglen, List.length_singleton]
          omega)
  have hfin : seg s.text aeN aLenN ++ [cx] = seg s.text st (aLenN + 1) := by
    have hpre5 : seg s.text aeN aLenN ++ [cx] <+: seg s.text st ln := by
      rw [← hlab]
      exact hpre4
    have h5 := prefix_seg hpre5
    rw [List.length_append, hseglen, List.length_singleton] at h5
    exact h5
  have hstep : seg s.text st (aLenN + 1) = seg s.text st aLenN ++ [cc] := by
    have hlk2 : lookupL s.text (st + (aLenN + 1 - 1)) = some cc := by
      rw [Nat.add_sub_cancel]
      exact hccL
    rw [seg_last hlk2 (by omega), Nat.add_sub_cancel]
  rw [hstep, hzseg] at hfin
  have hcxcc : [cx] = [cc] := List.append_cancel_left hfin
  injection hcxcc with h9 _
  exact hcxne (h9.trans hccc)

theorem deep_showstop_prev {T : List Nat} {s : Ukkonen} {char c0 cc : Nat}
    {ae ev : Int} {nd pn : Node} {eid : Nat} {ed : Edge} {ec : End} {p : Nat}
    {ns : List Node}
    (hT : validText T) (hD : Deep T s)
    (hmode : s.mode = Mode.inner) (hrem : s.remainder > 0)
    (hchar : lookupL s.text s.phase = some char)
    (hres : (if s.active_length = 0 then some ((s.phase : Nat) : Int)
      else s.active_edge) = some ae)
    (hc0 : pyGet s.text ae = some c0)
    (hnd : lookupL s.nodes s.active_node = some nd)
    (hslotG : pyGet nd.edges (slotIdx c0) = some (some eid))
    (hed : lookupL s.edgeArena eid = some ed)
    (hec : lookupL s.ends ed.endId = some ec)
    (hev : ec.value = some ev)
    (hlt : ¬ s.active_length ≥ ev - ed.start + 1)
    (hcc : pyGet s.text (ed.start + s.active_length) = some cc)
    (hccc : cc = char)
    (hprev : s.previous_node = some p)
    (hpn : lookupL s.nodes p = some pn)
    (hset : asetL s.nodes p { pn with link := some s.active_node } = some ns) :
    Deep T (ssState s (slotIdx c0) ae ns) := by
  have hal0 := showstop_prev_alen0 hT hD hmode hrem hchar hres hc0 hnd hslotG
    hed hec hev hlt hcc hccc hprev hpn
  have hph := hD.phaseLt hmode
  have hrB := hD.remB1 hmode
  obtain ⟨aLenN, hal, h0c, h1c⟩ := hD.ap
  have haln0 : aLenN = 0 := by
    rw [hal0] at hal
    omega
  obtain ⟨hplen, hnsE⟩ := asetL_eq_some hset
  obtain ⟨hp0, hjs1, hspP⟩ := hD.prevSp hmode p hprev
  have hc0r := text_range hT hD.textEq (pyGet_mem hc0)
  have hslotL : lookupL nd.edges (slotN c0) = some (some eid) := by
    rw [← slotIdx_toNat hc0r.1, ← pyGet_nonneg (slotIdx_nonneg hc0r.1)]
    exact hslotG
  obtain ⟨st, ln, q, d, hst, hln, hstln, hlab, ⟨cH, hcH, hcHk, hcH36⟩,
    ⟨ec2, hec2, hval2⟩, hopen, hclosed, hspell, hqd, hqb⟩ :=
    hD.slotFacts s.active_node nd (slotN c0) eid ed hnd hslotL hed
  have hres2 : ae = ((s.phase : Nat) : Int) := by
    rw [if_pos hal0] at hres
    exact (Option.some.inj hres).symm
  have hc0c : c0 = char := by
    rw [hres2, pyGet_nonneg (by omega), toNat_cast] at hc0
    exact Option.some.inj (hc0.symm.trans hchar)
  have hcHc : cH = char := by
    apply slotN_inj hcH36 (by omega)
    rw [hcHk, hc0c]
  have hjsle : jStar s ≤ s.phase := by
    unfold jStar insBound
    rw [if_pos hmode]
    omega
  have hlookN : ∀ v, v ≠ p → lookupL ns v = lookupL s.nodes v := by
    intro v hv
    rw [hnsE]
    exact lookupL_setL_ne hv
  have hlookP : lookupL ns p = some { pn with link := some s.active_node } := by
    rw [hnsE]
    exact lookupL_setL_self hplen
  have hback : ∀ v ndv, lookupL ns v = some ndv →
      ∃ ndv0, lookupL s.nodes v = some ndv0 ∧ ndv.edges = ndv0.edges := by
    intro v ndv hv
    by_cases hvp : v = p
    · subst hvp
      rw [hlookP] at hv
      refine ⟨pn, hpn, ?_⟩
      rw [← Option.some.inj hv]
    · rw [hlookN v hvp] at hv
      exact ⟨ndv, hv, rfl⟩
  have hle : TreeLe s (ssState s (slotIdx c0) ae ns) := by
    refine ⟨?_, fun eid2 ed2 hed2 => hed2, ?_, ?_⟩
    · intro v nd2 k eid2 hnd2 hslot2
      by_cases hvp : v = p
      · subst hvp
        have hnd2e : nd2 = pn := Option.some.inj (hnd2.symm.trans hpn)
        refine ⟨{ pn with link := some s.active_node }, hlookP, ?_⟩
        show lookupL pn.edges k = some (some eid2)
        rw [← hnd2e]
        exact hslot2
      · exact ⟨nd2, by rw [show (ssState s (slotIdx c0) ae ns).nodes = ns
          from rfl, hlookN v hvp]; exact hnd2, hslot2⟩
    · intro eid2 ed2 w2 hed2 _
      exact labelOf_congr rfl rfl ed2
    · intro eid2 ed2 hed2
      rw [labelOf_congr rfl rfl ed2]
      exact List.prefix_refl _
  have hinsE := insBound_ssState s (slotIdx c0) ae ns hmode
  have hjsE : jStar (ssState s (slotIdx c0) ae ns) = jStar s := by
    unfold jStar
    rw [hinsE]
  refine ⟨hD.textEq, ?_, ?_, ?_, ?_, ?_, ?_, ?_, ?_, ?_, ?_, hD.nextU,
    hD.rootNI, ?_, ?_, ?_, ?_, ?_, ?_⟩
  · rcases hD.gv with ⟨h1x, h2x, h3x, h4x, h5x⟩ | ⟨g, hg, hI, hNI⟩
    · rw [hmode] at h5x; cases h5x
    · refine Or.inr ⟨g, hg, fun hc =>
        Mode.noConfusion (show Mode.phaseStart = Mode.inner from hc),
        fun _ => ?_⟩
      have h6 := hI hmode
      show g + 1 = s.phase + 1
      omega
  · show s.phase + 1 ≤ s.text.length
    omega
  · intro hc
    exact Mode.noConfusion (show Mode.phaseStart = Mode.inner from hc)
  · intro hc
    exact Mode.noConfusion (show Mode.phaseStart = Mode.inner from hc)
  · intro _
    constructor
    · show (0 : Int) ≤ s.remainder
      omega
    · show s.remainder ≤ ((s.phase + 1 : Nat) : Int)
      omega
  · intro hc
    exact Mode.noConfusion (show Mode.phaseStart = Mode.inner from hc)
  · intro v nd2 k2 eid2 ed2 hnd2 hslot2 hed2
    obtain ⟨nd0, hnd0, hedges⟩ := hback v nd2 hnd2
    rw [hedges] at hslot2
    refine edgeFacts_mono hle rfl rfl rfl (le_of_eq hinsE.symm) ?_
      (labelOf_congr rfl rfl ed2) (hD.slotFacts v nd0 k2 eid2 ed2 hnd0
        hslot2 hed2)
    intro w2 ndw h
    by_cases hwp : w2 = p
    · subst hwp
      exact ⟨{ pn with link := some s.active_node }, hlookP⟩
    · exact ⟨ndw, by rw [show (ssState s (slotIdx c0) ae ns).nodes = ns
        from rfl, hlookN w2 hwp]; exact h⟩
  · intro eid2 ed2 hed2
    obtain ⟨v, ndv, k, hndv, hslotv⟩ := hD.slotOnto eid2 ed2 hed2
    obtain ⟨nd2b, hnd2b, hslot2b⟩ := hle.slots v ndv k eid2 hndv hslotv
    exact ⟨v, nd2b, k, hnd2b, hslot2b⟩
  · intro v nd2 k eid2 hnd2 hslot2
    obtain ⟨nd0, hnd0, hedges⟩ := hback v nd2 hnd2
    rw [hedges] at hslot2
    exact hD.slotsValid v nd0 k eid2 hnd0 hslot2
  · intro v1 k1 nd1 v2 k2 nd2 e h1 h2 h3 h4
    obtain ⟨nd10, h10, he1⟩ := hback v1 nd1 h1
    obtain ⟨nd20, h20, he2⟩ := hback v2 nd2 h3
    rw [he1] at h2
    rw [he2] at h4
    exact hD.slotU v1 k1 nd10 v2 k2 nd20 e h10 h2 h20 h4
  · intro v nd2 hv hnd2
    obtain ⟨nd0, hnd0, hedges⟩ := hback v nd2 hnd2
    obtain ⟨k1, k2, e1, e2, ed1, ed2, hk12, hs1, hs2, hel1, hel2⟩ :=
      hD.branch2 v nd0 hv hnd0
    refine ⟨k1, k2, e1, e2, ed1, ed2, hk12, ?_, ?_, hel1, hel2⟩
    · rw [hedges]; exact hs1
    · rw [hedges]; exact hs2
  · intro g hg j2 hj2
    rw [hinsE] at hj2
    obtain ⟨x, u, nd2, k2, eid2, ed2, hsp, hnd2, hslot2, hed2, h0, hne,
      hweq⟩ := hD.m2 g hg j2 hj2
    obtain ⟨nd2b, hnd2b, hslot2b⟩ := hle.slots u nd2 k2 eid2 hnd2 hslot2
    exact ⟨x, u, nd2b, k2, eid2, ed2, spellsTo_mono hle hsp, hnd2b, hslot2b,
      hed2, h0, hne, hweq⟩
  · refine ⟨1, ?_, ?_, ?_⟩
    · show s.active_length + 1 = ((1 : Nat) : Int)
      rw [hal, haln0]
      rfl
    · intro h0
      exact absurd h0 one_ne_zero
    · intro _
      refine ⟨s.phase, ?_, ?_, ?_, ?_, ?_⟩
      · show some ae = some ((s.phase : Nat) : Int)
        rw [hres2]
      · show s.phase + 1 = s.phase + 1
        rfl
      · rw [hjsE]
        exact hjsle
      · rw [hjsE]
        show SpellsTo _ 0 (seg s.text (jStar s) (s.phase - jStar s))
          s.active_node
        exact spellsTo_mono hle (h0c haln0)
      · show WalkW _ s.active_node (seg s.text s.phase 1)
        apply walkW_mono hle
        have hsegchar : seg s.text s.phase 1
            = char :: seg s.text (s.phase + 1) 0 := seg_cons hchar (le_refl 1)
        refine ⟨[], seg s.text s.phase 1, s.active_node,
          (List.nil_append _).symm, SpellsTo.nil _, ?_⟩
        refine Or.inr ⟨nd, char, seg s.text (s.phase + 1) 0, eid, ed,
          hsegchar, hnd, ?_, hed, ?_⟩
        · rw [← hc0c]
          exact hslotL
        · rw [hlab, hsegchar]
          have hstchar : lookupL s.text st = some char := by
            rw [← hcHc]
            exact hcH
          have hlabc : seg s.text st ln
              = char :: seg s.text (st + 1) (ln - 1) :=
            seg_cons hstchar hln
          rw [hlabc]
          refine List.cons_prefix_cons.mpr ⟨rfl, ?_⟩
          show seg s.text (s.phase + 1) 0 <+: seg s.text (st + 1) (ln - 1)
          rw [seg_zero]
          exact List.nil_prefix
  · intro v nd2 w2 hnd2 hlnk
    by_cases hvp : v = p
    · subst hvp
      have hnd2e : nd2 = { pn with link := some s.active_node } :=
        Option.some.inj (hnd2.symm.trans hlookP)
      rw [hnd2e] at hlnk
      have hw2 : w2 = s.active_node :=
        (Option.some.inj hlnk).symm
      subst hw2
      refine ⟨jStar s - 1, s.phase - (jStar s - 1), ?_, ?_, ?_⟩
      · exact spellsTo_mono hle hspP
      · show jStar s - 1 + (s.phase - (jStar s - 1)) ≤ s.text.length
        omega
      · have he1 : jStar s - 1 + 1 = jStar s := by omega
        have he2 : s.phase - (jStar s - 1) - 1 = s.phase - jStar s := by omega
        rw [he1, he2]
        exact spellsTo_mono hle (h0c haln0)
    · rw [show (ssState s (slotIdx c0) ae ns).nodes = ns from rfl,
        hlookN v hvp] at hnd2
      obtain ⟨q2, d2, h1x, h2x, h3x⟩ := hD.lnk v nd2 w2 hnd2 hlnk
      exact ⟨q2, d2, spellsTo_mono hle h1x, h2x, spellsTo_mono hle h3x⟩
  · intro v nd2 hnd2 hln
    exfalso
    by_cases hvp : v = p
    · subst hvp
      have hnd2e : nd2 = { pn with link := some s.active_node } :=
        Option.some.inj (hnd2.symm.trans hlookP)
      rw [hnd2e] at hln
      cases hln
    · rw [show (ssState s (slotIdx c0) ae ns).nodes = ns from rfl,
        hlookN v hvp] at hnd2
      obtain ⟨h5, h6⟩ := hD.nl v nd2 hnd2 hln
      rw [hprev] at h6
      exact hvp (Option.some.inj h6).symm
  · intro hc
    exact Mode.noConfusion (show Mode.phaseStart = Mode.inner from hc)

/-- Edge-slot facts with an explicit anchor bound j instead of the
state's own insertion bound (used for the state in the middle of an
insertion, whose remainder is not yet decremented). -/
def EdgeFactsJ (s : Ukkonen) (j v k : Nat) (ed : Edge) : Prop :=
  ∃ st ln q d : Nat,
    ed.start = (st : Int) ∧ 1 ≤ ln ∧ st + ln ≤ s.text.length ∧
    labelOf s ed = seg s.text st ln ∧
    (∃ c, lookupL s.text st = some c ∧ slotN c = k ∧ 36 ≤ c) ∧
    (∃ ec, lookupL s.ends ed.endId = some ec ∧
      ec.value = some ((st : Int) + ln - 1)) ∧
    (ed.endId = 0 → ed.next = none ∧ ed.suffix_id = some (q : Int)) ∧
    (ed.endId ≠ 0 → ed.suffix_id = none ∧
      (∃ w ndw, ed.next = some w ∧ w ≠ 0 ∧ lookupL s.nodes w = some ndw) ∧
      (∃ g : Nat, gvalOf s = some (g : Int) ∧ st + ln ≤ g)) ∧
    SpellsTo s 0 (seg s.text q d) v ∧ q + d = st ∧ q ≤ j

theorem edgeFacts_of_J {s1 t : Ukkonen} (hle : TreeLe s1 t)
    (htext : t.text = s1.text) (hends : t.ends = s1.ends)
    (hgv : gvalOf t = gvalOf s1) {j : Nat} (hins : (j : Int) ≤ insBound t)
    (hnodesW : ∀ w ndw, lookupL s1.nodes w = some ndw →
      ∃ ndw2, lookupL t.nodes w = some ndw2)
    {v k : Nat} {ed : Edge} (hlabel : labelOf t ed = labelOf s1 ed)
    (h : EdgeFactsJ s1 j v k ed) : EdgeFacts t v k ed := by
  obtain ⟨st, ln, q, d, hst, hln, hstln, hlab, ⟨c, hc, hck, hc36⟩,
    ⟨ec, hec, hval⟩, hopen, hclosed, hspell, hqd, hqb⟩ := h
  refine ⟨st, ln, q, d, hst, hln, ?_, ?_, ⟨c, ?_, hck, hc36⟩, ⟨ec, ?_, hval⟩,
    hopen, ?_, ?_, hqd, ?_⟩
  · rw [htext]; exact hstln
  · rw [hlabel, htext]; exact hlab
  · rw [htext]; exact hc
  · rw [hends]; exact hec
  · intro hne
    obtain ⟨hsid, ⟨w, ndw, hnext, hw0, hndw⟩, g, hg, hstg⟩ := hclosed hne
    obtain ⟨ndw2, hndw2⟩ := hnodesW w ndw hndw
    exact ⟨hsid, ⟨w, ndw2, hnext, hw0, hndw2⟩, g, by rw [hgv]; exact hg, hstg⟩
  · rw [htext]; exact spellsTo_mono hle hspell
  · have h2 : (q : Int) ≤ (j : Int) := by omega
    exact le_trans h2 hins

theorem edgeFactsJ_mono {s t : Ukkonen} (hle : TreeLe s t)
    (htext : t.text = s.text) (hends : t.ends = s.ends)
    (hgv : gvalOf t = gvalOf s) {j : Nat} (hins : insBound s ≤ (j : Int))
    (hnodesW : ∀ w ndw, lookupL s.nodes w = some ndw →
      ∃ ndw2, lookupL t.nodes w = some ndw2)
    {v k : Nat} {ed : Edge} (hlabel : labelOf t ed = labelOf s ed)
    (h : EdgeFacts s v k ed) : EdgeFactsJ t j v k ed := by
  obtain ⟨st, ln, q, d, hst, hln, hstln, hlab, ⟨c, hc, hck, hc36⟩,
    ⟨ec, hec, hval⟩, hopen, hclosed, hspell, hqd, hqb⟩ := h
  refine ⟨st, ln, q, d, hst, hln, ?_, ?_, ⟨c, ?_, hck, hc36⟩, ⟨ec, ?_, hval⟩,
    hopen, ?_, ?_, hqd, ?_⟩
  · rw [htext]; exact hstln
  · rw [hlabel, htext]; exact hlab
  · rw [htext]; exact hc
  · rw [hends]; exact hec
  · intro hne
    obtain ⟨hsid, ⟨w, ndw, hnext, hw0, hndw⟩, g, hg, hstg⟩ := hclosed hne
    obtain ⟨ndw2, hndw2⟩ := hnodesW w ndw hndw
    exact ⟨hsid, ⟨w, ndw2, hnext, hw0, hndw2⟩, g, by rw [hgv]; exact hg, hstg⟩
  · rw [htext]; exact spellsTo_mono hle hspell
  · omega

theorem seg_tail_eq {t : List Nat} {q1 n1 q2 n2 : Nat}
    (h : seg t q1 n1 = seg t q2 n2) (hx1 : q1 + n1 ≤ t.length)
    (hx2 : q2 + n2 ≤ t.length) :
    seg t (q1 + 1) (n1 - 1) = seg t (q2 + 1) (n2 - 1) := by
  have hlen : n1 = n2 := by
    have h2 := congrArg List.length h
    rw [seg_length_of_le hx1, seg_length_of_le hx2] at h2
    exact h2
  subst hlen
  by_cases hn : n1 = 0
  · subst hn
    rfl
  · have h1 : 1 ≤ n1 := by omega
    obtain ⟨c1, hc1⟩ := lookupL_lt_some (show q1 < t.length by omega)
    obtain ⟨c2, hc2⟩ := lookupL_lt_some (show q2 < t.length by omega)
    rw [seg_cons hc1 h1, seg_cons hc2 h1] at h
    injection h with h8 h9

theorem m2_tip_walkJ {s : Ukkonen} {j : Nat} {x : List Nat} {u : Nat}
    {nd : Node} {k eid : Nat} {ed : Edge}
    (hSF : ∀ v nd2 k2 eid2 ed2, lookupL s.nodes v = some nd2 →
      lookupL nd2.edges k2 = some (some eid2) →
      lookupL s.edgeArena eid2 = some ed2 → EdgeFactsJ s j v k2 ed2)
    (hsp : SpellsTo s 0 x u)
    (hnd : lookupL s.nodes u = some nd)
    (hslot : lookupL nd.edges k = some (some eid))
    (hed : lookupL s.edgeArena eid = some ed) :
    WalkW s 0 (x ++ labelOf s ed) := by
  obtain ⟨st, ln, q, d, hst, hln, hstln, hlab, ⟨c, hcst, hck, hc36⟩,
    hcell, hopen, hclosed, hspell, hqd, hqb⟩ := hSF u nd k eid ed hnd hslot hed
  refine ⟨x, labelOf s ed, u, rfl, hsp, ?_⟩
  have hcons : labelOf s ed = c :: seg s.text (st + 1) (ln - 1) := by
    rw [hlab]
    exact seg_cons hcst hln
  refine Or.inr ⟨nd, c, seg s.text (st + 1) (ln - 1), eid, ed, hcons, hnd,
    ?_, hed, List.prefix_refl _⟩
  rw [hck]
  exact hslot

/-- The word pending after the suffix j insertion, i.e. suffix j+1 of the
current prefix read up to the phase position, can be walked in the
post-surgery state: it occurs earlier in the text by the pre-state
active-point walk, and the earlier occurrence extends to an open tip. -/
theorem pend_next_mid {T : List Nat} {s s1 : Ukkonen} {j : Nat}
    (hD : Deep T s) (hmode : s.mode = Mode.inner)
    (hjv : (j : Int) = insBound s + 1)
    (htext : s1.text = s.text)
    (hphase : s1.phase = s.phase)
    (hSF1 : ∀ v nd k eid ed, lookupL s1.nodes v = some nd →
      lookupL nd.edges k = some (some eid) → lookupL s1.edgeArena eid = some ed →
      EdgeFactsJ s1 j v k ed)
    (hm2S : ∀ j2 : Nat, j2 ≤ j →
      ∃ x u nd k eid ed, SpellsTo s1 0 x u ∧ lookupL s1.nodes u = some nd ∧
        lookupL nd.edges k = some (some eid) ∧
        lookupL s1.edgeArena eid = some ed ∧
        ed.endId = 0 ∧ labelOf s1 ed ≠ [] ∧
        seg s1.text j2 (s.phase + 1 - j2) = x ++ labelOf s1 ed) :
    WalkW s1 0 (seg s1.text (j + 1) (s1.phase - (j + 1))) := by
  have hph := hD.phaseLt hmode
  have hrB := hD.remB1 hmode
  have hib : insBound s = (s.phase : Int) - s.remainder := by
    unfold insBound
    rw [if_pos hmode]
  by_cases hdeg : s.phase ≤ j + 1
  · have h0 : s1.phase - (j + 1) = 0 := by omega
    rw [h0, seg_zero]
    exact walkW_nil s1 0
  · have hjsv : jStar s = j := by
      unfold jStar
      rw [← hjv, toNat_cast]
    obtain ⟨aLenN, hal, h0c, h1c⟩ := hD.ap
    have hw0 : WalkW s 0 (seg s.text j (s.phase - j)) := by
      rw [← hjsv]
      by_cases ha0 : aLenN = 0
      · exact walkW_of_spellsTo (h0c ha0)
      · obtain ⟨aeN, hae, haep, hjae, hsp, hwk⟩ := h1c (by omega)
        have h2 : s.phase - jStar s = (aeN - jStar s) + aLenN := by omega
        rw [h2, seg_add]
        have h3 : jStar s + (aeN - jStar s) = aeN := by omega
        rw [h3]
        exact spellsTo_walkW_append hsp hwk
    have hjlt : j < s.phase := by omega
    have hwne : seg s.text j (s.phase - j) ≠ [] :=
      seg_ne_nil (by omega) (by omega)
    obtain ⟨pos, g2, hg2, hposB, hposLen, hseg⟩ :=
      occ_of_walk hD.slotFacts hD.slotU hD.nextU hD.rootNI hw0 hwne
    have hglen : (seg s.text j (s.phase - j)).length = s.phase - j :=
      seg_length_of_le (by omega)
    rw [hglen] at hposLen hseg
    have hg2e : g2 = s.phase := by
      rcases hD.gv with ⟨h1x, _, _, _, _⟩ | ⟨g, hg, hI, _⟩
      · rw [h1x] at hg2; cases hg2
      · have h4 := Option.some.inj (hg2.symm.trans hg)
        have h5 := hI hmode
        omega
    have hposj : pos + 1 ≤ j := by omega
    have htail := seg_tail_eq hseg (by omega) (by omega)
    obtain ⟨x, u, nd, k, eid, ed, hsp1, hnd1, hslot1, hed1, h01, hne1,
      hweq1⟩ := hm2S (pos + 1) hposj
    have hwtip : WalkW s1 0 (x ++ labelOf s1 ed) :=
      m2_tip_walkJ hSF1 hsp1 hnd1 hslot1 hed1
    rw [← hweq1] at hwtip
    have hpre : seg s1.text (pos + 1) (s1.phase - (j + 1)) <+:
        seg s1.text (pos + 1) (s.phase + 1 - (pos + 1)) :=
      seg_prefix_seg s1.text (pos + 1) (by omega)
    have hwpre := walkW_prefix hwtip hpre
    have hfin : seg s1.text (j + 1) (s1.phase - (j + 1))
        = seg s1.text (pos + 1) (s1.phase - (j + 1)) := by
      rw [htext, hphase]
      have he : s.phase - (j + 1) = s.phase - j - 1 := by omega
      rw [he]
      exact htail
    rw [hfin]
    exact hwpre

/-- Everything that holds of the state in the middle of an insertion of
suffix j during phase i = the state's phase: the tree surgery is done,
but the remainder is not yet decremented and the active point not yet
repositioned. -/
structure MidFacts (T : List Nat) (s1 : Ukkonen) (j : Nat) : Prop where
  textEq : s1.text = T ++ [DOLLAR]
  hmode : s1.mode = Mode.inner
  phaseLt : s1.phase < s1.text.length
  rem1 : 1 ≤ s1.remainder
  remB : s1.remainder ≤ (s1.phase : Int) + 1
  hj : (j : Int) = (s1.phase : Int) - s1.remainder + 1
  gv : ∃ g : Nat, gvalOf s1 = some (g : Int) ∧ g = s1.phase
  slotFacts : ∀ v nd k eid ed, lookupL s1.nodes v = some nd →
    lookupL nd.edges k = some (some eid) → lookupL s1.edgeArena eid = some ed →
    EdgeFactsJ s1 j v k ed
  slotOnto : ∀ eid ed, lookupL s1.edgeArena eid = some ed →
    ∃ v nd k, lookupL s1.nodes v = some nd ∧ lookupL nd.edges k = some (some eid)
  slotsValid : ∀ v nd k eid, lookupL s1.nodes v = some nd →
    lookupL nd.edges k = some (some eid) → ∃ ed, lookupL s1.edgeArena eid = some ed
  slotU : SlotUnique s1
  nextU : NextUnique s1
  rootNI : RootNoIncoming s1
  branch2 : ∀ v nd, v ≠ 0 → lookupL s1.nodes v = some nd →
    ∃ k1 k2 e1 e2 ed1 ed2, k1 ≠ k2 ∧ lookupL nd.edges k1 = some (some e1) ∧
      lookupL nd.edges k2 = some (some e2) ∧
      lookupL s1.edgeArena e1 = some ed1 ∧ lookupL s1.edgeArena e2 = some ed2
  m2S : ∀ g : Nat, gvalOf s1 = some (g : Int) → ∀ j2 : Nat, j2 ≤ j →
    ∃ x u nd k eid ed, SpellsTo s1 0 x u ∧ lookupL s1.nodes u = some nd ∧
      lookupL nd.edges k = some (some eid) ∧ lookupL s1.edgeArena eid = some ed ∧
      ed.endId = 0 ∧ labelOf s1 ed ≠ [] ∧
      seg s1.text j2 (g + 1 - j2) = x ++ labelOf s1 ed
  lnkS : ∀ v nd w, lookupL s1.nodes v = some nd → nd.link = some w →
    ∃ q d : Nat, SpellsTo s1 0 (seg s1.text q d) v ∧ q + d ≤ s1.text.length ∧
      SpellsTo s1 0 (seg s1.text (q + 1) (d - 1)) w
  nlS : ∀ v nd, lookupL s1.nodes v = some nd → nd.link = none →
    s1.previous_node = some v
  prevS : ∀ p, s1.previous_node = some p → p ≠ 0 ∧
    SpellsTo s1 0 (seg s1.text j (s1.phase - j)) p
  prevNe : ∀ p, s1.previous_node = some p → p ≠ s1.active_node
  remPrev : s1.remainder = 1 →
    s1.previous_node = none ∧ s1.active_length = 0
  apD : ∃ aLenN : Nat, s1.active_length = (aLenN : Int) ∧
    (aLenN = 0 →
      SpellsTo s1 0 (seg s1.text j (s1.phase - j)) s1.active_node ∧
        j ≤ s1.phase) ∧
    (1 ≤ aLenN → ∃ aeN : Nat, s1.active_edge = some ((aeN : Nat) : Int) ∧
      aeN + aLenN = s1.phase ∧ j ≤ aeN ∧
      SpellsTo s1 0 (seg s1.text j (aeN - j)) s1.active_node ∧
      WalkW s1 s1.active_node (seg s1.text aeN aLenN))
  pendNext : WalkW s1 0 (seg s1.text (j + 1) (s1.phase - (j + 1)))

theorem afterInsert_cases2 {s1 t : Ukkonen} {i : Nat}
    (h : afterInsert s1 i = some t) :
    (s1.active_node = 0 ∧ s1.active_length > 0 ∧
      t = { s1 with
          remainder := s1.remainder - 1,
          active_length := s1.active_length - 1,
          active_edge := some ((i : Int) - (s1.remainder - 1) + 1) }) ∨
    (¬ (s1.active_node = 0 ∧ s1.active_length > 0) ∧
      ∃ nd l, lookupL s1.nodes s1.active_node = some nd ∧ nd.link = some l ∧
        t = { s1 with remainder := s1.remainder - 1, active_node := l }) ∨
    (¬ (s1.active_node = 0 ∧ s1.active_length > 0) ∧
      ∃ nd, lookupL s1.nodes s1.active_node = some nd ∧ nd.link = none ∧
        t = { s1 with remainder := s1.remainder - 1, active_node := 0 }) := by
  unfold afterInsert at h
  dsimp only at h
  split at h
  · rename_i hcond
    exact Or.inl ⟨hcond.1, hcond.2, (Option.some.inj h).symm⟩
  · rename_i hcond
    split at h
    · cases h
    · rename_i nd hnd
      split at h
      · rename_i l hl
        exact Or.inr (Or.inl ⟨hcond, nd, l, hnd, hl, (Option.some.inj h).symm⟩)
      · rename_i hl
        exact Or.inr (Or.inr ⟨hcond, nd, hnd, hl, (Option.some.inj h).symm⟩)

/-- Active-point state after step g when the active node is the root with
positive active length. -/
def aiRoot (s1 : Ukkonen) : Ukkonen :=
  { s1 with
    remainder := s1.remainder - 1,
    active_length := s1.active_length - 1,
    active_edge := some ((s1.phase : Int) - (s1.remainder - 1) + 1) }

/-- Active-point state after step g when the suffix link is followed. -/
def aiLink (s1 : Ukkonen) (l : Nat) : Ukkonen :=
  { s1 with remainder := s1.remainder - 1, active_node := l }

theorem deep_afterInsert {T : List Nat} {s1 t : Ukkonen} {j : Nat}
    (hM : MidFacts T s1 j) (h : afterInsert s1 s1.phase = some t) :
    Deep T t := by
  obtain ⟨aLenN, hal, h0c, h1c⟩ := hM.apD
  have hj := hM.hj
  have hrem1 := hM.rem1
  have hremB := hM.remB
  have hph := hM.phaseLt
  obtain ⟨g0, hg0, hg0v⟩ := hM.gv
  rcases afterInsert_cases2 h with ⟨hroot, hpos, ht⟩ |
    ⟨hng, nd, l, hnd, hl, ht⟩ | ⟨hng, nd, hnd, hl, ht⟩
  · -- root with positive active length
    subst ht
    show Deep T (aiRoot s1)
    have hle : TreeLe s1 (aiRoot s1) := treeLe_of_eq rfl rfl rfl rfl
    have htM : (aiRoot s1).mode = Mode.inner := hM.hmode
    have hins1 : insBound (aiRoot s1) = (j : Int) := by
      unfold insBound
      rw [if_pos htM]
      show (s1.phase : Int) - (s1.remainder - 1) = (j : Int)
      omega
    have hjs1 : jStar (aiRoot s1) = j + 1 := by
      unfold jStar
      rw [hins1]
      omega
    have h1 : 1 ≤ aLenN := by
      rw [hal] at hpos
      omega
    obtain ⟨aeN, hae, haep, hjae, hspA, hwkA⟩ := h1c h1
    have hspn : seg s1.text j (aeN - j) = [] := by
      rw [hroot] at hspA
      exact spellsTo_root_nil hM.rootNI hspA
    have haej : aeN = j := by
      have hlen := congrArg List.length hspn
      rw [seg_length_of_le (by omega)] at hlen
      simp at hlen
      omega
    refine ⟨hM.textEq, ?_, le_of_lt hph, fun _ => hph, ?_, ?_, ?_, ?_,
      hM.slotOnto, hM.slotsValid, hM.slotU, hM.nextU, hM.rootNI, hM.branch2,
      ?_, ?_, ?_,
      ?_, ?_⟩
    · exact Or.inr ⟨g0, hg0, fun _ => hg0v, fun hni => absurd htM hni⟩
    · intro _
      constructor
      · show (0 : Int) ≤ s1.remainder - 1
        omega
      · show s1.remainder - 1 ≤ (s1.phase : Int) + 1
        omega
    · exact fun hni => absurd htM hni
    · intro _ h0
      exfalso
      have h02 : s1.remainder - 1 = 0 := h0
      have hr1 : s1.remainder = 1 := by omega
      have := (hM.remPrev hr1).2
      rw [hal] at this
      omega
    · intro v nd2 k2 eid2 ed2 hnd2 hslot2 hed2
      exact edgeFacts_of_J hle rfl rfl rfl (le_of_eq hins1.symm)
        (fun w ndw h2 => ⟨ndw, h2⟩) (labelOf_congr rfl rfl ed2)
        (hM.slotFacts v nd2 k2 eid2 ed2 hnd2 hslot2 hed2)
    · intro g hg j2 hj2
      rw [hins1] at hj2
      have hj2n : j2 ≤ j := by omega
      obtain ⟨x, u, nd2, k2, eid2, ed2, hsp, hnd2, hslot2, hed2, h0, hne,
        hweq⟩ := hM.m2S g hg j2 hj2n
      exact ⟨x, u, nd2, k2, eid2, ed2, spellsTo_mono hle hsp, hnd2, hslot2,
        hed2, h0, hne, hweq⟩
    · refine ⟨aLenN - 1, ?_, ?_, ?_⟩
      · show s1.active_length - 1 = ((aLenN - 1 : Nat) : Int)
        rw [hal]
        omega
      · intro h0
        rw [hjs1]
        show SpellsTo _ 0 (seg s1.text (j + 1) (s1.phase - (j + 1)))
          s1.active_node
        rw [hroot]
        have hz : s1.phase - (j + 1) = 0 := by omega
        rw [hz]
        exact SpellsTo.nil 0
      · intro h1x
        refine ⟨j + 1, ?_, ?_, ?_, ?_, ?_⟩
        · show some ((s1.phase : Int) - (s1.remainder - 1) + 1)
            = some ((j + 1 : Nat) : Int)
          congr 1
          omega
        · show j + 1 + (aLenN - 1) = s1.phase
          omega
        · rw [hjs1]
        · rw [hjs1]
          show SpellsTo _ 0 (seg s1.text (j + 1) (j + 1 - (j + 1)))
            s1.active_node
          rw [hroot, Nat.sub_self]
          exact SpellsTo.nil 0
        · show WalkW _ s1.active_node (seg s1.text (j + 1) (aLenN - 1))
          rw [hroot]
          have hw : s1.phase - (j + 1) = aLenN - 1 := by omega
          rw [← hw]
          exact walkW_mono hle hM.pendNext
    · intro v nd2 w2 hnd2 hlnk
      obtain ⟨q2, d2, h1x, h2x, h3x⟩ := hM.lnkS v nd2 w2 hnd2 hlnk
      exact ⟨q2, d2, spellsTo_mono hle h1x, h2x, spellsTo_mono hle h3x⟩
    · intro v nd2 hnd2 hln
      exact ⟨htM, hM.nlS v nd2 hnd2 hln⟩
    · intro _ p hp
      obtain ⟨hp0, hsp⟩ := hM.prevS p hp
      refine ⟨hp0, by rw [hjs1]; omega, ?_⟩
      rw [hjs1, Nat.add_sub_cancel]
      exact spellsTo_mono hle hsp
  · -- follow the suffix link
    subst ht
    show Deep T (aiLink s1 l)
    have hle : TreeLe s1 (aiLink s1 l) := treeLe_of_eq rfl rfl rfl rfl
    have htM : (aiLink s1 l).mode = Mode.inner := hM.hmode
    have hins1 : insBound (aiLink s1 l) = (j : Int) := by
      unfold insBound
      rw [if_pos htM]
      show (s1.phase : Int) - (s1.remainder - 1) = (j : Int)
      omega
    have hjs1 : jStar (aiLink s1 l) = j + 1 := by
      unfold jStar
      rw [hins1]
      omega
    obtain ⟨q2, d2, hqv, hqdlen, hqtail⟩ := hM.lnkS s1.active_node nd l hnd hl
    refine ⟨hM.textEq, ?_, le_of_lt hph, fun _ => hph, ?_, ?_, ?_, ?_,
      hM.slotOnto, hM.slotsValid, hM.slotU, hM.nextU, hM.rootNI, hM.branch2,
      ?_, ?_, ?_,
      ?_, ?_⟩
    · exact Or.inr ⟨g0, hg0, fun _ => hg0v, fun hni => absurd htM hni⟩
    · intro _
      constructor
      · show (0 : Int) ≤ s1.remainder - 1
        omega
      · show s1.remainder - 1 ≤ (s1.phase : Int) + 1
        omega
    · exact fun hni => absurd htM hni
    · intro _ h0
      have h02 : s1.remainder - 1 = 0 := h0
      have hr1 : s1.remainder = 1 := by omega
      obtain ⟨hprev0, halen0⟩ := hM.remPrev hr1
      exact ⟨halen0, hprev0⟩
    · intro v nd2 k2 eid2 ed2 hnd2 hslot2 hed2
      exact edgeFacts_of_J hle rfl rfl rfl (le_of_eq hins1.symm)
        (fun w ndw h2 => ⟨ndw, h2⟩) (labelOf_congr rfl rfl ed2)
        (hM.slotFacts v nd2 k2 eid2 ed2 hnd2 hslot2 hed2)
    · intro g hg j2 hj2
      rw [hins1] at hj2
      have hj2n : j2 ≤ j := by omega
      obtain ⟨x, u, nd2, k2, eid2, ed2, hsp, hnd2, hslot2, hed2, h0, hne,
        hweq⟩ := hM.m2S g hg j2 hj2n
      exact ⟨x, u, nd2, k2, eid2, ed2, spellsTo_mono hle hsp, hnd2, hslot2,
        hed2, h0, hne, hweq⟩
    · refine ⟨aLenN, ?_, ?_, ?_⟩
      · show s1.active_length = ((aLenN : Nat) : Int)
        exact hal
      · intro h0
        obtain ⟨hsp0, hjle⟩ := h0c h0
        have hWeq : seg s1.text q2 d2 = seg s1.text j (s1.phase - j) :=
          spellsTo_unique hM.slotU hM.nextU hM.rootNI hqv hsp0
        have htails := seg_tail_eq hWeq hqdlen (by omega)
        rw [hjs1]
        show SpellsTo _ 0 (seg s1.text (j + 1)
          (s1.phase - (j + 1))) l
        have he2 : s1.phase - j - 1 = s1.phase - (j + 1) := by omega
        rw [he2] at htails
        rw [← htails]
        exact spellsTo_mono hle hqtail
      · intro h1x
        obtain ⟨aeN, hae, haep, hjae, hspA, hwkA⟩ := h1c h1x
        have hanne : s1.active_node ≠ 0 := by
          intro hc
          apply hng
          refine ⟨hc, ?_⟩
          rw [hal]
          omega
        have hwne : seg s1.text j (aeN - j) ≠ [] := by
          intro hc
          rw [hc] at hspA
          exact hanne (spellsTo_nil_inv hspA).symm
        have haejc : j + 1 ≤ aeN := by
          by_contra hcc
          apply hwne
          have : aeN - j = 0 := by omega
          rw [this]
          rfl
        have hWeq : seg s1.text q2 d2 = seg s1.text j (aeN - j) :=
          spellsTo_unique hM.slotU hM.nextU hM.rootNI hqv hspA
        have htails := seg_tail_eq hWeq hqdlen (by omega)
        have he2 : aeN - j - 1 = aeN - (j + 1) := by omega
        rw [he2] at htails
        have hsplit : seg s1.text (j + 1) (s1.phase - (j + 1))
            = seg s1.text (j + 1) (aeN - (j + 1)) ++ seg s1.text aeN aLenN := by
          have h6 : s1.phase - (j + 1) = (aeN - (j + 1)) + aLenN := by omega
          rw [h6, seg_add]
          have h7 : j + 1 + (aeN - (j + 1)) = aeN := by omega
          rw [h7]
        have hwkl : WalkW s1 l (seg s1.text aeN aLenN) := by
          apply spellsTo_walk_decomp (htails ▸ hqtail)
          rw [← hsplit]
          exact hM.pendNext
        refine ⟨aeN, ?_, ?_, ?_, ?_, ?_⟩
        · show s1.active_edge = some ((aeN : Nat) : Int)
          exact hae
        · show aeN + aLenN = s1.phase
          exact haep
        · rw [hjs1]
          exact haejc
        · rw [hjs1]
          show SpellsTo _ 0 (seg s1.text (j + 1) (aeN - (j + 1))) l
          rw [← htails]
          exact spellsTo_mono hle hqtail
        · show WalkW _ l (seg s1.text aeN aLenN)
          exact walkW_mono hle hwkl
    · intro v nd2 w2 hnd2 hlnk
      obtain ⟨q3, d3, h1x, h2x, h3x⟩ := hM.lnkS v nd2 w2 hnd2 hlnk
      exact ⟨q3, d3, spellsTo_mono hle h1x, h2x, spellsTo_mono hle h3x⟩
    · intro v nd2 hnd2 hln
      exact ⟨htM, hM.nlS v nd2 hnd2 hln⟩
    · intro _ p hp
      obtain ⟨hp0, hsp⟩ := hM.prevS p hp
      refine ⟨hp0, by rw [hjs1]; omega, ?_⟩
      rw [hjs1, Nat.add_sub_cancel]
      exact spellsTo_mono hle hsp
  · -- absent suffix link: impossible by the previous-node protocol
    exfalso
    have hpv := hM.nlS s1.active_node nd hnd hl
    exact hM.prevNe s1.active_node hpv rfl

theorem lookupL_append_length {α : Type} :
    ∀ (l : List α) (a : α), lookupL (l ++ [a]) l.length = some a := by
  intro l a
  induction l with
  | nil => rfl
  | cons x xs ih =>
    show lookupL (x :: (xs ++ [a])) (xs.length + 1) = some a
    rw [lookupL_cons_succ]
    exact ih

theorem gvalOf_cell {s : Ukkonen} {g : Int} (h : gvalOf s = some g) :
    ∃ ec, lookupL s.ends 0 = some ec ∧ ec.value = some g := by
  unfold gvalOf at h
  split at h
  · rename_i ec hec
    exact ⟨ec, hec, h⟩
  · cases h

/-- The new open leaf edge created by rule 2 in the current phase. -/
def r2Edge (s : Ukkonen) : Edge :=
  { start := ((s.phase : Nat) : Int), endId := 0, next := none,
    suffix_id := some (((s.phase : Nat) : Int) - s.remainder + 1) }

/-- State in the middle of a rule-2 leaf insertion, after the tree surgery
and the suffix-link write (nodesF is the node arena after both). -/
def r2State (s : Ukkonen) (ae : Int) (c0 : Nat) (nodesF : List Node) :
    Ukkonen :=
  { s with active_edge := some ae,
           idxLog := slotIdx c0 :: slotIdx c0 :: s.idxLog,
           edgeArena := s.edgeArena ++ [r2Edge s],
           nodes := nodesF,
           previous_node := none }

theorem rule2Mid {T : List Nat} {s : Ukkonen} {char c0 : Nat} {ae : Int}
    {nd : Node} {tbl : List (Option Nat)} {nodes1 nodesF : List Node}
    (hT : validText T) (hD : Deep T s)
    (hmode : s.mode = Mode.inner) (hrem : s.remainder > 0)
    (hchar : lookupL s.text s.phase = some char)
    (hres : (if s.active_length = 0 then some ((s.phase : Nat) : Int)
      else s.active_edge) = some ae)
    (hc0 : pyGet s.text ae = some c0)
    (hnd : lookupL s.nodes s.active_node = some nd)
    (hslotG : pyGet nd.edges (slotIdx c0) = some none)
    (htbl : pySet nd.edges (slotIdx c0) (some s.edgeArena.length) = some tbl)
    (hnodes1 : asetL s.nodes s.active_node { nd with edges := tbl }
      = some nodes1)
    (hNF : ∀ v ndv, lookupL nodesF v = some ndv →
      ∃ ndv1, lookupL nodes1 v = some ndv1 ∧ ndv.edges = ndv1.edges)
    (hNFf : ∀ v ndv1, lookupL nodes1 v = some ndv1 →
      ∃ ndv, lookupL nodesF v = some ndv ∧ ndv.edges = ndv1.edges)
    (hlinkNone : ∀ v ndv, lookupL nodesF v = some ndv → ndv.link = none →
      False)
    (hlinkS : ∀ v ndv w, lookupL nodesF v = some ndv → ndv.link = some w →
      (∃ ndv0, lookupL s.nodes v = some ndv0 ∧ ndv0.link = some w) ∨
      (w = s.active_node ∧ s.previous_node = some v)) :
    MidFacts T (r2State s ae c0 nodesF) (jStar s) := by
  have hph := hD.phaseLt hmode
  have hrB := hD.remB1 hmode
  have hc0r := text_range hT hD.textEq (pyGet_mem hc0)
  have hslotL : lookupL nd.edges (slotN c0) = some none := by
    rw [← slotIdx_toNat hc0r.1, ← pyGet_nonneg (slotIdx_nonneg hc0r.1)]
    exact hslotG
  obtain ⟨aLenN, hal, h0c, h1c⟩ := hD.ap
  have haln0 : aLenN = 0 := by
    by_contra hne0
    obtain ⟨aeN, hae, haep, hjae, hsp, hwk⟩ := h1c (by omega)
    have haeLk : lookupL s.text aeN = some c0 := by
      have hrae : ae = ((aeN : Nat) : Int) := by
        rw [if_neg (by rw [hal]; omega : ¬ s.active_length = 0)] at hres
        exact (Option.some.inj (hae.symm.trans hres)).symm
      rw [hrae, pyGet_nonneg (by omega), toNat_cast] at hc0
      exact hc0
    have hhead : (seg s.text aeN aLenN).head? = some c0 :=
      seg_head haeLk (by omega)
    obtain ⟨nd2, eid2, ed2, hnd2, hslot2, hed2⟩ := walkW_first_edge hwk hhead
    have hnde : nd2 = nd := Option.some.inj (hnd2.symm.trans hnd)
    rw [hnde, hslotL] at hslot2
    cases Option.some.inj hslot2
  have hal0 : s.active_length = 0 := by
    rw [hal, haln0]
    rfl
  have hae_ph : ae = ((s.phase : Nat) : Int) := by
    rw [if_pos hal0] at hres
    exact (Option.some.inj hres).symm
  have hc0char : c0 = char := by
    rw [hae_ph, pyGet_nonneg (by omega), toNat_cast] at hc0
    exact Option.some.inj (hc0.symm.trans hchar)
  have hchar36 : 36 ≤ char := by
    have h1 := hc0r.1
    omega
  have hib : insBound s = (s.phase : Int) - s.remainder := by
    unfold insBound
    rw [if_pos hmode]
  have hjv : ((jStar s : Nat) : Int) = insBound s + 1 := by
    unfold jStar
    omega
  have hjle : jStar s ≤ s.phase := by omega
  have hsp0 : SpellsTo s 0 (seg s.text (jStar s) (s.phase - jStar s))
      s.active_node := h0c haln0
  have hgv1 : gvalOf s = some ((s.phase : Nat) : Int) := by
    rcases hD.gv with ⟨h1x, _, _, _, h5x⟩ | ⟨g, hg, hI, _⟩
    · rw [hmode] at h5x
      cases h5x
    · rw [hg, hI hmode]
  obtain ⟨ec0, hec0, hval0⟩ := gvalOf_cell hgv1
  obtain ⟨hklt, htbl2⟩ := pySet_nonneg_some (slotIdx_nonneg hc0r.1) htbl
  rw [slotIdx_toNat hc0r.1] at htbl2
  have hkltN : slotN c0 < nd.edges.length := by
    have h1 := slotIdx_nonneg hc0r.1
    have h2 := slotIdx_toNat hc0r.1
    omega
  obtain ⟨haNlt, hnodes1E⟩ := asetL_eq_some hnodes1
  have hlookA : lookupL nodes1 s.active_node
      = some { nd with edges := tbl } := by
    rw [hnodes1E]
    exact lookupL_setL_self haNlt
  have hlookO : ∀ v, v ≠ s.active_node →
      lookupL nodes1 v = lookupL s.nodes v := by
    intro v hv
    rw [hnodes1E]
    exact lookupL_setL_ne hv
  have htblSelf : lookupL tbl (slotN c0) = some (some s.edgeArena.length) := by
    rw [htbl2]
    exact lookupL_setL_self hkltN
  have htblNe : ∀ k, k ≠ slotN c0 → lookupL tbl k = lookupL nd.edges k := by
    intro k hk
    rw [htbl2]
    exact lookupL_setL_ne hk
  have hlookNew : lookupL (r2State s ae c0 nodesF).edgeArena
      s.edgeArena.length = some (r2Edge s) :=
    lookupL_append_length s.edgeArena (r2Edge s)
  have hlookOldE : ∀ e : Nat, e < s.edgeArena.length →
      lookupL (r2State s ae c0 nodesF).edgeArena e = lookupL s.edgeArena e :=
    fun e he => lookupL_append_lt [r2Edge s] he
  have harenaCases : ∀ (e2 : Nat) (ed2 : Edge),
      lookupL (r2State s ae c0 nodesF).edgeArena e2 = some ed2 →
      (e2 < s.edgeArena.length ∧ lookupL s.edgeArena e2 = some ed2) ∨
      (e2 = s.edgeArena.length ∧ ed2 = r2Edge s) := by
    intro e2 ed2 hed2
    have hlt := lookupL_some_lt hed2
    have hlen : (r2State s ae c0 nodesF).edgeArena.length
        = s.edgeArena.length + 1 := by
      show (s.edgeArena ++ [r2Edge s]).length = s.edgeArena.length + 1
      rw [List.length_append, List.length_singleton]
    rw [hlen] at hlt
    by_cases hcase : e2 < s.edgeArena.length
    · left
      refine ⟨hcase, ?_⟩
      rw [← lookupL_append_lt [r2Edge s] hcase]
      exact hed2
    · right
      have he : e2 = s.edgeArena.length := by omega
      subst he
      exact ⟨rfl, Option.some.inj (hed2.symm.trans hlookNew)⟩
  have hbackF : ∀ v ndv, lookupL nodesF v = some ndv →
      (v = s.active_node ∧ ndv.edges = tbl) ∨
      (v ≠ s.active_node ∧ ∃ ndv0, lookupL s.nodes v = some ndv0 ∧
        ndv.edges = ndv0.edges) := by
    intro v ndv hv
    obtain ⟨nd1, hnd1, hE⟩ := hNF v ndv hv
    by_cases hva : v = s.active_node
    · subst hva
      rw [hlookA] at hnd1
      left
      refine ⟨rfl, ?_⟩
      rw [hE, ← Option.some.inj hnd1]
    · right
      rw [hlookO v hva] at hnd1
      exact ⟨hva, nd1, hnd1, hE⟩
  have hslotF : ∀ v nd1 k e2, lookupL nodes1 v = some nd1 →
      lookupL nd1.edges k = some (some e2) →
      ∃ nd2, lookupL nodesF v = some nd2 ∧
        lookupL nd2.edges k = some (some e2) := by
    intro v nd1 k e2 h1 h2
    obtain ⟨nd2, h3, h4⟩ := hNFf v nd1 h1
    refine ⟨nd2, h3, ?_⟩
    rw [h4]
    exact h2
  have hslotBack : ∀ v ndv k e2, lookupL nodesF v = some ndv →
      lookupL ndv.edges k = some (some e2) →
      (v = s.active_node ∧ k = slotN c0 ∧ e2 = s.edgeArena.length) ∨
      (∃ ndv0, lookupL s.nodes v = some ndv0 ∧
        lookupL ndv0.edges k = some (some e2)) := by
    intro v ndv k e2 hv hk
    rcases hbackF v ndv hv with ⟨hva, hE⟩ | ⟨hva, ndv0, h0, hE⟩
    · rw [hE] at hk
      by_cases hkc : k = slotN c0
      · subst hkc
        rw [htblSelf] at hk
        exact Or.inl ⟨hva, rfl, (Option.some.inj (Option.some.inj hk)).symm⟩
      · rw [htblNe k hkc] at hk
        subst hva
        exact Or.inr ⟨nd, hnd, hk⟩
    · rw [hE] at hk
      exact Or.inr ⟨ndv0, h0, hk⟩
  have hfresh : ∀ v ndv0 k, lookupL s.nodes v = some ndv0 →
      lookupL ndv0.edges k = some (some s.edgeArena.length) → False := by
    intro v ndv0 k h1 h2
    obtain ⟨ed2, hed2⟩ := hD.slotsValid v ndv0 k s.edgeArena.length h1 h2
    have := lookupL_some_lt hed2
    omega
  have hle : TreeLe s (r2State s ae c0 nodesF) := by
    refine ⟨?_, ?_, ?_, ?_⟩
    · intro v ndv k e2 hv hk
      by_cases hva : v = s.active_node
      · subst hva
        have hnde : ndv = nd := Option.some.inj (hv.symm.trans hnd)
        subst hnde
        by_cases hkc : k = slotN c0
        · subst hkc
          rw [hslotL] at hk
          cases Option.some.inj hk
        · have h2 : lookupL tbl k = some (some e2) := by
            rw [htblNe k hkc]
            exact hk
          exact hslotF s.active_node { ndv with edges := tbl } k e2 hlookA h2
      · have h1 : lookupL nodes1 v = some ndv := by
          rw [hlookO v hva]
          exact hv
        exact hslotF v ndv k e2 h1 hk
    · intro e2 ed2 hed2
      have hlt := lookupL_some_lt hed2
      rw [hlookOldE e2 hlt]
      exact hed2
    · intro e2 ed2 w hed2 _
      exact labelOf_congr rfl rfl ed2
    · intro e2 ed2 hed2
      have hlc : labelOf (r2State s ae c0 nodesF) ed2 = labelOf s ed2 :=
        labelOf_congr rfl rfl ed2
      rw [hlc]
  have hnodesW : ∀ w ndw, lookupL s.nodes w = some ndw →
      ∃ ndw2, lookupL nodesF w = some ndw2 := by
    intro w ndw hw
    by_cases hwa : w = s.active_node
    · subst hwa
      obtain ⟨nd2, h3, _⟩ := hNFf s.active_node _ hlookA
      exact ⟨nd2, h3⟩
    · obtain ⟨nd2, h3, _⟩ := hNFf w ndw (by rw [hlookO w hwa]; exact hw)
      exact ⟨nd2, h3⟩
  have hlabNew : labelOf (r2State s ae c0 nodesF) (r2Edge s)
      = seg s.text s.phase 1 := by
    refine labelOf_eq (show lookupL s.ends 0 = some ec0 from hec0) ?_ rfl
    rw [hval0]
    congr 1
    omega
  have hSF1 : ∀ v ndv k e2 ed2,
      lookupL (r2State s ae c0 nodesF).nodes v = some ndv →
      lookupL ndv.edges k = some (some e2) →
      lookupL (r2State s ae c0 nodesF).edgeArena e2 = some ed2 →
      EdgeFactsJ (r2State s ae c0 nodesF) (jStar s) v k ed2 := by
    intro v ndv k e2 ed2 hv hk hed2
    rcases harenaCases e2 ed2 hed2 with ⟨hltE, holdE⟩ | ⟨heqE, hnewE⟩
    · rcases hslotBack v ndv k e2 hv hk with ⟨_, _, heF⟩ | ⟨ndv0, h0, hk0⟩
      · exact absurd heF (by omega)
      · exact edgeFactsJ_mono hle rfl rfl rfl (by omega) hnodesW
          (labelOf_congr rfl rfl ed2) (hD.slotFacts v ndv0 k e2 ed2 h0 hk0 holdE)
    · subst heqE
      subst hnewE
      rcases hslotBack v ndv k s.edgeArena.length hv hk with
        ⟨hva, hkc, _⟩ | ⟨ndv0, h0, hk0⟩
      · subst hva
        subst hkc
        refine ⟨s.phase, 1, jStar s, s.phase - jStar s, rfl, le_refl 1,
          ?_, ?_, ?_, ?_, ?_, ?_, ?_, ?_, ?_⟩
        · show s.phase + 1 ≤ s.text.length
          omega
        · exact hlabNew
        · refine ⟨char, hchar, ?_, hchar36⟩
          rw [hc0char]
        · refine ⟨ec0, hec0, ?_⟩
          rw [hval0]
          congr 1
          omega
        · intro _
          refine ⟨rfl, ?_⟩
          show some (((s.phase : Nat) : Int) - s.remainder + 1)
            = some ((jStar s : Nat) : Int)
          congr 1
          omega
        · intro hne
          exact absurd rfl hne
        · exact spellsTo_mono hle hsp0
        · show jStar s + (s.phase - jStar s) = s.phase
          omega
        · exact le_refl (jStar s)
      · exact (hfresh v ndv0 k h0 hk0).elim
  have hm2S : ∀ j2 : Nat, j2 ≤ jStar s →
      ∃ x u ndu k e2 ed2, SpellsTo (r2State s ae c0 nodesF) 0 x u ∧
        lookupL (r2State s ae c0 nodesF).nodes u = some ndu ∧
        lookupL ndu.edges k = some (some e2) ∧
        lookupL (r2State s ae c0 nodesF).edgeArena e2 = some ed2 ∧
        ed2.endId = 0 ∧ labelOf (r2State s ae c0 nodesF) ed2 ≠ [] ∧
        seg (r2State s ae c0 nodesF).text j2 (s.phase + 1 - j2)
          = x ++ labelOf (r2State s ae c0 nodesF) ed2 := by
    intro j2 hj2
    by_cases hjeq : j2 = jStar s
    · subst hjeq
      obtain ⟨ndA, hndA, hEA⟩ := hNFf s.active_node _ hlookA
      refine ⟨seg s.text (jStar s) (s.phase - jStar s), s.active_node, ndA,
        slotN c0, s.edgeArena.length, r2Edge s, spellsTo_mono hle hsp0,
        hndA, ?_, hlookNew, rfl, ?_, ?_⟩
      · rw [hEA]
        exact htblSelf
      · rw [hlabNew]
        exact seg_ne_nil (le_refl 1) (by omega)
      · rw [hlabNew]
        show seg s.text (jStar s) (s.phase + 1 - jStar s)
          = seg s.text (jStar s) (s.phase - jStar s) ++ seg s.text s.phase 1
        rw [show s.phase + 1 - jStar s = (s.phase - jStar s) + 1 from by omega,
          seg_add,
          show jStar s + (s.phase - jStar s) = s.phase from by omega]
    · have hj2b : (j2 : Int) ≤ insBound s := by omega
      obtain ⟨x, u, ndu, k, e2, ed2, hsp, hndu, hslot, hed2, h0, hne, hweq⟩ :=
        hD.m2 s.phase hgv1 j2 hj2b
      have hed2lt := lookupL_some_lt hed2
      have hed2M : lookupL (r2State s ae c0 nodesF).edgeArena e2
          = some ed2 := by
        rw [hlookOldE e2 hed2lt]
        exact hed2
      obtain ⟨ndu2, hndu2, hslot2⟩ := hle.slots u ndu k e2 hndu hslot
      refine ⟨x, u, ndu2, k, e2, ed2, spellsTo_mono hle hsp, hndu2, hslot2,
        hed2M, h0, ?_, ?_⟩
      · rw [labelOf_congr rfl rfl ed2]
        exact hne
      · rw [labelOf_congr rfl rfl ed2]
        exact hweq
  have hpend : WalkW (r2State s ae c0 nodesF) 0
      (seg (r2State s ae c0 nodesF).text (jStar s + 1)
        ((r2State s ae c0 nodesF).phase - (jStar s + 1))) :=
    pend_next_mid hD hmode hjv rfl rfl hSF1 hm2S
  have hOnto : ∀ e2 ed2,
      lookupL (r2State s ae c0 nodesF).edgeArena e2 = some ed2 →
      ∃ v ndv k, lookupL (r2State s ae c0 nodesF).nodes v = some ndv ∧
        lookupL ndv.edges k = some (some e2) := by
    intro e2 ed2 hed2
    rcases harenaCases e2 ed2 hed2 with ⟨hltE, holdE⟩ | ⟨heqE, _⟩
    · obtain ⟨v, ndv, k, hv, hk⟩ := hD.slotOnto e2 ed2 holdE
      obtain ⟨nd2, h3, h4⟩ := hle.slots v ndv k e2 hv hk
      exact ⟨v, nd2, k, h3, h4⟩
    · subst heqE
      obtain ⟨ndA, hndA, hEA⟩ := hNFf s.active_node _ hlookA
      refine ⟨s.active_node, ndA, slotN c0, hndA, ?_⟩
      rw [hEA]
      exact htblSelf
  have hVal : ∀ v ndv k e2,
      lookupL (r2State s ae c0 nodesF).nodes v = some ndv →
      lookupL ndv.edges k = some (some e2) →
      ∃ ed2, lookupL (r2State s ae c0 nodesF).edgeArena e2 = some ed2 := by
    intro v ndv k e2 hv hk
    rcases hslotBack v ndv k e2 hv hk with ⟨_, _, he⟩ | ⟨ndv0, h0, hk0⟩
    · subst he
      exact ⟨r2Edge s, hlookNew⟩
    · obtain ⟨ed2, hed2⟩ := hD.slotsValid v ndv0 k e2 h0 hk0
      exact ⟨ed2, hle.arena e2 ed2 hed2⟩
  have hU : SlotUnique (r2State s ae c0 nodesF) := by
    intro v1 k1 nd1 v2 k2 nd2 e h1 h2 h3 h4
    rcases hslotBack v1 nd1 k1 e h1 h2 with ⟨hva1, hkc1, he1⟩ | ⟨nd10, h10, h20⟩
    · rcases hslotBack v2 nd2 k2 e h3 h4 with
        ⟨hva2, hkc2, _⟩ | ⟨nd20, h30, h40⟩
      · exact ⟨hva1.trans hva2.symm, hkc1.trans hkc2.symm⟩
      · subst he1
        exact (hfresh v2 nd20 k2 h30 h40).elim
    · rcases hslotBack v2 nd2 k2 e h3 h4 with
        ⟨hva2, hkc2, he2⟩ | ⟨nd20, h30, h40⟩
      · subst he2
        exact (hfresh v1 nd10 k1 h10 h20).elim
      · exact hD.slotU v1 k1 nd10 v2 k2 nd20 e h10 h20 h30 h40
  have hNx : NextUnique (r2State s ae c0 nodesF) := by
    intro e1 ed1 e2 ed2 w h1 h2 hn1 hn2
    rcases harenaCases e1 ed1 h1 with ⟨hlt1, hold1⟩ | ⟨_, hnew1⟩
    · rcases harenaCases e2 ed2 h2 with ⟨hlt2, hold2⟩ | ⟨_, hnew2⟩
      · exact hD.nextU e1 ed1 e2 ed2 w hold1 hold2 hn1 hn2
      · rw [hnew2] at hn2
        exact Option.noConfusion hn2
    · rw [hnew1] at hn1
      exact Option.noConfusion hn1
  have hRt : RootNoIncoming (r2State s ae c0 nodesF) := by
    intro e2 ed2 hed2 hc
    rcases harenaCases e2 ed2 hed2 with ⟨hltE, holdE⟩ | ⟨_, hnewE⟩
    · exact hD.rootNI e2 ed2 holdE hc
    · rw [hnewE] at hc
      exact Option.noConfusion hc
  have hB2 : ∀ v ndv, v ≠ 0 →
      lookupL (r2State s ae c0 nodesF).nodes v = some ndv →
      ∃ k1 k2 e1 e2 ed1 ed2, k1 ≠ k2 ∧
        lookupL ndv.edges k1 = some (some e1) ∧
        lookupL ndv.edges k2 = some (some e2) ∧
        lookupL (r2State s ae c0 nodesF).edgeArena e1 = some ed1 ∧
        lookupL (r2State s ae c0 nodesF).edgeArena e2 = some ed2 := by
    intro v ndv hv0 hv
    rcases hbackF v ndv hv with ⟨hva, hE⟩ | ⟨hva, ndv0, h0, hE⟩
    · subst hva
      obtain ⟨k1, k2, e1, e2, ed1, ed2, hk12, hs1, hs2, he1, he2⟩ :=
        hD.branch2 s.active_node nd hv0 hnd
      have hk1c : k1 ≠ slotN c0 := by
        intro hc
        rw [hc, hslotL] at hs1
        cases Option.some.inj hs1
      have hk2c : k2 ≠ slotN c0 := by
        intro hc
        rw [hc, hslotL] at hs2
        cases Option.some.inj hs2
      refine ⟨k1, k2, e1, e2, ed1, ed2, hk12, ?_, ?_,
        hle.arena e1 ed1 he1, hle.arena e2 ed2 he2⟩
      · rw [hE, htblNe k1 hk1c]
        exact hs1
      · rw [hE, htblNe k2 hk2c]
        exact hs2
    · obtain ⟨k1, k2, e1, e2, ed1, ed2, hk12, hs1, hs2, he1, he2⟩ :=
        hD.branch2 v ndv0 hv0 h0
      refine ⟨k1, k2, e1, e2, ed1, ed2, hk12, ?_, ?_,
        hle.arena e1 ed1 he1, hle.arena e2 ed2 he2⟩
      · rw [hE]
        exact hs1
      · rw [hE]
        exact hs2
  have hlnkM : ∀ v ndv w,
      lookupL (r2State s ae c0 nodesF).nodes v = some ndv →
      ndv.link = some w →
      ∃ q d : Nat,
        SpellsTo (r2State s ae c0 nodesF) 0
          (seg (r2State s ae c0 nodesF).text q d) v ∧
        q + d ≤ (r2State s ae c0 nodesF).text.length ∧
        SpellsTo (r2State s ae c0 nodesF) 0
          (seg (r2State s ae c0 nodesF).text (q + 1) (d - 1)) w := by
    intro v ndv w hv hw
    rcases hlinkS v ndv w hv hw with ⟨ndv0, h0, hl0⟩ | ⟨hwA, hpv⟩
    · obtain ⟨q, d, h1, h2, h3⟩ := hD.lnk v ndv0 w h0 hl0
      exact ⟨q, d, spellsTo_mono hle h1, h2, spellsTo_mono hle h3⟩
    · obtain ⟨hv0, hjs1, hspP⟩ := hD.prevSp hmode v hpv
      refine ⟨jStar s - 1, s.phase - (jStar s - 1),
        spellsTo_mono hle hspP,
        by show jStar s - 1 + (s.phase - (jStar s - 1)) ≤ s.text.length
           omega, ?_⟩
      subst hwA
      have he1 : jStar s - 1 + 1 = jStar s := by omega
      have he2 : s.phase - (jStar s - 1) - 1 = s.phase - jStar s := by omega
      show SpellsTo (r2State s ae c0 nodesF) 0
        (seg s.text (jStar s - 1 + 1) (s.phase - (jStar s - 1) - 1))
        s.active_node
      rw [he1, he2]
      exact spellsTo_mono hle hsp0
  refine ⟨hD.textEq, hmode, hph, ?_, ?_, ?_, ⟨s.phase, hgv1, rfl⟩, hSF1,
    hOnto, hVal, hU, hNx, hRt, hB2, ?_, hlnkM, ?_,
    fun p hp => Option.noConfusion hp, fun p hp => Option.noConfusion hp,
    fun _ => ⟨rfl, hal0⟩, ?_, hpend⟩
  · show (1 : Int) ≤ s.remainder
    omega
  · show s.remainder ≤ (s.phase : Int) + 1
    omega
  · show ((jStar s : Nat) : Int) = (s.phase : Int) - s.remainder + 1
    omega
  · intro g hg j2 hj2
    have hge : g = s.phase := by
      have h4 := Option.some.inj
        (hg.symm.trans (show gvalOf (r2State s ae c0 nodesF)
          = some ((s.phase : Nat) : Int) from hgv1))
      omega
    subst hge
    exact hm2S j2 hj2
  · intro v ndv hv hnone
    exact (hlinkNone v ndv hv hnone).elim
  · refine ⟨0, ?_, ?_, ?_⟩
    · show s.active_length = ((0 : Nat) : Int)
      rw [hal0]
      rfl
    · intro _
      exact ⟨spellsTo_mono hle hsp0, by show jStar s ≤ s.phase; omega⟩
    · intro h1
      exact absurd h1 (by decide)

theorem deep_rule2 {T : List Nat} {s : Ukkonen} {char c0 : Nat} {ae : Int}
    {nd : Node} {t : Ukkonen}
    (hT : validText T) (hD : Deep T s)
    (hmode : s.mode = Mode.inner) (hrem : s.remainder > 0)
    (hchar : lookupL s.text s.phase = some char)
    (hres : (if s.active_length = 0 then some ((s.phase : Nat) : Int)
      else s.active_edge) = some ae)
    (hc0 : pyGet s.text ae = some c0)
    (hnd : lookupL s.nodes s.active_node = some nd)
    (hslotG : pyGet nd.edges (slotIdx c0) = some none)
    (hrun : rule2Leaf
        { s with
          active_edge := some ae,
          idxLog := slotIdx c0 :: s.idxLog }
        s.phase (slotIdx c0) nd = some t) :
    Deep T t := by
  unfold rule2Leaf at hrun
  dsimp only at hrun
  split at hrun
  · cases hrun
  · rename_i tbl htbl
    split at hrun
    · cases hrun
    · rename_i nodes1 hnodes1
      obtain ⟨haNlt, hnodes1E⟩ := asetL_eq_some hnodes1
      have hlookA : lookupL nodes1 s.active_node
          = some { nd with edges := tbl } := by
        rw [hnodes1E]
        exact lookupL_setL_self haNlt
      have hlookO : ∀ v, v ≠ s.active_node →
          lookupL nodes1 v = lookupL s.nodes v := by
        intro v hv
        rw [hnodes1E]
        exact lookupL_setL_ne hv
      have hback1 : ∀ v ndv, lookupL nodes1 v = some ndv →
          ∃ ndv0, lookupL s.nodes v = some ndv0 ∧ ndv.link = ndv0.link := by
        intro v ndv hv
        by_cases hva : v = s.active_node
        · subst hva
          rw [hlookA] at hv
          refine ⟨nd, hnd, ?_⟩
          rw [← Option.some.inj hv]
        · rw [hlookO v hva] at hv
          exact ⟨ndv, hv, rfl⟩
      split at hrun
      · rename_i hprevN
        have hMid : MidFacts T (r2State s ae c0 nodes1) (jStar s) := by
          refine rule2Mid hT hD hmode hrem hchar hres hc0 hnd hslotG htbl
            hnodes1 ?_ ?_ ?_ ?_
          · exact fun v ndv hv => ⟨ndv, hv, rfl⟩
          · exact fun v ndv1 hv => ⟨ndv1, hv, rfl⟩
          · intro v ndv hv hnone
            obtain ⟨ndv0, h0, hl⟩ := hback1 v ndv hv
            rw [hl] at hnone
            have h2 := hD.nl v ndv0 h0 hnone
            rw [h2.2] at hprevN
            cases hprevN
          · intro v ndv w hv hw
            obtain ⟨ndv0, h0, hl⟩ := hback1 v ndv hv
            rw [hl] at hw
            exact Or.inl ⟨ndv0, h0, hw⟩
        exact deep_afterInsert hMid hrun
      · rename_i p hprevP
        split at hrun
        · cases hrun
        · rename_i pn2 hpn2
          split at hrun
          · cases hrun
          · rename_i nodes2 hnodes2
            obtain ⟨hplt, hnodes2E⟩ := asetL_eq_some hnodes2
            have hlookP2 : lookupL nodes2 p
                = some { pn2 with link := some s.active_node } := by
              rw [hnodes2E]
              exact lookupL_setL_self hplt
            have hlookO2 : ∀ v, v ≠ p →
                lookupL nodes2 v = lookupL nodes1 v := by
              intro v hv
              rw [hnodes2E]
              exact lookupL_setL_ne hv
            have hMid : MidFacts T (r2State s ae c0 nodes2) (jStar s) := by
              refine rule2Mid hT hD hmode hrem hchar hres hc0 hnd hslotG htbl
                hnodes1 ?_ ?_ ?_ ?_
              · intro v ndv hv
                by_cases hvp : v = p
                · subst hvp
                  rw [hlookP2] at hv
                  refine ⟨pn2, hpn2, ?_⟩
                  rw [← Option.some.inj hv]
                · rw [hlookO2 v hvp] at hv
                  exact ⟨ndv, hv, rfl⟩
              · intro v ndv1 hv
                by_cases hvp : v = p
                · subst hvp
                  have he : ndv1 = pn2 := Option.some.inj (hv.symm.trans hpn2)
                  refine ⟨{ pn2 with link := some s.active_node }, hlookP2, ?_⟩
                  rw [he]
                · refine ⟨ndv1, ?_, rfl⟩
                  rw [hlookO2 v hvp]
                  exact hv
              · intro v ndv hv hnone
                by_cases hvp : v = p
                · subst hvp
                  rw [hlookP2] at hv
                  rw [← Option.some.inj hv] at hnone
                  exact Option.noConfusion hnone
                · rw [hlookO2 v hvp] at hv
                  obtain ⟨ndv0, h0, hl⟩ := hback1 v ndv hv
                  rw [hl] at hnone
                  have h2 := hD.nl v ndv0 h0 hnone
                  have h3 := h2.2
                  rw [hprevP] at h3
                  exact hvp (Option.some.inj h3).symm
              · intro v ndv w hv hw
                by_cases hvp : v = p
                · subst hvp
                  rw [hlookP2] at hv
                  rw [← Option.some.inj hv] at hw
                  exact Or.inr ⟨(Option.some.inj hw).symm, hprevP⟩
                · rw [hlookO2 v hvp] at hv
                  obtain ⟨ndv0, h0, hl⟩ := hback1 v ndv hv
                  rw [hl] at hw
                  exact Or.inl ⟨ndv0, h0, hw⟩
            exact deep_afterInsert hMid hrun

/-- The closed internal edge created by a split: it keeps the original
start, refers to the private new end cell, and leads to the new internal
node. -/
def spIe (s : Ukkonen) (ed : Edge) : Edge :=
  { start := ed.start, endId := s.ends.length, next := some s.nodes.length,
    suffix_id := none }

/-- End-cell arena after a split: the private closed cell is appended. -/
def spEnds (s : Ukkonen) (ed : Edge) : List End :=
  s.ends ++ [{ value := some (ed.start + s.active_length - 1) }]

/-- State in the middle of a split insertion: the surgery is done and the
previous-node reference points at the new internal node, but the remainder
is not yet decremented and the active point not yet repositioned. -/
def spState (s : Ukkonen) (ae : Int) (c0 c2 char : Nat) (nodesF : List Node)
    (edges3 : List Edge) (ed : Edge) : Ukkonen :=
  { s with
    active_edge := some ae,
    idxLog := slotIdx c2 :: slotIdx c0 :: slotIdx char :: slotIdx c0
      :: s.idxLog,
    ends := spEnds s ed,
    nodes := nodesF,
    edgeArena := edges3,
    previous_node := some s.nodes.length }

theorem splitMid {T : List Nat} {s : Ukkonen} {char c0 cc c2 : Nat}
    {ae ev : Int} {nd : Node} {eid : Nat} {ed : Edge} {ec : End}
    {t1 t0 t2 : List (Option Nat)} {nodes2 nodes3 nodesF : List Node}
    {edges3 : List Edge}
    (hT : validText T) (hD : Deep T s)
    (hmode : s.mode = Mode.inner) (hrem : s.remainder > 0)
    (hchar : lookupL s.text s.phase = some char)
    (hres : (if s.active_length = 0 then some ((s.phase : Nat) : Int)
      else s.active_edge) = some ae)
    (hc0 : pyGet s.text ae = some c0)
    (hnd : lookupL s.nodes s.active_node = some nd)
    (hslotG : pyGet nd.edges (slotIdx c0) = some (some eid))
    (hed : lookupL s.edgeArena eid = some ed)
    (hec : lookupL s.ends ed.endId = some ec)
    (hev : ec.value = some ev)
    (hlt : ¬ s.active_length ≥ ev - ed.start + 1)
    (hcc : pyGet s.text (ed.start + s.active_length) = some cc)
    (hccc : ¬ cc = char)
    (ht1 : pySet emptyTable (slotIdx char) (some s.edgeArena.length) = some t1)
    (ht0 : pySet nd.edges (slotIdx c0) (some (s.edgeArena.length + 1))
      = some t0)
    (hnodes2 : asetL (s.nodes ++ [{ edges := emptyTable, link := none }])
      s.active_node { nd with edges := t0 } = some nodes2)
    (hedges3 : asetL ((s.edgeArena ++ [r2Edge s]) ++ [spIe s ed]) eid
      { ed with start := ed.start + s.active_length } = some edges3)
    (hc2 : pyGet s.text (ed.start + s.active_length) = some c2)
    (ht2 : pySet t1 (slotIdx c2) (some eid) = some t2)
    (hnodes3 : asetL nodes2 s.nodes.length { edges := t2, link := none }
      = some nodes3)
    (hNF : ∀ v ndv, lookupL nodesF v = some ndv →
      ∃ ndv1, lookupL nodes3 v = some ndv1 ∧ ndv.edges = ndv1.edges)
    (hNFf : ∀ v ndv1, lookupL nodes3 v = some ndv1 →
      ∃ ndv, lookupL nodesF v = some ndv ∧ ndv.edges = ndv1.edges)
    (hlinkNone : ∀ v ndv, lookupL nodesF v = some ndv → ndv.link = none →
      v = s.nodes.length)
    (hlinkS : ∀ v ndv w, lookupL nodesF v = some ndv → ndv.link = some w →
      (∃ ndv0, lookupL s.nodes v = some ndv0 ∧ ndv0.link = some w) ∨
      (w = s.nodes.length ∧ s.previous_node = some v)) :
    MidFacts T (spState s ae c0 c2 char nodesF edges3 ed) (jStar s) := by
  have hph := hD.phaseLt hmode
  have hrB := hD.remB1 hmode
  have hc0r := text_range hT hD.textEq (pyGet_mem hc0)
  have hslotL : lookupL nd.edges (slotN c0) = some (some eid) := by
    rw [← slotIdx_toNat hc0r.1, ← pyGet_nonneg (slotIdx_nonneg hc0r.1)]
    exact hslotG
  obtain ⟨aLenN, hal, h0c, h1c⟩ := hD.ap
  obtain ⟨st, ln, q0, d0, hst, hln, hstln, hlab, ⟨cH, hcH, hcHk, hcH36⟩,
    ⟨ec2, hec2, hval2⟩, hopen, hclosed, hspell, hqd, hqb⟩ :=
    hD.slotFacts s.active_node nd (slotN c0) eid ed hnd hslotL hed
  have hece : ec2 = ec := Option.some.inj (hec2.symm.trans hec)
  have hevE : ev = (st : Int) + ln - 1 := by
    rw [hece] at hval2
    exact Option.some.inj (hev.symm.trans hval2)
  have hcharR : 36 ≤ char ∧ char ≤ 126 :=
    text_range hT hD.textEq (lookupL_mem hchar)
  have hccR : 36 ≤ cc ∧ cc ≤ 126 := text_range hT hD.textEq (pyGet_mem hcc)
  have haln1 : 1 ≤ aLenN := by
    by_contra hz
    have haln0 : aLenN = 0 := by omega
    have hal0 : s.active_length = 0 := by rw [hal, haln0]; rfl
    have hae_ph : ae = ((s.phase : Nat) : Int) := by
      rw [if_pos hal0] at hres
      exact (Option.some.inj hres).symm
    have hc0char : c0 = char := by
      rw [hae_ph, pyGet_nonneg (by omega), toNat_cast] at hc0
      exact Option.some.inj (hc0.symm.trans hchar)
    have hccH : cc = cH := by
      have h2 : pyGet s.text (ed.start + 0) = some cc := by
        rw [← hal0]
        exact hcc
      rw [add_zero, hst, pyGet_nonneg (by omega), toNat_cast] at h2
      exact Option.some.inj (h2.symm.trans hcH)
    have hcHchar : cH = char := by
      apply slotN_inj hcH36 (by omega)
      rw [hcHk, hc0char]
    exact hccc (by rw [hccH, hcHchar])
  have hane : ¬ s.active_length = 0 := by
    rw [hal]
    omega
  rw [if_neg hane] at hres
  obtain ⟨aeN, hae, haep, hjae, hspA, hwkA⟩ := h1c haln1
  have haee : ae = ((aeN : Nat) : Int) := Option.some.inj (hres.symm.trans hae)
  have haeL : aeN < s.text.length := by omega
  have hc0L : lookupL s.text aeN = some c0 := by
    rw [haee, pyGet_nonneg (by omega), toNat_cast] at hc0
    exact hc0
  have halnln : aLenN < ln := by
    rw [hal, hst, hevE] at hlt
    omega
  have hlabL : (labelOf s ed).length = ln := by
    rw [hlab]
    exact seg_length_of_le hstln
  have hhead : (seg s.text aeN aLenN).head? = some c0 :=
    seg_head hc0L haln1
  have hwithin : seg s.text aeN aLenN <+: labelOf s ed := by
    refine walkW_within_edge hwkA hnd hslotL hed hhead ?_
    rw [hlabL, seg_length_of_le (by omega)]
    omega
  have hcontent : seg s.text aeN aLenN = seg s.text st aLenN := by
    have h2 := prefix_seg (hlab ▸ hwithin)
    rw [seg_length_of_le (by omega)] at h2
    exact h2
  have hstA : st + aLenN < s.text.length := by omega
  have hccL : lookupL s.text (st + aLenN) = some cc := by
    have h2 : pyGet s.text ((st : Int) + (aLenN : Int)) = some cc := by
      rw [← hst, ← hal]
      exact hcc
    rw [pyGet_nonneg (by omega)] at h2
    have h3 : ((st : Int) + (aLenN : Int)).toNat = st + aLenN := by omega
    rw [h3] at h2
    exact h2
  have hc2cc : cc = c2 := Option.some.inj (hcc.symm.trans hc2)
  subst hc2cc
  have hcharcc : slotN char ≠ slotN cc := by
    intro h2
    exact hccc (slotN_inj hcharR.1 hccR.1 h2).symm
  have heidlt : eid < s.edgeArena.length := lookupL_some_lt hed
  have haNlen : s.active_node < s.nodes.length := lookupL_some_lt hnd
  have hgv1 : gvalOf s = some ((s.phase : Nat) : Int) := by
    rcases hD.gv with ⟨h1x, _, _, _, h5x⟩ | ⟨g, hg, hI, _⟩
    · rw [hmode] at h5x
      cases h5x
    · rw [hg, hI hmode]
  obtain ⟨ec0, hec0, hval0⟩ := gvalOf_cell hgv1
  have hends0 : 0 < s.ends.length := lookupL_some_lt hec0
  have hendIdlt : ed.endId < s.ends.length := lookupL_some_lt hec2
  have hib : insBound s = (s.phase : Int) - s.remainder := by
    unfold insBound
    rw [if_pos hmode]
  have hjv : ((jStar s : Nat) : Int) = insBound s + 1 := by
    unfold jStar
    omega
  have hjle : jStar s ≤ s.phase := by omega
  have hstAg : st + aLenN ≤ s.phase := by
    by_cases h0 : ed.endId = 0
    · have he0 : ec2 = ec0 := by
        rw [h0] at hec2
        exact Option.some.inj (hec2.symm.trans hec0)
      have h3 : ((st : Int) + ln - 1) = ((s.phase : Nat) : Int) := by
        rw [he0] at hval2
        exact Option.some.inj (hval2.symm.trans hval0)
      omega
    · obtain ⟨_, _, g2, hg2, hstg2⟩ := hclosed h0
      have h4 := Option.some.inj (hg2.symm.trans hgv1)
      omega
  obtain ⟨hk1lt, ht1E⟩ := pySet_nonneg_some (slotIdx_nonneg hcharR.1) ht1
  rw [slotIdx_toNat hcharR.1] at ht1E
  have hk1ltN : slotN char < emptyTable.length := by
    have h1 := slotIdx_nonneg hcharR.1
    have h2 := slotIdx_toNat hcharR.1
    omega
  obtain ⟨hk0lt, ht0E⟩ := pySet_nonneg_some (slotIdx_nonneg hc0r.1) ht0
  rw [slotIdx_toNat hc0r.1] at ht0E
  have hk0ltN : slotN c0 < nd.edges.length := by
    have h1 := slotIdx_nonneg hc0r.1
    have h2 := slotIdx_toNat hc0r.1
    omega
  obtain ⟨hk2lt, ht2E⟩ := pySet_nonneg_some (slotIdx_nonneg hccR.1) ht2
  rw [slotIdx_toNat hccR.1] at ht2E
  have hk2ltN : slotN cc < t1.length := by
    have h1 := slotIdx_nonneg hccR.1
    have h2 := slotIdx_toNat hccR.1
    omega
  obtain ⟨haN2lt, hnodes2E⟩ := asetL_eq_some hnodes2
  obtain ⟨heid3lt, hedges3E⟩ := asetL_eq_some hedges3
  obtain ⟨hin3lt, hnodes3E⟩ := asetL_eq_some hnodes3
  have ht1Self : lookupL t1 (slotN char) = some (some s.edgeArena.length) := by
    rw [ht1E]
    exact lookupL_setL_self hk1ltN
  have ht1Ne : ∀ k, k ≠ slotN char → lookupL t1 k = lookupL emptyTable k := by
    intro k hk
    rw [ht1E]
    exact lookupL_setL_ne hk
  have ht2Self : lookupL t2 (slotN cc) = some (some eid) := by
    rw [ht2E]
    exact lookupL_setL_self hk2ltN
  have ht2Ne : ∀ k, k ≠ slotN cc → lookupL t2 k = lookupL t1 k := by
    intro k hk
    rw [ht2E]
    exact lookupL_setL_ne hk
  have ht0Self : lookupL t0 (slotN c0)
      = some (some (s.edgeArena.length + 1)) := by
    rw [ht0E]
    exact lookupL_setL_self hk0ltN
  have ht0Ne : ∀ k, k ≠ slotN c0 → lookupL t0 k = lookupL nd.edges k := by
    intro k hk
    rw [ht0E]
    exact lookupL_setL_ne hk
  have hlen1 : (s.nodes ++ [({ edges := emptyTable, link := none } : Node)]).length
      = s.nodes.length + 1 := by
    rw [List.length_append, List.length_singleton]
  have hlookA3 : lookupL nodes3 s.active_node
      = some { nd with edges := t0 } := by
    rw [hnodes3E, lookupL_setL_ne (by omega : s.active_node ≠ s.nodes.length),
      hnodes2E]
    exact lookupL_setL_self haN2lt
  have hlookI3 : lookupL nodes3 s.nodes.length
      = some { edges := t2, link := none } := by
    rw [hnodes3E]
    exact lookupL_setL_self hin3lt
  have hlookO3 : ∀ v, v ≠ s.active_node → v ≠ s.nodes.length →
      lookupL nodes3 v = lookupL s.nodes v := by
    intro v h1 h2
    rw [hnodes3E, lookupL_setL_ne h2, hnodes2E, lookupL_setL_ne h1]
    by_cases h3 : v < s.nodes.length
    · exact lookupL_append_lt _ h3
    · have h4 : lookupL s.nodes v = none := by
        cases h5 : lookupL s.nodes v with
        | none => rfl
        | some x => exact absurd (lookupL_some_lt h5) h3
      have h6 : lookupL
          (s.nodes ++ [({ edges := emptyTable, link := none } : Node)]) v
          = none := by
        cases h5 : lookupL
            (s.nodes ++ [({ edges := emptyTable, link := none } : Node)])
            v with
        | none => rfl
        | some x =>
          have h7 := lookupL_some_lt h5
          rw [hlen1] at h7
          omega
      rw [h4, h6]
  have hbackF : ∀ v ndv, lookupL nodesF v = some ndv →
      (v = s.nodes.length ∧ ndv.edges = t2) ∨
      (v = s.active_node ∧ ndv.edges = t0) ∨
      (v ≠ s.nodes.length ∧ v ≠ s.active_node ∧
        ∃ ndv0, lookupL s.nodes v = some ndv0 ∧ ndv.edges = ndv0.edges) := by
    intro v ndv hv
    obtain ⟨nd1, hnd1, hE⟩ := hNF v ndv hv
    by_cases hvi : v = s.nodes.length
    · subst hvi
      rw [hlookI3] at hnd1
      left
      exact ⟨rfl, by rw [hE, ← Option.some.inj hnd1]⟩
    · by_cases hva : v = s.active_node
      · subst hva
        rw [hlookA3] at hnd1
        right; left
        exact ⟨rfl, by rw [hE, ← Option.some.inj hnd1]⟩
      · rw [hlookO3 v hva hvi] at hnd1
        exact Or.inr (Or.inr ⟨hvi, hva, nd1, hnd1, hE⟩)
  have hslotF : ∀ v nd1 k e2, lookupL nodes3 v = some nd1 →
      lookupL nd1.edges k = some (some e2) →
      ∃ nd2, lookupL nodesF v = some nd2 ∧
        lookupL nd2.edges k = some (some e2) := by
    intro v nd1 k e2 h1 h2
    obtain ⟨nd2, h3, h4⟩ := hNFf v nd1 h1
    refine ⟨nd2, h3, ?_⟩
    rw [h4]
    exact h2
  have hnodesW : ∀ w ndw, lookupL s.nodes w = some ndw →
      ∃ ndw2, lookupL nodesF w = some ndw2 := by
    intro w ndw hw
    by_cases hwa : w = s.active_node
    · subst hwa
      obtain ⟨nd2, h3, _⟩ := hNFf s.active_node _ hlookA3
      exact ⟨nd2, h3⟩
    · have hwi : w ≠ s.nodes.length := by
        have := lookupL_some_lt hw
        omega
      obtain ⟨nd2, h3, _⟩ := hNFf w ndw (by rw [hlookO3 w hwa hwi]; exact hw)
      exact ⟨nd2, h3⟩
  have hlen2 : ((s.edgeArena ++ [r2Edge s]) ++ [spIe s ed]).length
      = s.edgeArena.length + 2 := by
    rw [List.length_append, List.length_append, List.length_singleton,
      List.length_singleton]
  have hlookTr : lookupL edges3 eid
      = some { ed with start := ed.start + s.active_length } := by
    rw [hedges3E]
    exact lookupL_setL_self heid3lt
  have hlookLf : lookupL edges3 s.edgeArena.length = some (r2Edge s) := by
    rw [hedges3E, lookupL_setL_ne (by omega : s.edgeArena.length ≠ eid),
      lookupL_append_lt [spIe s ed]
        (by rw [List.length_append, List.length_singleton]; omega)]
    exact lookupL_append_length s.edgeArena (r2Edge s)
  have hlookIe : lookupL edges3 (s.edgeArena.length + 1)
      = some (spIe s ed) := by
    rw [hedges3E, lookupL_setL_ne (by omega : s.edgeArena.length + 1 ≠ eid)]
    have h2 : (s.edgeArena ++ [r2Edge s]).length = s.edgeArena.length + 1 := by
      rw [List.length_append, List.length_singleton]
    rw [← h2]
    exact lookupL_append_length _ (spIe s ed)
  have hlookOld3 : ∀ e, e ≠ eid → e < s.edgeArena.length →
      lookupL edges3 e = lookupL s.edgeArena e := by
    intro e h1 h2
    rw [hedges3E, lookupL_setL_ne h1,
      lookupL_append_lt [spIe s ed]
        (by rw [List.length_append, List.length_singleton]; omega),
      lookupL_append_lt [r2Edge s] h2]
  have harenaSp : ∀ e2 ed2, lookupL edges3 e2 = some ed2 →
      (e2 = eid ∧ ed2 = { ed with start := ed.start + s.active_length }) ∨
      (e2 = s.edgeArena.length ∧ ed2 = r2Edge s) ∨
      (e2 = s.edgeArena.length + 1 ∧ ed2 = spIe s ed) ∨
      (e2 ≠ eid ∧ e2 < s.edgeArena.length ∧
        lookupL s.edgeArena e2 = some ed2) := by
    intro e2 ed2 he2
    by_cases h1 : e2 = eid
    · subst h1
      rw [hlookTr] at he2
      exact Or.inl ⟨rfl, (Option.some.inj he2).symm⟩
    · have hlt2 : e2 < s.edgeArena.length + 2 := by
        have h3 := lookupL_some_lt he2
        have h4 : edges3.length = s.edgeArena.length + 2 := by
          rw [hedges3E, setL_length, hlen2]
        rw [h4] at h3
        exact h3
      by_cases h5 : e2 < s.edgeArena.length
      · right; right; right
        refine ⟨h1, h5, ?_⟩
        rw [← hlookOld3 e2 h1 h5]
        exact he2
      · by_cases h6 : e2 = s.edgeArena.length
        · subst h6
          rw [hlookLf] at he2
          exact Or.inr (Or.inl ⟨rfl, (Option.some.inj he2).symm⟩)
        · have h7 : e2 = s.edgeArena.length + 1 := by omega
          subst h7
          rw [hlookIe] at he2
          exact Or.inr (Or.inr (Or.inl ⟨rfl, (Option.some.inj he2).symm⟩))
  have hslotBackSp : ∀ v ndv k e2, lookupL nodesF v = some ndv →
      lookupL ndv.edges k = some (some e2) →
      (v = s.active_node ∧ k = slotN c0 ∧ e2 = s.edgeArena.length + 1) ∨
      (v = s.nodes.length ∧ k = slotN char ∧ e2 = s.edgeArena.length) ∨
      (v = s.nodes.length ∧ k = slotN cc ∧ e2 = eid) ∨
      ((¬ (v = s.active_node ∧ k = slotN c0)) ∧ v ≠ s.nodes.length ∧
        ∃ ndv0, lookupL s.nodes v = some ndv0 ∧
          lookupL ndv0.edges k = some (some e2)) := by
    intro v ndv k e2 hv hk
    rcases hbackF v ndv hv with ⟨hvi, hE⟩ | ⟨hva, hE⟩ |
      ⟨hvi, hva, ndv0, h0, hE⟩
    · rw [hE] at hk
      by_cases hkc : k = slotN cc
      · subst hkc
        rw [ht2Self] at hk
        exact Or.inr (Or.inr (Or.inl ⟨hvi, rfl,
          (Option.some.inj (Option.some.inj hk)).symm⟩))
      · rw [ht2Ne k hkc] at hk
        by_cases hkc2 : k = slotN char
        · subst hkc2
          rw [ht1Self] at hk
          exact Or.inr (Or.inl ⟨hvi, rfl,
            (Option.some.inj (Option.some.inj hk)).symm⟩)
        · rw [ht1Ne k hkc2] at hk
          exact absurd hk (slot_empty_table k e2)
    · subst hva
      rw [hE] at hk
      by_cases hkc : k = slotN c0
      · subst hkc
        rw [ht0Self] at hk
        exact Or.inl ⟨rfl, rfl, (Option.some.inj (Option.some.inj hk)).symm⟩
      · refine Or.inr (Or.inr (Or.inr ⟨fun h2 => hkc h2.2, by omega, nd, hnd,
          ?_⟩))
        rw [← ht0Ne k hkc]
        exact hk
    · rw [hE] at hk
      exact Or.inr (Or.inr (Or.inr ⟨fun h2 => hva h2.1, hvi, ndv0, h0, hk⟩))
  have hfreshSp : ∀ v ndv0 k e2, lookupL s.nodes v = some ndv0 →
      lookupL ndv0.edges k = some (some e2) → e2 < s.edgeArena.length := by
    intro v ndv0 k e2 h1 h2
    obtain ⟨ed2, hed2⟩ := hD.slotsValid v ndv0 k e2 h1 h2
    exact lookupL_some_lt hed2
  have heidslot : ∀ v ndv0 k, lookupL s.nodes v = some ndv0 →
      lookupL ndv0.edges k = some (some eid) →
      v = s.active_node ∧ k = slotN c0 := by
    intro v ndv0 k h1 h2
    exact hD.slotU v k ndv0 s.active_node (slotN c0) nd eid h1 h2 hnd hslotL
  have hlabPres : ∀ e2 ed2, lookupL s.edgeArena e2 = some ed2 →
      labelOf (spState s ae c0 cc char nodesF edges3 ed) ed2
        = labelOf s ed2 := by
    intro e2 ed2 hed2
    obtain ⟨v, ndv, k, hv, hkk⟩ := hD.slotOnto e2 ed2 hed2
    obtain ⟨st2, ln2, q2, d2, hst2, hln2, hstln2, hlab2, hhc2,
      ⟨ecx, hecx, hvalx⟩, ho2, hc2x, hsp2, hqd2, hqb2⟩ :=
      hD.slotFacts v ndv k e2 ed2 hv hkk hed2
    refine labelOf_cell_congr ?_ rfl
    show lookupL (spEnds s ed) ed2.endId = lookupL s.ends ed2.endId
    have h3 := lookupL_some_lt hecx
    unfold spEnds
    exact lookupL_append_lt _ h3
  have hendsM : ∀ i2 : Nat, i2 < s.ends.length →
      lookupL (spEnds s ed) i2 = lookupL s.ends i2 := by
    intro i2 h2
    unfold spEnds
    exact lookupL_append_lt _ h2
  have hseCell : lookupL (spEnds s ed) s.ends.length
      = some { value := some (ed.start + s.active_length - 1) } := by
    unfold spEnds
    exact lookupL_append_length _ _
  have hgvM : gvalOf (spState s ae c0 cc char nodesF edges3 ed)
      = some ((s.phase : Nat) : Int) := by
    refine gvalOf_eq_cell ?_ hval0
    show lookupL (spEnds s ed) 0 = some ec0
    rw [hendsM 0 hends0]
    exact hec0
  have hlabIe : labelOf (spState s ae c0 cc char nodesF edges3 ed)
      (spIe s ed) = seg s.text st aLenN := by
    have hcellX : lookupL (spState s ae c0 cc char nodesF edges3 ed).ends
        (spIe s ed).endId
        = some { value := some (ed.start + s.active_length - 1) } := hseCell
    refine labelOf_eq hcellX ?_ hst
    show some (ed.start + s.active_length - 1)
      = some ((st : Int) + (aLenN : Int) - 1)
    rw [hst, hal]
  have hlabLf : labelOf (spState s ae c0 cc char nodesF edges3 ed)
      (r2Edge s) = seg s.text s.phase 1 := by
    have hcellX : lookupL (spState s ae c0 cc char nodesF edges3 ed).ends
        (r2Edge s).endId = some ec0 := by
      show lookupL (spEnds s ed) 0 = some ec0
      rw [hendsM 0 hends0]
      exact hec0
    refine labelOf_eq hcellX ?_ rfl
    rw [hval0]
    congr 1
    omega
  have hlabTr : labelOf (spState s ae c0 cc char nodesF edges3 ed)
      { ed with start := ed.start + s.active_length }
      = seg s.text (st + aLenN) (ln - aLenN) := by
    have hcellX : lookupL (spState s ae c0 cc char nodesF edges3 ed).ends
        ({ ed with start := ed.start + s.active_length } : Edge).endId
        = some ec2 := by
      show lookupL (spEnds s ed) ed.endId = some ec2
      rw [hendsM ed.endId hendIdlt]
      exact hec2
    refine labelOf_eq hcellX ?_ ?_
    · rw [hval2]
      congr 1
      omega
    · show ed.start + s.active_length = ((st + aLenN : Nat) : Int)
      rw [hst, hal]
      omega
  have hstc0 : lookupL s.text st = some c0 := by
    have h9 : cH = c0 := slotN_inj hcH36 hc0r.1 hcHk
    rw [← h9]
    exact hcH
  have hr : SplitRel s (spState s ae c0 cc char nodesF edges3 ed)
      s.active_node (slotN c0) eid (s.edgeArena.length + 1) s.nodes.length
      aLenN ed := by
    refine ⟨hD.slotU, ⟨nd, hnd, hslotL⟩, hed, haln1, ?_, ?_, ?_, ?_, ?_⟩
    · rw [hlabL]
      exact halnln
    · intro v2 nd2 hnd2
      by_cases hva : v2 = s.active_node
      · subst hva
        have hnde : nd2 = nd := Option.some.inj (hnd2.symm.trans hnd)
        subst hnde
        obtain ⟨ndA, hndA, hEA⟩ := hNFf s.active_node _ hlookA3
        refine ⟨ndA, hndA, ?_⟩
        intro k2 e2 hk2
        by_cases hkc : k2 = slotN c0
        · exact Or.inl ⟨rfl, hkc⟩
        · right
          rw [hEA]
          show lookupL t0 k2 = some (some e2)
          rw [ht0Ne k2 hkc]
          exact hk2
      · have hvi : v2 ≠ s.nodes.length := by
          have := lookupL_some_lt hnd2
          omega
        obtain ⟨ndB, hndB, hEB⟩ := hNFf v2 nd2
          (by rw [hlookO3 v2 hva hvi]; exact hnd2)
        refine ⟨ndB, hndB, ?_⟩
        intro k2 e2 hk2
        right
        rw [hEB]
        exact hk2
    · intro e2 ed2 hne2 hed2
      have hlt3 := lookupL_some_lt hed2
      constructor
      · show lookupL edges3 e2 = some ed2
        rw [hlookOld3 e2 hne2 hlt3]
        exact hed2
      · exact hlabPres e2 ed2 hed2
    · obtain ⟨ndA, hndA, hEA⟩ := hNFf s.active_node _ hlookA3
      refine ⟨ndA, spIe s ed, hndA, ?_, hlookIe, rfl, ?_⟩
      · rw [hEA]
        exact ht0Self
      · rw [hlabIe, hlab]
        unfold seg
        rw [List.take_take]
        congr 1
        omega
    · obtain ⟨ndI, hndI, hEI⟩ := hNFf s.nodes.length _ hlookI3
      refine ⟨ndI, { ed with start := ed.start + s.active_length }, cc,
        hndI, ?_, hlookTr, rfl, ?_, ?_⟩
      · rw [hEI]
        exact ht2Self
      · rw [hlabTr, hlab, seg_drop_exact (le_of_lt halnln) (by omega)]
      · rw [hlab, seg_drop_exact (le_of_lt halnln) (by omega)]
        exact seg_head hccL (by omega)
  have hieStep : SpellsTo (spState s ae c0 cc char nodesF edges3 ed)
      s.active_node (seg s.text st aLenN) s.nodes.length := by
    obtain ⟨ndv, ie, hndv, hslotv, hiee, hienext, hlabie⟩ := hr.hie
    have hlabie2 : labelOf (spState s ae c0 cc char nodesF edges3 ed) ie
        = seg s.text st aLenN := by
      rw [hlabie, hlab]
      unfold seg
      rw [List.take_take]
      congr 1
      omega
    have hconsie : labelOf (spState s ae c0 cc char nodesF edges3 ed) ie
        = c0 :: seg s.text (st + 1) (aLenN - 1) := by
      rw [hlabie2]
      exact seg_cons hstc0 haln1
    have hpreX : labelOf (spState s ae c0 cc char nodesF edges3 ed) ie
        <+: c0 :: seg s.text (st + 1) (aLenN - 1) := by
      rw [hconsie]
    have h8 : SpellsTo (spState s ae c0 cc char nodesF edges3 ed)
        s.active_node (labelOf (spState s ae c0 cc char nodesF edges3 ed) ie)
        s.nodes.length :=
      spellsTo_one_edge hndv hslotv hiee hpreX
        (by rw [hlabie2]; exact seg_ne_nil haln1 (by omega)) hienext
    rw [← hlabie2]
    exact h8
  have hspIn : SpellsTo (spState s ae c0 cc char nodesF edges3 ed) 0
      (seg s.text (jStar s) (s.phase - jStar s)) s.nodes.length := by
    have hsplit2 : seg s.text (jStar s) (s.phase - jStar s)
        = seg s.text (jStar s) (aeN - jStar s) ++ seg s.text st aLenN := by
      rw [← hcontent,
        show s.phase - jStar s = (aeN - jStar s) + aLenN from by omega,
        seg_add,
        show jStar s + (aeN - jStar s) = aeN from by omega]
    rw [hsplit2]
    exact spellsTo_append (split_spellsTo hr hspA) hieStep
  have hSF1 : ∀ v ndv k e2 ed2,
      lookupL (spState s ae c0 cc char nodesF edges3 ed).nodes v = some ndv →
      lookupL ndv.edges k = some (some e2) →
      lookupL (spState s ae c0 cc char nodesF edges3 ed).edgeArena e2
        = some ed2 →
      EdgeFactsJ (spState s ae c0 cc char nodesF edges3 ed) (jStar s) v k
        ed2 := by
    intro v ndv k e2 ed2 hv hk hed2
    rcases hslotBackSp v ndv k e2 hv hk with
      ⟨hva, hkc, heq⟩ | ⟨hvi, hkc, heq⟩ | ⟨hvi, hkc, heq⟩ |
      ⟨hnotA, hvi, ndv0, h0, hk0⟩
    · subst hva
      subst hkc
      subst heq
      have hed2e : ed2 = spIe s ed :=
        Option.some.inj (hed2.symm.trans hlookIe)
      subst hed2e
      obtain ⟨ndI, hndI, _⟩ := hNFf s.nodes.length _ hlookI3
      refine ⟨st, aLenN, q0, d0, hst, haln1, ?_, ?_, ?_, ?_, ?_, ?_, ?_, hqd,
        ?_⟩
      · show st + aLenN ≤ s.text.length
        omega
      · exact hlabIe
      · exact ⟨c0, hstc0, rfl, hc0r.1⟩
      · refine ⟨{ value := some (ed.start + s.active_length - 1) },
          hseCell, ?_⟩
        show some (ed.start + s.active_length - 1)
          = some ((st : Int) + (aLenN : Int) - 1)
        rw [hst, hal]
      · intro h0x
        have h9 : s.ends.length = 0 := h0x
        omega
      · intro _
        refine ⟨rfl, ⟨s.nodes.length, ndI, rfl, by omega, hndI⟩,
          s.phase, hgvM, hstAg⟩
      · exact split_spellsTo hr hspell
      · omega
    · subst hvi
      subst hkc
      subst heq
      have hed2e : ed2 = r2Edge s := Option.some.inj (hed2.symm.trans hlookLf)
      subst hed2e
      refine ⟨s.phase, 1, jStar s, s.phase - jStar s, rfl, le_refl 1, ?_, ?_,
        ?_, ?_, ?_, ?_, ?_, ?_, le_refl (jStar s)⟩
      · show s.phase + 1 ≤ s.text.length
        omega
      · exact hlabLf
      · exact ⟨char, hchar, rfl, hcharR.1⟩
      · refine ⟨ec0, ?_, ?_⟩
        · show lookupL (spEnds s ed) 0 = some ec0
          rw [hendsM 0 hends0]
          exact hec0
        · rw [hval0]
          congr 1
          omega
      · intro _
        refine ⟨rfl, ?_⟩
        show some (((s.phase : Nat) : Int) - s.remainder + 1)
          = some ((jStar s : Nat) : Int)
        congr 1
        omega
      · intro hne
        exact absurd rfl hne
      · exact hspIn
      · show jStar s + (s.phase - jStar s) = s.phase
        omega
    · subst hvi
      subst hkc
      subst heq
      have hed2e : ed2 = { ed with start := ed.start + s.active_length } :=
        Option.some.inj (hed2.symm.trans hlookTr)
      subst hed2e
      refine ⟨st + aLenN, ln - aLenN, q0, d0 + aLenN, ?_, by omega, ?_, ?_,
        ?_, ?_, ?_, ?_, ?_, by omega, ?_⟩
      · show ed.start + s.active_length = ((st + aLenN : Nat) : Int)
        rw [hst, hal]
        omega
      · show st + aLenN + (ln - aLenN) ≤ s.text.length
        omega
      · exact hlabTr
      · exact ⟨cc, hccL, rfl, hccR.1⟩
      · refine ⟨ec2, ?_, ?_⟩
        · show lookupL (spEnds s ed) ed.endId = some ec2
          rw [hendsM ed.endId hendIdlt]
          exact hec2
        · rw [hval2]
          congr 1
          omega
      · intro h0x
        exact hopen h0x
      · intro hne
        obtain ⟨hsid, ⟨w, ndw, hnx, hw0, hndw⟩, g2, hg2, hstg2⟩ :=
          hclosed hne
        obtain ⟨ndw2, hndw2⟩ := hnodesW w ndw hndw
        refine ⟨hsid, ⟨w, ndw2, hnx, hw0, hndw2⟩, s.phase, hgvM, ?_⟩
        have h4 := Option.some.inj (hg2.symm.trans hgv1)
        omega
      · show SpellsTo (spState s ae c0 cc char nodesF edges3 ed) 0
          (seg s.text q0 (d0 + aLenN)) s.nodes.length
        rw [seg_add, hqd]
        exact spellsTo_append (split_spellsTo hr hspell) hieStep
      · omega
    · have he2lt : e2 < s.edgeArena.length := hfreshSp v ndv0 k e2 h0 hk0
      have hne2 : e2 ≠ eid := by
        intro hc
        subst hc
        exact hnotA (heidslot v ndv0 k h0 hk0)
      have hed2old : lookupL s.edgeArena e2 = some ed2 := by
        rw [← hlookOld3 e2 hne2 he2lt]
        exact hed2
      obtain ⟨st2, ln2, q2, d2, hst2, hln2, hstln2, hlab2, ⟨cx, hcx, hcxk,
        hcx36⟩, ⟨ecx, hecx, hvalx⟩, ho2, hcl2, hsp2, hqd2x, hqb2x⟩ :=
        hD.slotFacts v ndv0 k e2 ed2 h0 hk0 hed2old
      refine ⟨st2, ln2, q2, d2, hst2, hln2, ?_, ?_, ⟨cx, ?_, hcxk, hcx36⟩,
        ⟨ecx, ?_, hvalx⟩, ho2, ?_, ?_, hqd2x, ?_⟩
      · show st2 + ln2 ≤ s.text.length
        exact hstln2
      · rw [hlabPres e2 ed2 hed2old]
        exact hlab2
      · exact hcx
      · show lookupL (spEnds s ed) ed2.endId = some ecx
        rw [hendsM ed2.endId (lookupL_some_lt hecx)]
        exact hecx
      · intro hne
        obtain ⟨hsid, ⟨w, ndw, hnx, hw0, hndw⟩, g2, hg2, hstg2⟩ := hcl2 hne
        obtain ⟨ndw2, hndw2⟩ := hnodesW w ndw hndw
        refine ⟨hsid, ⟨w, ndw2, hnx, hw0, hndw2⟩, s.phase, hgvM, ?_⟩
        have h4 := Option.some.inj (hg2.symm.trans hgv1)
        omega
      · exact split_spellsTo hr hsp2
      · omega
  have hm2S : ∀ j2 : Nat, j2 ≤ jStar s →
      ∃ x u ndu k e2 ed2,
        SpellsTo (spState s ae c0 cc char nodesF edges3 ed) 0 x u ∧
        lookupL (spState s ae c0 cc char nodesF edges3 ed).nodes u
          = some ndu ∧
        lookupL ndu.edges k = some (some e2) ∧
        lookupL (spState s ae c0 cc char nodesF edges3 ed).edgeArena e2
          = some ed2 ∧
        ed2.endId = 0 ∧
        labelOf (spState s ae c0 cc char nodesF edges3 ed) ed2 ≠ [] ∧
        seg (spState s ae c0 cc char nodesF edges3 ed).text j2
          (s.phase + 1 - j2)
          = x ++ labelOf (spState s ae c0 cc char nodesF edges3 ed) ed2 := by
    intro j2 hj2
    by_cases hjeq : j2 = jStar s
    · subst hjeq
      obtain ⟨ndI, hndI, hEI⟩ := hNFf s.nodes.length _ hlookI3
      refine ⟨seg s.text (jStar s) (s.phase - jStar s), s.nodes.length, ndI,
        slotN char, s.edgeArena.length, r2Edge s, hspIn, hndI, ?_, hlookLf,
        rfl, ?_, ?_⟩
      · rw [hEI]
        show lookupL t2 (slotN char) = some (some s.edgeArena.length)
        rw [ht2Ne (slotN char) (fun h2 => hcharcc h2), ht1Self]
      · rw [hlabLf]
        exact seg_ne_nil (le_refl 1) (by omega)
      · rw [hlabLf]
        show seg s.text (jStar s) (s.phase + 1 - jStar s)
          = seg s.text (jStar s) (s.phase - jStar s) ++ seg s.text s.phase 1
        rw [show s.phase + 1 - jStar s = (s.phase - jStar s) + 1 from by omega,
          seg_add,
          show jStar s + (s.phase - jStar s) = s.phase from by omega]
    · have hj2b : (j2 : Int) ≤ insBound s := by omega
      obtain ⟨x, u, ndu, k, e2, ed2, hsp, hndu, hslot, hed2x, h0x, hnex,
        hweq⟩ := hD.m2 s.phase hgv1 j2 hj2b
      by_cases hce : e2 = eid
      · subst hce
        have hede : ed = ed2 := Option.some.inj (hed.symm.trans hed2x)
        subst hede
        obtain ⟨hue, hke⟩ := hD.slotU u k ndu s.active_node (slotN c0) nd e2
          hndu hslot hnd hslotL
        subst hue
        subst hke
        obtain ⟨ndI, hndI, hEI⟩ := hNFf s.nodes.length _ hlookI3
        refine ⟨x ++ seg s.text st aLenN, s.nodes.length, ndI, slotN cc, e2,
          { ed with start := ed.start + s.active_length }, ?_, hndI, ?_,
          hlookTr, h0x, ?_, ?_⟩
        · exact spellsTo_append (split_spellsTo hr hsp) hieStep
        · rw [hEI]
          exact ht2Self
        · rw [hlabTr]
          exact seg_ne_nil (by omega) (by omega)
        · rw [hlabTr]
          show seg s.text j2 (s.phase + 1 - j2)
            = (x ++ seg s.text st aLenN)
              ++ seg s.text (st + aLenN) (ln - aLenN)
          rw [List.append_assoc, ← seg_add]
          have h9 : aLenN + (ln - aLenN) = ln := by omega
          rw [h9, ← hlab]
          exact hweq
      · have hed2M : lookupL edges3 e2 = some ed2 := by
          rw [hlookOld3 e2 hce (lookupL_some_lt hed2x)]
          exact hed2x
        have hnotsplit : ¬ (u = s.active_node ∧ k = slotN c0) := by
          intro h6
          obtain ⟨h7, h8⟩ := h6
          subst h7
          subst h8
          have h9 : ndu = nd := Option.some.inj (hndu.symm.trans hnd)
          rw [h9, hslotL] at hslot
          exact hce (Option.some.inj (Option.some.inj hslot)).symm
        obtain ⟨nd2b, hnd2b, hkeep⟩ := hr.hslots u ndu hndu
        rcases hkeep k e2 hslot with h7 | hkept
        · exact absurd h7 hnotsplit
        · refine ⟨x, u, nd2b, k, e2, ed2, split_spellsTo hr hsp, hnd2b,
            hkept, hed2M, h0x, ?_, ?_⟩
          · rw [hlabPres e2 ed2 hed2x]
            exact hnex
          · rw [hlabPres e2 ed2 hed2x]
            exact hweq
  have hpend : WalkW (spState s ae c0 cc char nodesF edges3 ed) 0
      (seg (spState s ae c0 cc char nodesF edges3 ed).text (jStar s + 1)
        ((spState s ae c0 cc char nodesF edges3 ed).phase - (jStar s + 1))) :=
    pend_next_mid hD hmode hjv rfl rfl hSF1 hm2S
  have hOnto : ∀ e2 ed2,
      lookupL (spState s ae c0 cc char nodesF edges3 ed).edgeArena e2
        = some ed2 →
      ∃ v ndv k,
        lookupL (spState s ae c0 cc char nodesF edges3 ed).nodes v
          = some ndv ∧ lookupL ndv.edges k = some (some e2) := by
    intro e2 ed2 hed2
    rcases harenaSp e2 ed2 hed2 with ⟨he, _⟩ | ⟨he, _⟩ | ⟨he, _⟩ |
      ⟨hne2, hlt3, hold⟩
    · subst he
      obtain ⟨ndI, hndI, hEI⟩ := hNFf s.nodes.length _ hlookI3
      refine ⟨s.nodes.length, ndI, slotN cc, hndI, ?_⟩
      rw [hEI]
      exact ht2Self
    · subst he
      obtain ⟨ndI, hndI, hEI⟩ := hNFf s.nodes.length _ hlookI3
      refine ⟨s.nodes.length, ndI, slotN char, hndI, ?_⟩
      rw [hEI]
      show lookupL t2 (slotN char) = some (some s.edgeArena.length)
      rw [ht2Ne (slotN char) (fun h2 => hcharcc h2), ht1Self]
    · subst he
      obtain ⟨ndA, hndA, hEA⟩ := hNFf s.active_node _ hlookA3
      refine ⟨s.active_node, ndA, slotN c0, hndA, ?_⟩
      rw [hEA]
      exact ht0Self
    · obtain ⟨v, ndv, k, hv, hkk⟩ := hD.slotOnto e2 ed2 hold
      by_cases hsp3 : v = s.active_node ∧ k = slotN c0
      · exfalso
        obtain ⟨h7, h8⟩ := hsp3
        subst h7
        subst h8
        have h9 : ndv = nd := Option.some.inj (hv.symm.trans hnd)
        rw [h9, hslotL] at hkk
        exact hne2 (Option.some.inj (Option.some.inj hkk)).symm
      · obtain ⟨nd2b, hnd2b, hkeep⟩ := hr.hslots v ndv hv
        rcases hkeep k e2 hkk with h7 | hkept
        · exact absurd h7 hsp3
        · exact ⟨v, nd2b, k, hnd2b, hkept⟩
  have hVal : ∀ v ndv k e2,
      lookupL (spState s ae c0 cc char nodesF edges3 ed).nodes v = some ndv →
      lookupL ndv.edges k = some (some e2) →
      ∃ ed2, lookupL (spState s ae c0 cc char nodesF edges3 ed).edgeArena e2
        = some ed2 := by
    intro v ndv k e2 hv hk
    rcases hslotBackSp v ndv k e2 hv hk with
      ⟨_, _, he⟩ | ⟨_, _, he⟩ | ⟨_, _, he⟩ | ⟨hnotA, hvi, ndv0, h0, hk0⟩
    · subst he
      exact ⟨spIe s ed, hlookIe⟩
    · subst he
      exact ⟨r2Edge s, hlookLf⟩
    · subst he
      exact ⟨{ ed with start := ed.start + s.active_length }, hlookTr⟩
    · have he2lt := hfreshSp v ndv0 k e2 h0 hk0
      have hne2 : e2 ≠ eid := by
        intro hc
        subst hc
        exact hnotA (heidslot v ndv0 k h0 hk0)
      obtain ⟨ed2, hed2⟩ := hD.slotsValid v ndv0 k e2 h0 hk0
      refine ⟨ed2, ?_⟩
      show lookupL edges3 e2 = some ed2
      rw [hlookOld3 e2 hne2 he2lt]
      exact hed2
  have hU : SlotUnique (spState s ae c0 cc char nodesF edges3 ed) := by
    intro v1 k1 nd1 v2 k2 nd2 e h1 h2 h3 h4
    rcases hslotBackSp v1 nd1 k1 e h1 h2 with
      ⟨hva1, hkc1, he1⟩ | ⟨hvi1, hkc1, he1⟩ | ⟨hvi1, hkc1, he1⟩ |
      ⟨hnA1, hvi1, nd10, h10, h20⟩ <;>
    rcases hslotBackSp v2 nd2 k2 e h3 h4 with
      ⟨hva2, hkc2, he2⟩ | ⟨hvi2, hkc2, he2⟩ | ⟨hvi2, hkc2, he2⟩ |
      ⟨hnA2, hvi2, nd20, h30, h40⟩
    · exact ⟨hva1.trans hva2.symm, hkc1.trans hkc2.symm⟩
    · exact absurd (he1.symm.trans he2) (by omega)
    · exact absurd (he1.symm.trans he2) (by omega)
    · exfalso
      have h9 := hfreshSp v2 nd20 k2 e h30 h40
      omega
    · exact absurd (he1.symm.trans he2) (by omega)
    · exact ⟨hvi1.trans hvi2.symm, hkc1.trans hkc2.symm⟩
    · exact absurd (he1.symm.trans he2) (by omega)
    · exfalso
      have h9 := hfreshSp v2 nd20 k2 e h30 h40
      omega
    · exact absurd (he1.symm.trans he2) (by omega)
    · exact absurd (he1.symm.trans he2) (by omega)
    · exact ⟨hvi1.trans hvi2.symm, hkc1.trans hkc2.symm⟩
    · exfalso
      rw [he1] at h40
      exact hnA2 (heidslot v2 nd20 k2 h30 h40)
    · exfalso
      have h9 := hfreshSp v1 nd10 k1 e h10 h20
      omega
    · exfalso
      have h9 := hfreshSp v1 nd10 k1 e h10 h20
      omega
    · exfalso
      rw [he2] at h20
      exact hnA1 (heidslot v1 nd10 k1 h10 h20)
    · exact hD.slotU v1 k1 nd10 v2 k2 nd20 e h10 h20 h30 h40
  have hnoOld : ∀ e3 edo, lookupL s.edgeArena e3 = some edo →
      edo.next = some s.nodes.length → False := by
    intro e3 edo ho hno
    obtain ⟨v3, ndv3, k3, hv3, hk3⟩ := hD.slotOnto e3 edo ho
    obtain ⟨st3, ln3, q3, d3, hst3, hln3, hstln3, hlab3, hhc3, hcell3,
      ho3, hc3, hsp3, hqd3, hqb3⟩ :=
      hD.slotFacts v3 ndv3 k3 e3 edo hv3 hk3 ho
    by_cases h9 : edo.endId = 0
    · rw [(ho3 h9).1] at hno
      exact Option.noConfusion hno
    · obtain ⟨_, ⟨w2, ndw2, hnx2, hw20, hndw2⟩, _⟩ := hc3 h9
      have h10 : w2 = s.nodes.length :=
        Option.some.inj (hnx2.symm.trans hno)
      rw [h10] at hndw2
      have := lookupL_some_lt hndw2
      omega
  have hNx : NextUnique (spState s ae c0 cc char nodesF edges3 ed) := by
    have hmap : ∀ e2 ed2 w,
        lookupL edges3 e2 = some ed2 → ed2.next = some w →
        (∃ edo, lookupL s.edgeArena e2 = some edo ∧ edo.next = some w) ∨
        (e2 = s.edgeArena.length + 1 ∧ w = s.nodes.length) := by
      intro e2 ed2 w he2 hw
      rcases harenaSp e2 ed2 he2 with ⟨he, hrec⟩ | ⟨he, hrec⟩ | ⟨he, hrec⟩ |
        ⟨hne2, hlt3, hold⟩
      · subst he
        left
        refine ⟨ed, hed, ?_⟩
        rw [hrec] at hw
        exact hw
      · subst he
        rw [hrec] at hw
        exact Option.noConfusion hw
      · subst he
        rw [hrec] at hw
        right
        exact ⟨rfl, (Option.some.inj hw).symm⟩
      · exact Or.inl ⟨ed2, hold, hw⟩
    intro e1 ed1 e2 ed2 w h1 h2 hn1 hn2
    rcases hmap e1 ed1 w h1 hn1 with ⟨edo1, ho1, hno1⟩ | ⟨he1, hw1⟩
    · rcases hmap e2 ed2 w h2 hn2 with ⟨edo2, ho2, hno2⟩ | ⟨he2, hw2⟩
      · exact hD.nextU e1 edo1 e2 edo2 w ho1 ho2 hno1 hno2
      · exfalso
        rw [hw2] at hno1
        exact hnoOld e1 edo1 ho1 hno1
    · rcases hmap e2 ed2 w h2 hn2 with ⟨edo2, ho2, hno2⟩ | ⟨he2, hw2⟩
      · exfalso
        rw [hw1] at hno2
        exact hnoOld e2 edo2 ho2 hno2
      · rw [he1, he2]
  have hRt : RootNoIncoming (spState s ae c0 cc char nodesF edges3 ed) := by
    intro e2 ed2 hed2 hc
    rcases harenaSp e2 ed2 hed2 with ⟨he, hrec⟩ | ⟨he, hrec⟩ | ⟨he, hrec⟩ |
      ⟨hne2, hlt3, hold⟩
    · rw [hrec] at hc
      exact hD.rootNI eid ed hed hc
    · rw [hrec] at hc
      exact Option.noConfusion hc
    · rw [hrec] at hc
      have h9 : s.nodes.length = 0 := Option.some.inj hc
      omega
    · exact hD.rootNI e2 ed2 hold hc
  have hB2 : ∀ v ndv, v ≠ 0 →
      lookupL (spState s ae c0 cc char nodesF edges3 ed).nodes v = some ndv →
      ∃ k1 k2 e1 e2 ed1 ed2, k1 ≠ k2 ∧
        lookupL ndv.edges k1 = some (some e1) ∧
        lookupL ndv.edges k2 = some (some e2) ∧
        lookupL (spState s ae c0 cc char nodesF edges3 ed).edgeArena e1
          = some ed1 ∧
        lookupL (spState s ae c0 cc char nodesF edges3 ed).edgeArena e2
          = some ed2 := by
    intro v ndv hv0 hv
    rcases hbackF v ndv hv with ⟨hvi, hE⟩ | ⟨hva, hE⟩ |
      ⟨hvi, hva, ndv0, h0, hE⟩
    · refine ⟨slotN char, slotN cc, s.edgeArena.length, eid, r2Edge s,
        { ed with start := ed.start + s.active_length }, hcharcc, ?_, ?_,
        hlookLf, hlookTr⟩
      · rw [hE, ht2Ne (slotN char) (fun h2 => hcharcc h2), ht1Self]
      · rw [hE]
        exact ht2Self
    · subst hva
      obtain ⟨k1, k2, e1, e2, ed1x, ed2x, hk12, hs1, hs2, he1x, he2x⟩ :=
        hD.branch2 s.active_node nd hv0 hnd
      have htrans : ∀ k3 e3 ed3, lookupL nd.edges k3 = some (some e3) →
          lookupL s.edgeArena e3 = some ed3 →
          ∃ e4 ed4, lookupL t0 k3 = some (some e4) ∧
            lookupL edges3 e4 = some ed4 := by
        intro k3 e3 ed3 hk3 he3
        by_cases hkc : k3 = slotN c0
        · subst hkc
          exact ⟨s.edgeArena.length + 1, spIe s ed, ht0Self, hlookIe⟩
        · have he3ne : e3 ≠ eid := by
            intro hc
            subst hc
            exact hkc (heidslot s.active_node nd k3 hnd hk3).2
          refine ⟨e3, ed3, ?_, ?_⟩
          · rw [ht0Ne k3 hkc]
            exact hk3
          · rw [hlookOld3 e3 he3ne (lookupL_some_lt he3)]
            exact he3
      obtain ⟨e4, ed4, hs4, he4⟩ := htrans k1 e1 ed1x hs1 he1x
      obtain ⟨e5, ed5, hs5, he5⟩ := htrans k2 e2 ed2x hs2 he2x
      refine ⟨k1, k2, e4, e5, ed4, ed5, hk12, ?_, ?_, he4, he5⟩
      · rw [hE]
        exact hs4
      · rw [hE]
        exact hs5
    · obtain ⟨k1, k2, e1, e2, ed1x, ed2x, hk12, hs1, hs2, he1x, he2x⟩ :=
        hD.branch2 v ndv0 hv0 h0
      have htrans2 : ∀ k3 e3 ed3, lookupL ndv0.edges k3 = some (some e3) →
          lookupL s.edgeArena e3 = some ed3 →
          ∃ ed4, lookupL edges3 e3 = some ed4 := by
        intro k3 e3 ed3 hk3 he3
        have he3ne : e3 ≠ eid := by
          intro hc
          subst hc
          exact hva (heidslot v ndv0 k3 h0 hk3).1
        refine ⟨ed3, ?_⟩
        rw [hlookOld3 e3 he3ne (lookupL_some_lt he3)]
        exact he3
      obtain ⟨ed4, he4⟩ := htrans2 k1 e1 ed1x hs1 he1x
      obtain ⟨ed5, he5⟩ := htrans2 k2 e2 ed2x hs2 he2x
      refine ⟨k1, k2, e1, e2, ed4, ed5, hk12, ?_, ?_, he4, he5⟩
      · rw [hE]
        exact hs1
      · rw [hE]
        exact hs2
  have hlnkM : ∀ v ndv w,
      lookupL (spState s ae c0 cc char nodesF edges3 ed).nodes v = some ndv →
      ndv.link = some w →
      ∃ q3 d3 : Nat,
        SpellsTo (spState s ae c0 cc char nodesF edges3 ed) 0
          (seg (spState s ae c0 cc char nodesF edges3 ed).text q3 d3) v ∧
        q3 + d3 ≤ (spState s ae c0 cc char nodesF edges3 ed).text.length ∧
        SpellsTo (spState s ae c0 cc char nodesF edges3 ed) 0
          (seg (spState s ae c0 cc char nodesF edges3 ed).text (q3 + 1)
            (d3 - 1)) w := by
    intro v ndv w hv hw
    rcases hlinkS v ndv w hv hw with ⟨ndv0, h0, hl0⟩ | ⟨hwI, hpv⟩
    · obtain ⟨q3, d3, h1, h2, h3⟩ := hD.lnk v ndv0 w h0 hl0
      refine ⟨q3, d3, split_spellsTo hr h1, ?_, split_spellsTo hr h3⟩
      show q3 + d3 ≤ s.text.length
      exact h2
    · obtain ⟨hv0, hjs1, hspP⟩ := hD.prevSp hmode v hpv
      subst hwI
      refine ⟨jStar s - 1, s.phase - (jStar s - 1), split_spellsTo hr hspP,
        by show jStar s - 1 + (s.phase - (jStar s - 1)) ≤ s.text.length
           omega, ?_⟩
      have he1 : jStar s - 1 + 1 = jStar s := by omega
      have he2 : s.phase - (jStar s - 1) - 1 = s.phase - jStar s := by omega
      show SpellsTo (spState s ae c0 cc char nodesF edges3 ed) 0
        (seg s.text (jStar s - 1 + 1) (s.phase - (jStar s - 1) - 1))
        s.nodes.length
      rw [he1, he2]
      exact hspIn
  refine ⟨hD.textEq, hmode, hph, ?_, ?_, ?_, ⟨s.phase, hgvM, rfl⟩, hSF1,
    hOnto, hVal, hU, hNx, hRt, hB2, ?_, hlnkM, ?_, ?_, ?_, ?_, ?_, hpend⟩
  · show (1 : Int) ≤ s.remainder
    omega
  · show s.remainder ≤ (s.phase : Int) + 1
    omega
  · show ((jStar s : Nat) : Int) = (s.phase : Int) - s.remainder + 1
    omega
  · intro g hg j2 hj2
    have hge : g = s.phase := by
      have h4 := Option.some.inj (hg.symm.trans hgvM)
      omega
    subst hge
    exact hm2S j2 hj2
  · intro v ndv hv hnone
    have h2 := hlinkNone v ndv hv hnone
    show some s.nodes.length = some v
    rw [h2]
  · intro p2 hp2
    have h2 : p2 = s.nodes.length := (Option.some.inj hp2).symm
    subst h2
    refine ⟨by omega, ?_⟩
    exact hspIn
  · intro p2 hp2
    have h2 : p2 = s.nodes.length := (Option.some.inj hp2).symm
    subst h2
    show s.nodes.length ≠ s.active_node
    omega
  · intro h1
    exfalso
    have h2 : s.remainder = 1 := h1
    omega
  · refine ⟨aLenN, ?_, ?_, ?_⟩
    · show s.active_length = ((aLenN : Nat) : Int)
      exact hal
    · intro h2
      exact absurd h2 (by omega)
    · intro _
      refine ⟨aeN, ?_, ?_, hjae, ?_, ?_⟩
      · show some ae = some ((aeN : Nat) : Int)
        rw [haee]
      · show aeN + aLenN = s.phase
        exact haep
      · exact split_spellsTo hr hspA
      · exact split_walkW hr hwkA

theorem deep_split {T : List Nat} {s : Ukkonen} {char c0 cc : Nat}
    {ae ev : Int} {nd : Node} {eid : Nat} {ed : Edge} {ec : End}
    {t : Ukkonen}
    (hT : validText T) (hD : Deep T s)
    (hmode : s.mode = Mode.inner) (hrem : s.remainder > 0)
    (hchar : lookupL s.text s.phase = some char)
    (hres : (if s.active_length = 0 then some ((s.phase : Nat) : Int)
      else s.active_edge) = some ae)
    (hc0 : pyGet s.text ae = some c0)
    (hnd : lookupL s.nodes s.active_node = some nd)
    (hslotG : pyGet nd.edges (slotIdx c0) = some (some eid))
    (hed : lookupL s.edgeArena eid = some ed)
    (hec : lookupL s.ends ed.endId = some ec)
    (hev : ec.value = some ev)
    (hlt : ¬ s.active_length ≥ ev - ed.start + 1)
    (hcc : pyGet s.text (ed.start + s.active_length) = some cc)
    (hccc : ¬ cc = char)
    (hrun : splitCase
        { s with
          active_edge := some ae,
          idxLog := slotIdx c0 :: s.idxLog }
        s.phase char (slotIdx c0) nd eid ed = some t) :
    Deep T t := by
  unfold splitCase at hrun
  dsimp only at hrun
  split at hrun
  · cases hrun
  · rename_i t1 ht1
    split at hrun
    · cases hrun
    · rename_i t0 ht0
      rw [List.length_append, List.length_singleton] at ht0
      split at hrun
      · cases hrun
      · rename_i nodes2 hnodes2
        split at hrun
        · cases hrun
        · rename_i edges3 hedges3
          split at hrun
          · cases hrun
          · rename_i c2 hc2
            split at hrun
            · cases hrun
            · rename_i t2 ht2
              split at hrun
              · cases hrun
              · rename_i nodes3 hnodes3
                obtain ⟨haN2lt, hnodes2E⟩ := asetL_eq_some hnodes2
                obtain ⟨hin3lt, hnodes3E⟩ := asetL_eq_some hnodes3
                have haNlen : s.active_node < s.nodes.length :=
                  lookupL_some_lt hnd
                have hlookA3 : lookupL nodes3 s.active_node
                    = some { nd with edges := t0 } := by
                  rw [hnodes3E, lookupL_setL_ne
                    (by omega : s.active_node ≠ s.nodes.length), hnodes2E]
                  exact lookupL_setL_self haN2lt
                have hlookI3 : lookupL nodes3 s.nodes.length
                    = some { edges := t2, link := none } := by
                  rw [hnodes3E]
                  exact lookupL_setL_self hin3lt
                have hlen1 : (s.nodes
                    ++ [({ edges := emptyTable, link := none } : Node)]).length
                    = s.nodes.length + 1 := by
                  rw [List.length_append, List.length_singleton]
                have hlookO3 : ∀ v, v ≠ s.active_node → v ≠ s.nodes.length →
                    lookupL nodes3 v = lookupL s.nodes v := by
                  intro v h1 h2
                  rw [hnodes3E, lookupL_setL_ne h2, hnodes2E,
                    lookupL_setL_ne h1]
                  by_cases h3 : v < s.nodes.length
                  · exact lookupL_append_lt _ h3
                  · have h4 : lookupL s.nodes v = none := by
                      cases h5 : lookupL s.nodes v with
                      | none => rfl
                      | some x => exact absurd (lookupL_some_lt h5) h3
                    have h6 : lookupL (s.nodes
                        ++ [({ edges := emptyTable, link := none } : Node)]) v
                        = none := by
                      cases h5 : lookupL (s.nodes
                          ++ [({ edges := emptyTable, link := none } : Node)])
                          v with
                      | none => rfl
                      | some x =>
                        have h7 := lookupL_some_lt h5
                        rw [hlen1] at h7
                        omega
                    rw [h4, h6]
                have hback3 : ∀ v ndv, lookupL nodes3 v = some ndv →
                    (v = s.nodes.length ∧ ndv.link = none) ∨
                    (∃ ndv0, lookupL s.nodes v = some ndv0 ∧
                      ndv.link = ndv0.link) := by
                  intro v ndv hv
                  by_cases hvi : v = s.nodes.length
                  · subst hvi
                    rw [hlookI3] at hv
                    left
                    exact ⟨rfl, by rw [← Option.some.inj hv]⟩
                  · by_cases hva : v = s.active_node
                    · subst hva
                      rw [hlookA3] at hv
                      right
                      refine ⟨nd, hnd, ?_⟩
                      rw [← Option.some.inj hv]
                    · rw [hlookO3 v hva hvi] at hv
                      exact Or.inr ⟨ndv, hv, rfl⟩
                split at hrun
                · rename_i hprevN
                  have hlinkNone3 : ∀ v ndv, lookupL nodes3 v = some ndv →
                      ndv.link = none → v = s.nodes.length := by
                    intro v ndv hv hnone
                    rcases hback3 v ndv hv with ⟨hvi, _⟩ | ⟨ndv0, h0, hl⟩
                    · exact hvi
                    · rw [hl] at hnone
                      have h2 := hD.nl v ndv0 h0 hnone
                      rw [h2.2] at hprevN
                      cases hprevN
                  have hlinkS3 : ∀ v ndv w, lookupL nodes3 v = some ndv →
                      ndv.link = some w →
                      (∃ ndv0, lookupL s.nodes v = some ndv0 ∧
                        ndv0.link = some w) ∨
                      (w = s.nodes.length ∧ s.previous_node = some v) := by
                    intro v ndv w hv hw
                    rcases hback3 v ndv hv with ⟨hvi, hl⟩ | ⟨ndv0, h0, hl⟩
                    · rw [hl] at hw
                      cases hw
                    · rw [hl] at hw
                      exact Or.inl ⟨ndv0, h0, hw⟩
                  exact deep_afterInsert
                    (splitMid hT hD hmode hrem hchar hres hc0 hnd hslotG hed
                      hec hev hlt hcc hccc ht1 ht0 hnodes2 hedges3 hc2 ht2
                      hnodes3 (fun v ndv hv => ⟨ndv, hv, rfl⟩)
                      (fun v ndv1 hv => ⟨ndv1, hv, rfl⟩) hlinkNone3 hlinkS3)
                    hrun
                · rename_i p hprevP
                  split at hrun
                  · cases hrun
                  · rename_i pn2 hpn2
                    split at hrun
                    · cases hrun
                    · rename_i nodes4 hnodes4
                      obtain ⟨hplt, hnodes4E⟩ := asetL_eq_some hnodes4
                      have hlookP4 : lookupL nodes4 p
                          = some { pn2 with link := some s.nodes.length } := by
                        rw [hnodes4E]
                        exact lookupL_setL_self hplt
                      have hlookO4 : ∀ v, v ≠ p →
                          lookupL nodes4 v = lookupL nodes3 v := by
                        intro v hv
                        rw [hnodes4E]
                        exact lookupL_setL_ne hv
                      have hNF4 : ∀ v ndv, lookupL nodes4 v = some ndv →
                          ∃ ndv1, lookupL nodes3 v = some ndv1 ∧
                            ndv.edges = ndv1.edges := by
                        intro v ndv hv
                        by_cases hvp : v = p
                        · subst hvp
                          rw [hlookP4] at hv
                          refine ⟨pn2, hpn2, ?_⟩
                          rw [← Option.some.inj hv]
                        · rw [hlookO4 v hvp] at hv
                          exact ⟨ndv, hv, rfl⟩
                      have hNFf4 : ∀ v ndv1, lookupL nodes3 v = some ndv1 →
                          ∃ ndv, lookupL nodes4 v = some ndv ∧
                            ndv.edges = ndv1.edges := by
                        intro v ndv1 hv
                        by_cases hvp : v = p
                        · subst hvp
                          have he : ndv1 = pn2 :=
                            Option.some.inj (hv.symm.trans hpn2)
                          refine ⟨{ pn2 with link := some s.nodes.length },
                            hlookP4, ?_⟩
                          rw [he]
                        · refine ⟨ndv1, ?_, rfl⟩
                          rw [hlookO4 v hvp]
                          exact hv
                      have hlinkNone4 : ∀ v ndv, lookupL nodes4 v = some ndv →
                          ndv.link = none → v = s.nodes.length := by
                        intro v ndv hv hnone
                        by_cases hvp : v = p
                        · subst hvp
                          rw [hlookP4] at hv
                          rw [← Option.some.inj hv] at hnone
                          exact Option.noConfusion hnone
                        · rw [hlookO4 v hvp] at hv
                          rcases hback3 v ndv hv with ⟨hvi, _⟩ |
                            ⟨ndv0, h0, hl⟩
                          · exact hvi
                          · rw [hl] at hnone
                            have h2 := hD.nl v ndv0 h0 hnone
                            have h3 := h2.2
                            rw [hprevP] at h3
                            exact absurd (Option.some.inj h3).symm hvp
                      have hlinkS4 : ∀ v ndv w, lookupL nodes4 v = some ndv →
                          ndv.link = some w →
                          (∃ ndv0, lookupL s.nodes v = some ndv0 ∧
                            ndv0.link = some w) ∨
                          (w = s.nodes.length ∧ s.previous_node = some v) := by
                        intro v ndv w hv hw
                        by_cases hvp : v = p
                        · subst hvp
                          rw [hlookP4] at hv
                          rw [← Option.some.inj hv] at hw
                          exact Or.inr ⟨(Option.some.inj hw).symm, hprevP⟩
                        · rw [hlookO4 v hvp] at hv
                          rcases hback3 v ndv hv with ⟨hvi, hl⟩ |
                            ⟨ndv0, h0, hl⟩
                          · rw [hl] at hw
                            cases hw
                          · rw [hl] at hw
                            exact Or.inl ⟨ndv0, h0, hw⟩
                      exact deep_afterInsert
                        (splitMid hT hD hmode hrem hchar hres hc0 hnd hslotG
                          hed hec hev hlt hcc hccc ht1 ht0 hnodes2 hedges3
                          hc2 ht2 hnodes3 hNF4 hNFf4 hlinkNone4 hlinkS4)
                        hrun

theorem deep_extendIter {T : List Nat} {s t : Ukkonen}
    (hT : validText T) (hD : Deep T s)
    (hmode : s.mode = Mode.inner) (hrem : s.remainder > 0)
    (hrun : extendIter s = some t) : Deep T t := by
  unfold extendIter at hrun
  dsimp only at hrun
  split at hrun
  · cases hrun
  · rename_i char hchar
    split at hrun
    · cases hrun
    · rename_i ae hres
      split at hrun
      · cases hrun
      · rename_i c0 hc0
        split at hrun
        · cases hrun
        · rename_i nd hnd
          split at hrun
          · cases hrun
          · rename_i slot hslotG
            split at hrun
            · exact deep_rule2 hT hD hmode hrem hchar hres hc0 hnd hslotG
                hrun
            · rename_i eid
              split at hrun
              · cases hrun
              · rename_i ed hed
                split at hrun
                · cases hrun
                · rename_i ec hec
                  split at hrun
                  · cases hrun
                  · rename_i ev hev
                    split at hrun
                    · rename_i hge
                      split at hrun
                      · cases hrun
                      · rename_i w hnext
                        have ht2 := Option.some.inj hrun
                        rw [← ht2]
                        exact deep_walkdown hT hD hmode hrem hres hc0 hnd
                          hslotG hed hec hev hge hnext
                    · rename_i hlt
                      split at hrun
                      · cases hrun
                      · rename_i cc hcc
                        split at hrun
                        · rename_i hccc
                          split at hrun
                          · rename_i hprev
                            have ht2 := Option.some.inj hrun
                            rw [← ht2]
                            exact deep_showstop_noprev hT hD hmode hrem hchar
                              hres hc0 hnd hslotG hed hec hev hlt hcc hccc
                              hprev
                          · rename_i p hprev
                            split at hrun
                            · cases hrun
                            · rename_i pn hpn
                              split at hrun
                              · cases hrun
                              · rename_i ns hset
                                have ht2 := Option.some.inj hrun
                                rw [← ht2]
                                exact deep_showstop_prev hT hD hmode hrem
                                  hchar hres hc0 hnd hslotG hed hec hev hlt
                                  hcc hccc hprev hpn hset
                        · rename_i hccc
                          exact deep_split hT hD hmode hrem hchar hres hc0
                            hnd hslotG hed hec hev hlt hcc hccc hrun

theorem deep_step {T : List Nat} {s t : Ukkonen}
    (hT : validText T) (hD : Deep T s) (h : step s = some t) : Deep T t := by
  unfold step at h
  split at h
  · cases h
  · rename_i hmode
    split at h
    · rename_i hph
      split at h
      · cases h
      · rename_i ends1 hset
        have ht2 := Option.some.inj h
        rw [← ht2]
        exact deep_phaseStart hD hmode hph hset
    · rename_i hph
      have ht2 := Option.some.inj h
      rw [← ht2]
      exact deep_finish hD hmode hph
  · rename_i hmode
    split at h
    · rename_i hrem
      exact deep_extendIter hT hD hmode hrem h
    · rename_i hrem
      have ht2 := Option.some.inj h
      rw [← ht2]
      exact deep_rem0 hD hmode hrem

theorem deep_reach {T : List Nat} {s : Ukkonen} (hT : validText T)
    (h : Reach (initState T) s) : Deep T s := by
  induction h with
  | refl => exact deep_init T
  | tail h1 h2 ih => exact deep_step hT ih h2

/-- C7: for every valid input text and every state of the construction
(any state reachable from the initial state, hence every point during and
after construction), every edge in the arena — in particular every edge
reachable from the root, since every arena edge sits in some node's edge
table — satisfies exactly one of being a leaf (no child node, a
suffix id) and being an internal edge (a child node, no suffix id), and
its length end.value - start + 1 is at least 1.  No edge is ever
simultaneously a leaf and an internal edge. -/
theorem edge_leaf_internal_dichotomy {T : List Nat} {s : Ukkonen}
    (hT : validText T) (hreach : Reach (initState T) s) :
    ∀ eid ed, lookupL s.edgeArena eid = some ed →
      ((ed.next = none ∧ ed.suffix_id ≠ none) ∨
        (ed.next ≠ none ∧ ed.suffix_id = none)) ∧
      ∃ ec v, lookupL s.ends ed.endId = some ec ∧ ec.value = some v ∧
        1 ≤ v - ed.start + 1 := by
  intro eid ed hed
  have hD := deep_reach hT hreach
  obtain ⟨v2, nd, k, hnd, hslot⟩ := hD.slotOnto eid ed hed
  obtain ⟨st, ln, q, d, hst, hln, hstln, hlab, hhc, ⟨ec, hec, hval⟩,
    hopen, hclosed, hspell, hqd, hqb⟩ :=
    hD.slotFacts v2 nd k eid ed hnd hslot hed
  constructor
  · by_cases h0 : ed.endId = 0
    · obtain ⟨hn, hsid⟩ := hopen h0
      left
      refine ⟨hn, ?_⟩
      rw [hsid]
      exact fun hc => Option.noConfusion hc
    · obtain ⟨hsid, ⟨w, ndw, hnext, hw0, hndw⟩, _⟩ := hclosed h0
      right
      refine ⟨?_, hsid⟩
      rw [hnext]
      exact fun hc => Option.noConfusion hc
  · refine ⟨ec, (st : Int) + ln - 1, hec, hval, ?_⟩
    rw [hst]
    omega

/-- The state of Ukkonen("a") after two construction steps: the leaf for
the suffix starting at 0 has just been created by rule 2. -/
def uC7 : Ukkonen := (stepN 2 (initState [97])).getD (initState [97])

/-- The single edge of that state: the open leaf with suffix id 0. -/
def edC7 : Edge :=
  { start := 0
    endId := 0
    next := none
    suffix_id := some 0 }

/-- Witness for edge_leaf_internal_dichotomy at the text "a", the state
after two steps, and its unique edge. -/
theorem edge_leaf_internal_dichotomy_witness :
    ((edC7.next = none ∧ edC7.suffix_id ≠ none) ∨
      (edC7.next ≠ none ∧ edC7.suffix_id = none)) ∧
    ∃ ec v, lookupL uC7.ends edC7.endId = some ec ∧ ec.value = some v ∧
      1 ≤ v - edC7.start + 1 :=
  edge_leaf_internal_dichotomy (T := [97]) (by unfold validText; decide)
    (stepN_reach (show stepN 2 (initState [97]) = some uC7 from rfl)) 0 edC7
    (by rfl)

theorem lookupL_append_ge {α : Type} :
    ∀ {l : List α} (m : List α) {j : Nat}, l.length ≤ j →
      lookupL (l ++ m) j = lookupL m (j - l.length) := by
  intro l
  induction l with
  | nil => intro m j _; rfl
  | cons x xs ih =>
    intro m j h
    cases j with
    | zero => simp at h
    | succ n =>
      rw [List.cons_append, lookupL_cons_succ]
      have h2 := ih m (j := n) (by simp only [List.length_cons] at h; omega)
      rw [h2]
      simp only [List.length_cons]
      congr 1
      omega

theorem lookupL_append_cases {α : Type} {l m : List α} {j : Nat} {a : α}
    (h : lookupL (l ++ m) j = some a) :
    lookupL l j = some a ∨ a ∈ m := by
  by_cases hj : j < l.length
  · rw [lookupL_append_lt m hj] at h
    exact Or.inl h
  · rw [lookupL_append_ge m (by omega)] at h
    exact Or.inr (lookupL_mem h)

theorem lookupL_setL_cases {α : Type} {l : List α} {k j : Nat} {v a : α}
    (h : lookupL (setL l k v) j = some a) :
    a = v ∨ lookupL l j = some a := by
  by_cases hjk : j = k
  · subst hjk
    by_cases hk : j < l.length
    · rw [lookupL_setL_self hk] at h
      exact Or.inl (Option.some.inj h).symm
    · have := lookupL_some_lt h
      rw [setL_length] at this
      omega
  · rw [lookupL_setL_ne hjk] at h
    exact Or.inr h

theorem pySet_length {α : Type} {l l2 : List α} {i : Int} {v : α}
    (h : pySet l i v = some l2) : l2.length = l.length := by
  unfold pySet at h
  split at h
  · cases h
    exact setL_length
  · split at h
    · cases h
      exact setL_length
    · cases h

theorem pySet_lt_some {α : Type} {l : List α} {i : Int} (v : α)
    (h0 : 0 ≤ i) (hlt : i < (l.length : Int)) :
    pySet l i v = some (setL l i.toNat v) := by
  unfold pySet
  rw [if_pos ⟨h0, hlt⟩]

theorem asetL_lt_some {α : Type} {l : List α} {k : Nat} (v : α)
    (h : k < l.length) : asetL l k v = some (setL l k v) := by
  unfold asetL
  rw [if_pos h]

theorem afterInsert_ne_none {s1 : Ukkonen} {i : Nat}
    (h : s1.active_node < s1.nodes.length) :
    afterInsert s1 i ≠ none := by
  intro hc
  unfold afterInsert at hc
  dsimp only at hc
  split at hc
  · cases hc
  · split at hc
    · rename_i hnone
      obtain ⟨nd, hnd⟩ := lookupL_lt_some h
      rw [hnd] at hnone
      cases hnone
    · split at hc
      · cases hc
      · cases hc

/-- Every node record of the state has its full edge table of
ALPHABET_LENGTH slots (Node.__init__ allocates [None] * ALPHABET_LENGTH
and every later write is an in-place slot update). -/
def TblLen (s : Ukkonen) : Prop :=
  ∀ v nd, lookupL s.nodes v = some nd →
    nd.edges.length = ALPHABET_LENGTH.toNat

theorem tblLen_init (T : List Nat) : TblLen (initState T) := by
  intro v nd h
  cases v with
  | zero =>
    cases h
    exact List.length_replicate _ _
  | succ n => cases h

theorem emptyTable_length : emptyTable.length = ALPHABET_LENGTH.toNat :=
  List.length_replicate _ _

theorem tblLen_rule2Leaf {s t : Ukkonen} {i : Nat} {idx : Int} {nd : Node}
    (hnd : nd.edges.length = ALPHABET_LENGTH.toNat)
    (hs : TblLen s)
    (h : rule2Leaf s i idx nd = some t) : TblLen t := by
  unfold rule2Leaf at h
  dsimp only at h
  split at h
  · cases h
  · rename_i tbl htbl
    split at h
    · cases h
    · rename_i nodes1 hset
      obtain ⟨hlt, hn1⟩ := asetL_eq_some hset
      have htblL : tbl.length = ALPHABET_LENGTH.toNat := by
        rw [pySet_length htbl]; exact hnd
      have h1 : ∀ v nd2, lookupL nodes1 v = some nd2 →
          nd2.edges.length = ALPHABET_LENGTH.toNat := by
        intro v nd2 hv
        rw [hn1] at hv
        rcases lookupL_setL_cases hv with he | he
        · rw [he]; exact htblL
        · exact hs v nd2 he
      split at h
      · obtain ⟨_, hnodes, _⟩ := afterInsert_frame h
        intro v nd2 hv
        rw [hnodes] at hv
        exact h1 v nd2 hv
      · rename_i p hp
        split at h
        · cases h
        · rename_i pn hpn
          split at h
          · cases h
          · rename_i nodes2 hset2
            obtain ⟨hlt2, hn2⟩ := asetL_eq_some hset2
            obtain ⟨_, hnodes, _⟩ := afterInsert_frame h
            intro v nd2 hv
            rw [hnodes] at hv
            have hv2 : lookupL nodes2 v = some nd2 := hv
            rw [hn2] at hv2
            rcases lookupL_setL_cases hv2 with he | hv3
            · rw [he]
              have hpn2 : lookupL nodes1 p = some pn := hpn
              exact h1 p pn hpn2
            · exact h1 v nd2 hv3

theorem tblLen_splitCase {s t : Ukkonen} {i : Nat} {char : Nat} {idx : Int}
    {nd : Node} {eid : Nat} {ed : Edge}
    (hnd : nd.edges.length = ALPHABET_LENGTH.toNat)
    (hs : TblLen s)
    (h : splitCase s i char idx nd eid ed = some t) : TblLen t := by
  unfold splitCase at h
  dsimp only at h
  split at h
  · cases h
  · rename_i t1 ht1
    split at h
    · cases h
    · rename_i t0 ht0
      split at h
      · cases h
      · rename_i nodes2 hset2
        obtain ⟨_, hn2⟩ := asetL_eq_some hset2
        split at h
        · cases h
        · rename_i edges3 hset3
          split at h
          · cases h
          · rename_i c2 hc2
            split at h
            · cases h
            · rename_i t2 ht2
              split at h
              · cases h
              · rename_i nodes3 hset4
                obtain ⟨_, hn3⟩ := asetL_eq_some hset4
                have ht0L : t0.length = ALPHABET_LENGTH.toNat := by
                  rw [pySet_length ht0]; exact hnd
                have ht1L : t1.length = ALPHABET_LENGTH.toNat := by
                  rw [pySet_length ht1]; exact emptyTable_length
                have ht2L : t2.length = ALPHABET_LENGTH.toNat := by
                  rw [pySet_length ht2]; exact ht1L
                have h1 : ∀ v nd2, lookupL nodes3 v = some nd2 →
                    nd2.edges.length = ALPHABET_LENGTH.toNat := by
                  intro v nd2 hv
                  rw [hn3] at hv
                  rcases lookupL_setL_cases hv with he | hv2
                  · rw [he]; exact ht2L
                  · rw [hn2] at hv2
                    rcases lookupL_setL_cases hv2 with he | hv3
                    · rw [he]; exact ht0L
                    · rcases lookupL_append_cases hv3 with hv4 | hm
                      · exact hs v nd2 hv4
                      · rw [List.mem_singleton] at hm
                        rw [hm]
                        exact emptyTable_length
                split at h
                · obtain ⟨_, hnodes, _⟩ := afterInsert_frame h
                  intro v nd2 hv
                  rw [hnodes] at hv
                  exact h1 v nd2 hv
                · rename_i p hp
                  split at h
                  · cases h
                  · rename_i pn hpn
                    split at h
                    · cases h
                    · rename_i nodes4 hset5
                      obtain ⟨_, hn4⟩ := asetL_eq_some hset5
                      obtain ⟨_, hnodes, _⟩ := afterInsert_frame h
                      intro v nd2 hv
                      rw [hnodes] at hv
                      have hv2 : lookupL nodes4 v = some nd2 := hv
                      rw [hn4] at hv2
                      rcases lookupL_setL_cases hv2 with he | hv3
                      · rw [he]
                        have hpn2 : lookupL nodes3 p = some pn := hpn
                        exact h1 p pn hpn2
                      · exact h1 v nd2 hv3

theorem tblLen_extendIter {s t : Ukkonen} (hs : TblLen s)
    (h : extendIter s = some t) : TblLen t := by
  unfold extendIter at h
  dsimp only at h
  split at h
  · cases h
  · rename_i char hchar
    split at h
    · cases h
    · rename_i ae hres
      split at h
      · cases h
      · rename_i c0 hc0
        split at h
        · cases h
        · rename_i nd hnd
          split at h
          · cases h
          · rename_i slot hslotG
            split at h
            · refine tblLen_rule2Leaf ?_ ?_ h
              · exact hs _ _ hnd
              · exact fun v nd2 hv => hs v nd2 hv
            · rename_i eid
              split at h
              · cases h
              · rename_i ed hed
                split at h
                · cases h
                · rename_i ec hec
                  split at h
                  · cases h
                  · rename_i ev hev
                    split at h
                    · split at h
                      · cases h
                      · rename_i w hnext
                        have ht2 := Option.some.inj h
                        rw [← ht2]
                        intro v nd2 hv
                        exact hs v nd2 hv
                    · split at h
                      · cases h
                      · rename_i cc hcc
                        split at h
                        · split at h
                          · have ht2 := Option.some.inj h
                            rw [← ht2]
                            intro v nd2 hv
                            exact hs v nd2 hv
                          · rename_i p hp
                            split at h
                            · cases h
                            · rename_i pn hpn
                              split at h
                              · cases h
                              · rename_i ns hset
                                have ht2 := Option.some.inj h
                                rw [← ht2]
                                obtain ⟨_, hn⟩ := asetL_eq_some hset
                                intro v nd2 hv
                                have hv2 : lookupL ns v = some nd2 := hv
                                rw [hn] at hv2
                                rcases lookupL_setL_cases hv2 with he | hv3
                                · rw [he]
                                  exact hs p pn hpn
                                · exact hs v nd2 hv3
                        · refine tblLen_splitCase ?_ ?_ h
                          · exact hs _ _ hnd
                          · exact fun v nd2 hv => hs v nd2 hv

theorem tblLen_step {s t : Ukkonen} (hs : TblLen s)
    (h : step s = some t) : TblLen t := by
  unfold step at h
  split at h
  · cases h
  · split at h
    · split at h
      · cases h
      · have ht2 := Option.some.inj h
        rw [← ht2]
        intro v nd2 hv
        exact hs v nd2 hv
    · have ht2 := Option.some.inj h
      rw [← ht2]
      intro v nd2 hv
      exact hs v nd2 hv
  · split at h
    · exact tblLen_extendIter hs h
    · have ht2 := Option.some.inj h
      rw [← ht2]
      intro v nd2 hv
      exact hs v nd2 hv

theorem tblLen_reach {T : List Nat} {s : Ukkonen}
    (h : Reach (initState T) s) : TblLen s := by
  induction h with
  | refl => exact tblLen_init T
  | tail h1 h2 ih => exact tblLen_step ih h2
